import Mathlib

/-!
Verification of the hunk-assembly engine of the `diff-utils` crate
(repository `anixe/diff-assert`).

The definitions below are a shallow embedding of
`src/diff-utils/src/line.rs`, `src/diff-utils/src/hunk.rs`,
`src/diff-utils/src/context.rs` (the `Context` struct and
`Context::create_hunk`), `src/diff-utils/src/processor.rs`
(`Processor` with its `diffs::Diff` implementation: `equal`, `delete`,
`insert`, `replace`, `finish` and the private `split_hunks`),
`src/diff-utils/src/lib.rs` (`Comparison::compare`, `CompareResult`)
and `src/diff-utils/src/display/line_diff.rs` (`LineDiff::fmt`).

Rust `usize` values are modelled as `Nat`; the `usize` subtractions in
`split_hunks` and `create_hunk` (which would panic on underflow in the
source) are modelled by truncated `Nat` subtraction, and a parallel
`Chk`-suffixed pipeline models them with checked subtraction returning
`Option`, so that absence of underflow is a provable statement.
`self.size.checked_sub(self.context_radius).unwrap_or_default()` is
explicitly non-panicking in the source and stays truncated subtraction
in both pipelines.

Line content (`&'a str` borrowed from the caller's slices) is modelled
by `String`, and slice indexing `self.text1[i]` by `List.getD`; the
edit-script well-formedness contract of spec section 6 keeps every
index in range.

The sequence-alignment collaborator (the external `diffs` crate) is
not part of this repository; where a claim needs it, it is modelled
from the spec (see `align` below).
-/

namespace DiffUtils

/-- Mirrors `LineKind` from `src/diff-utils/src/line.rs`. -/
inductive LineKind where
  | Removed
  | Inserted
  | ReplaceRemoved
  | ReplaceInserted
  | Unchanged
deriving DecidableEq, Repr

/-- Mirrors `LineKind::invert` from `src/diff-utils/src/line.rs`. -/
def LineKind.invert : LineKind → LineKind
  | .Removed => .Inserted
  | .Inserted => .Removed
  | .ReplaceInserted => .ReplaceRemoved
  | .ReplaceRemoved => .ReplaceInserted
  | u => u

/-- Mirrors `LineKind::sign` from `src/diff-utils/src/line.rs`. -/
def LineKind.sign : LineKind → String
  | .ReplaceInserted | .Inserted => "+"
  | .ReplaceRemoved | .Removed => "-"
  | .Unchanged => " "

/-- Mirrors `LineKind::is_replaced` from `src/diff-utils/src/line.rs`. -/
def LineKind.isReplaced : LineKind → Bool
  | .ReplaceInserted | .ReplaceRemoved => true
  | _ => false

/-- Mirrors `Line` from `src/diff-utils/src/line.rs`; the borrowed
`inner: &'a str` is modelled by an owned `String`. -/
structure Line where
  kind : LineKind
  inner : String
  old_pos : Option Nat
  new_pos : Option Nat
deriving DecidableEq, Repr

/-- Mirrors `Line::insert`. -/
def Line.insert (pos : Nat) (inner : String) : Line :=
  { kind := .Inserted, inner := inner, old_pos := none, new_pos := some pos }

/-- Mirrors `Line::remove`. -/
def Line.remove (pos : Nat) (inner : String) : Line :=
  { kind := .Removed, inner := inner, old_pos := some pos, new_pos := none }

/-- Mirrors `Line::replace_insert`. -/
def Line.replace_insert (old_pos : Option Nat) (new_pos : Nat) (inner : String) : Line :=
  { kind := .ReplaceInserted, inner := inner, old_pos := old_pos, new_pos := some new_pos }

/-- Mirrors `Line::replace_remove`. -/
def Line.replace_remove (old_pos : Nat) (new_pos : Option Nat) (inner : String) : Line :=
  { kind := .ReplaceRemoved, inner := inner, old_pos := some old_pos, new_pos := new_pos }

/-- Mirrors `Line::unchanged`. -/
def Line.unchanged (old_pos new_pos : Nat) (inner : String) : Line :=
  { kind := .Unchanged, inner := inner, old_pos := some old_pos, new_pos := some new_pos }

/-- Mirrors `Hunk` from `src/diff-utils/src/hunk.rs`. -/
structure Hunk where
  old_start : Nat
  new_start : Nat
  inserted : Nat
  removed : Nat
  lines : List Line
deriving DecidableEq, Repr

/-- Mirrors `Context` from `src/diff-utils/src/context.rs`; the
`VecDeque<Line>` is modelled by a `List` whose head is the deque front. -/
structure Context where
  start : Option Nat
  data : List Line
  changed : Bool
  equaled : Nat
  removed : Nat
  inserted : Nat
deriving DecidableEq, Repr

/-- Mirrors `Context::default()`. -/
def Context.default : Context :=
  { start := none, data := [], changed := false, equaled := 0, removed := 0, inserted := 0 }

/-- Mirrors `Context::create_hunk` from `src/diff-utils/src/context.rs`
lines 17-39.  The source drains `self.data` into the hunk and the sole
caller (`split_hunks`) immediately replaces the whole context, so the
drain is modelled by reading `data` without mutation.  The `usize`
subtraction `start + inserted - removed` is truncated `Nat`
subtraction here (see `create_hunkChk` for the checked model). -/
def Context.create_hunk (c : Context) (removed inserted : Nat) : Option Hunk :=
  match c.start with
  | none => none
  | some start0 =>
    let start := if start0 = 0 then 1 else start0
    if c.changed then
      some { old_start := start,
             removed := c.equaled + c.removed,
             new_start := start + inserted - removed,
             inserted := c.equaled + c.inserted,
             lines := c.data }
    else
      none

/-- Mirrors `Processor` from `src/diff-utils/src/processor.rs`; the two
borrowed `&'a [&'a str]` slices are modelled by `List String`. -/
structure Processor where
  text1 : List String
  text2 : List String
  context_radius : Nat
  inserted : Nat
  removed : Nat
  context : Context
  result : List Hunk
  size : Nat
deriving DecidableEq, Repr

/-- Mirrors `Processor::new`. -/
def Processor.new (text1 text2 : List String) (context_radius : Nat) : Processor :=
  { text1 := text1, text2 := text2, context_radius := context_radius,
    inserted := 0, removed := 0, size := 0,
    context := Context.default, result := [] }

/-- Mirrors `Processor::split_hunks` from `src/diff-utils/src/processor.rs`
lines 41-66.  `VecDeque::split_off at` keeps the first `at` elements and
returns the tail; `pop_front` on the tail is `List.tail`.  The `usize`
subtractions `data.len() - diff`, `equaled -= diff` and
`i - removed.len()` are truncated here (checked in `split_hunksChk`). -/
def Processor.split_hunks (p : Processor) (i : Option Nat) : Processor :=
  let diff := p.size - p.context_radius
  let at_ := p.context.data.length - diff
  let kept := p.context.data.take at_
  let removedQ := p.context.data.drop at_
  let ctx1 : Context := { p.context with data := kept, equaled := p.context.equaled - diff }
  let result := match ctx1.create_hunk p.removed p.inserted with
    | some hunk => p.result ++ [hunk]
    | none => p.result
  let removedQ := removedQ.tail
  let removedTot := p.removed + ctx1.removed
  let insertedTot := p.inserted + ctx1.inserted
  let newCtx : Context :=
    { start := i.map (fun i => i - removedQ.length),
      data := removedQ,
      changed := false,
      equaled := removedQ.length,
      removed := 0,
      inserted := 0 }
  { p with context := newCtx, result := result,
           removed := removedTot, inserted := insertedTot,
           size := removedQ.length }

/-- One iteration of the `for (i, j)` loop in `Processor::equal`
(`src/diff-utils/src/processor.rs` lines 79-118).  The two sequential
`if` statements of the source are equivalent to a single case split on
the entry value of `context.changed`, because the first block never
sets `changed` and the second block is entered only when `changed`
was already true. -/
def Processor.equalStep (p : Processor) (i j : Nat) : Processor :=
  if p.context.changed then
    if p.size < p.context_radius * 2 then
      { p with
        context := { p.context with
          data := p.context.data ++ [Line.unchanged i j (p.text1.getD i "")],
          equaled := p.context.equaled + 1 },
        size := p.size + 1 }
    else
      let q := p.split_hunks (some i)
      { q with
        context := { q.context with
          data := q.context.data ++ [Line.unchanged i j (q.text1.getD i "")],
          equaled := q.context.equaled + 1 },
        size := q.size + 1 }
  else
    let data := p.context.data ++ [Line.unchanged i j (p.text1.getD i "")]
    if p.size < p.context_radius then
      { p with
        context := { p.context with data := data, equaled := p.context.equaled + 1 },
        size := p.size + 1 }
    else
      { p with
        context := { p.context with
          data := data.tail,
          start := p.context.start.map (· + 1) } }

/-- The `for (i, j) in (old..old + len).zip(_new.._new + len)` loop of
`Processor::equal`, by recursion on the number of remaining lines. -/
def Processor.equalLoop : Processor → Nat → Nat → Nat → Processor
  | p, _, _, 0 => p
  | p, i, j, len + 1 => (p.equalStep i j).equalLoop (i + 1) (j + 1) len

/-- The common preamble of every `diffs::Diff` callback in
`src/diff-utils/src/processor.rs`: reset `self.size = 0`, then set
`context.start` if it is still unset. -/
def Processor.pre (p : Processor) (old : Nat) : Processor :=
  let p := { p with size := 0 }
  if p.context.start = none then
    { p with context := { p.context with start := some old } }
  else p

/-- Mirrors `Processor::equal` (`diffs::Diff::equal`) from
`src/diff-utils/src/processor.rs` lines 72-121. -/
def Processor.equal (p : Processor) (old new_ len : Nat) : Processor :=
  (p.pre old).equalLoop old new_ len

/-- Mirrors `Processor::delete` from `src/diff-utils/src/processor.rs`
lines 123-137. -/
def Processor.delete (p : Processor) (old len _new : Nat) : Processor :=
  let p := p.pre old
  { p with context := { p.context with
      data := p.context.data ++
        (List.range len).map (fun k => Line.remove (old + k) (p.text1.getD (old + k) "")),
      changed := true,
      removed := p.context.removed + len } }

/-- Mirrors `Processor::insert` from `src/diff-utils/src/processor.rs`
lines 139-153. -/
def Processor.insert (p : Processor) (old new_ new_len : Nat) : Processor :=
  let p := p.pre old
  { p with context := { p.context with
      data := p.context.data ++
        (List.range new_len).map (fun k => Line.insert (new_ + k) (p.text2.getD (new_ + k) "")),
      changed := true,
      inserted := p.context.inserted + new_len } }

/-- Mirrors `Processor::replace` from `src/diff-utils/src/processor.rs`
lines 155-186.  The first loop zips `(old..old+old_len)` with
`(new..new+old_len)` and blanks the new position beyond `new + new_len`;
the second loop is symmetric. -/
def Processor.replace (p : Processor) (old old_len new_ new_len : Nat) : Processor :=
  let p := p.pre old
  { p with context := { p.context with
      data := p.context.data ++
        (List.range old_len).map (fun k =>
          Line.replace_remove (old + k)
            (if new_ + k < new_ + new_len then some (new_ + k) else none)
            (p.text1.getD (old + k) "")) ++
        (List.range new_len).map (fun k =>
          Line.replace_insert
            (if old + k < old + old_len then some (old + k) else none)
            (new_ + k) (p.text2.getD (new_ + k) "")),
      changed := true,
      removed := p.context.removed + old_len,
      inserted := p.context.inserted + new_len } }

/-- Mirrors `Processor::finish` from `src/diff-utils/src/processor.rs`
lines 188-192. -/
def Processor.finish (p : Processor) : Processor :=
  p.split_hunks none

/-- An edit-script operation, as in the `diffs::Diff` contract of spec
section 6.  The contract makes the index arguments of each call the
running totals of consumed old/new lines, so operations carry only
their lengths and the runner below supplies the indices. -/
inductive Op where
  | equal : Nat → Op
  | delete : Nat → Op
  | insert : Nat → Op
  | replace : Nat → Nat → Op
deriving DecidableEq, Repr

/-- Number of old-file lines consumed by an operation. -/
def Op.oldLen : Op → Nat
  | .equal len => len
  | .delete len => len
  | .insert _ => 0
  | .replace ol _ => ol

/-- Number of new-file lines consumed by an operation. -/
def Op.newLen : Op → Nat
  | .equal len => len
  | .delete _ => 0
  | .insert len => len
  | .replace _ nl => nl

/-- Whether an operation is an `equal` run. -/
def Op.isEqual : Op → Bool
  | .equal _ => true
  | _ => false

/-- Dispatches one edit-script operation to the corresponding
`diffs::Diff` callback, at old offset `o` and new offset `n`. -/
def Processor.applyOp (p : Processor) (o n : Nat) : Op → Processor
  | .equal len => p.equal o n len
  | .delete len => p.delete o len n
  | .insert len => p.insert o n len
  | .replace ol nl => p.replace o ol n nl

/-- Feeds a whole edit script to the processor, threading the running
old/new offsets as the alignment collaborator does. -/
def Processor.run : Processor → Nat → Nat → List Op → Processor
  | p, _, _, [] => p
  | p, o, n, op :: rest => (p.applyOp o n op).run (o + op.oldLen) (n + op.newLen) rest

/-- Total old-file length covered by a script. -/
def scriptOldLen (s : List Op) : Nat := (s.map Op.oldLen).sum

/-- Total new-file length covered by a script. -/
def scriptNewLen (s : List Op) : Nat := (s.map Op.newLen).sum

/-- The edit-script contract of spec section 6 relative to offsets
`o`, `n`: the remaining operations cover `[o, |text1|)` and
`[n, |text2|)` exactly (the runner already forces the ranges to be
ordered, adjacent and non-overlapping), and every `equal` run relates
positions holding equal content, as an edit script transforming
`text1` into `text2` must. -/
def WFFrom (text1 text2 : List String) : Nat → Nat → List Op → Prop
  | o, n, [] => o = text1.length ∧ n = text2.length
  | o, n, Op.equal len :: rest =>
    (∀ k, k < len → text1.getD (o + k) "" = text2.getD (n + k) "") ∧
      WFFrom text1 text2 (o + len) (n + len) rest
  | o, n, Op.delete len :: rest => WFFrom text1 text2 (o + len) n rest
  | o, n, Op.insert len :: rest => WFFrom text1 text2 o (n + len) rest
  | o, n, Op.replace ol nl :: rest => WFFrom text1 text2 (o + ol) (n + nl) rest

instance instDecWFFrom (text1 text2 : List String) :
    (o : Nat) → (n : Nat) → (script : List Op) → Decidable (WFFrom text1 text2 o n script)
  | _, _, [] => inferInstanceAs (Decidable (_ ∧ _))
  | o, n, Op.equal len :: rest =>
    have : Decidable (WFFrom text1 text2 (o + len) (n + len) rest) :=
      instDecWFFrom text1 text2 (o + len) (n + len) rest
    inferInstanceAs (Decidable (_ ∧ _))
  | o, n, Op.delete len :: rest => instDecWFFrom text1 text2 (o + len) n rest
  | o, n, Op.insert len :: rest => instDecWFFrom text1 text2 o (n + len) rest
  | o, n, Op.replace ol nl :: rest => instDecWFFrom text1 text2 (o + ol) (n + nl) rest

/-- The edit-script contract of spec section 6 for a whole script. -/
def WellFormed (text1 text2 : List String) (script : List Op) : Prop :=
  WFFrom text1 text2 0 0 script

instance (text1 text2 : List String) (script : List Op) :
    Decidable (WellFormed text1 text2 script) :=
  inferInstanceAs (Decidable (WFFrom text1 text2 0 0 script))

/-- A well-formed remainder determines the remaining coverage. -/
theorem WFFrom.coverage {text1 text2 : List String} :
    ∀ {script : List Op} {o n : Nat}, WFFrom text1 text2 o n script →
      o + scriptOldLen script = text1.length ∧ n + scriptNewLen script = text2.length := by
  intro script
  induction script with
  | nil =>
    intro o n h
    obtain ⟨h1, h2⟩ := h
    simp [scriptOldLen, scriptNewLen, h1, h2]
  | cons op rest ih =>
    intro o n h
    have hsum : ∀ x, scriptOldLen (x :: rest) = x.oldLen + scriptOldLen rest := by
      intro x; simp [scriptOldLen]
    have hsum2 : ∀ x, scriptNewLen (x :: rest) = x.newLen + scriptNewLen rest := by
      intro x; simp [scriptNewLen]
    cases op with
    | equal len =>
      obtain ⟨-, h⟩ := h
      have := ih h
      simp only [hsum, hsum2, Op.oldLen, Op.newLen]
      omega
    | delete len =>
      have := ih h
      simp only [hsum, hsum2, Op.oldLen, Op.newLen]
      omega
    | insert len =>
      have := ih h
      simp only [hsum, hsum2, Op.oldLen, Op.newLen]
      omega
    | replace ol nl =>
      have := ih h
      simp only [hsum, hsum2, Op.oldLen, Op.newLen]
      omega

/-- Runs the full pipeline on an edit script: `Processor::new`, the
`diffs::Diff` callbacks, then `finish`. -/
def processScript (text1 text2 : List String) (radius : Nat) (script : List Op) : Processor :=
  ((Processor.new text1 text2 radius).run 0 0 script).finish

/-- Mirrors `CompareResult` from `src/diff-utils/src/lib.rs`. -/
structure CompareResult where
  hunks : List Hunk
deriving DecidableEq, Repr

/-- Mirrors `CompareResult::is_empty`. -/
def CompareResult.is_empty (c : CompareResult) : Bool := c.hunks.isEmpty

/-- Mirrors the `Comparison` struct from `src/diff-utils/src/lib.rs`. -/
structure Comparison where
  left : List String
  right : List String
  context_radius : Nat
deriving DecidableEq, Repr

/-- Mirrors `Comparison::new` (default `context_radius` 3). -/
def Comparison.new (left right : List String) : Comparison :=
  { left := left, right := right, context_radius := 3 }

/-- Modelled from the spec: the sequence-alignment collaborator (the
external `diffs` crate, "treated as a black box -- any
longest-common-subsequence or patience-diff implementation satisfies
the contract in section 6") is not part of this repository.  This model
emits maximal `equal` runs for common segments and per-line `replace`
operations otherwise, and satisfies the coverage contract of spec
section 6. -/
def alignPush (rest : List Op) : List Op :=
  match rest with
  | Op.equal k :: tl => Op.equal (k + 1) :: tl
  | _ => Op.equal 1 :: rest

/-- Modelled from the spec: see `alignPush`.  Produces a well-formed
edit script for the two sequences. -/
def align : List String → List String → List Op
  | [], [] => []
  | [], y :: ys => [Op.insert (y :: ys).length]
  | x :: xs, [] => [Op.delete (x :: xs).length]
  | x :: xs, y :: ys =>
    if x = y then alignPush (align xs ys)
    else Op.replace 1 1 :: align xs ys

/-- Mirrors the success path of `Comparison::compare`
(`src/diff-utils/src/lib.rs` lines 100-117): drive the processor with
the edit script and wrap the hunks. -/
def Comparison.compute (c : Comparison) : CompareResult :=
  { hunks := (processScript c.left c.right c.context_radius (align c.left c.right)).result }

/-- Mirrors `Comparison::compare` from `src/diff-utils/src/lib.rs`
lines 100-117: the alignment stage may fail (its `io::Error` is
modelled by `String`), and the `?` operator propagates that failure
verbatim; otherwise the hunks produced by the processor are returned. -/
def Comparison.compare (c : Comparison) (aligned : Except String (List Op)) :
    Except String CompareResult :=
  match aligned with
  | .error e => .error e
  | .ok script => .ok { hunks := (processScript c.left c.right c.context_radius script).result }

/-- Styles used by the display code: `line` is the whole-line rendering
of `Line::display`, `dimmed` and `reversed` mirror the `colored` crate
calls in `LineDiff::fmt`, and `dead` marks the `unreachable!` branch. -/
inductive Style where
  | line
  | dimmed
  | reversed
  | dead
deriving DecidableEq, Repr

/-- A styled fragment of display output. -/
structure Styled where
  style : Style
  content : String
deriving DecidableEq, Repr

/-- The fragment list built by the non-empty branch of `LineDiff::fmt`
(`src/diff-utils/src/display/line_diff.rs` lines 64-79): drop removed
codepoints, dim unchanged ones, reverse-video inserted ones. -/
def mergedFragments (h : Hunk) : List Styled :=
  (h.lines.filter (fun l => l.kind != LineKind.Removed && l.kind != LineKind.ReplaceRemoved)).map
    (fun letter =>
      if letter.kind = LineKind.Unchanged then { style := Style.dimmed, content := letter.inner }
      else if letter.kind = LineKind.Inserted ∨ letter.kind = LineKind.ReplaceInserted then
        { style := Style.reversed, content := letter.inner }
      else { style := Style.dead, content := letter.inner })

/-- Mirrors `LineDiff::fmt` from `src/diff-utils/src/display/line_diff.rs`
lines 36-90: split both line contents into single-codepoint strings
(`char_indices` with `len_utf8`-sized slices), re-run the comparison
pipeline with `context_radius` equal to the longer byte length, render
the right line unchanged when the result is empty, and otherwise render
the merged fragments of the first hunk.  `diff.hunks[0]` is modelled by
`head?` with an empty default for the branch the `is_empty` guard makes
unreachable. -/
def LineDiff.render (left right : Line) : List Styled :=
  let l := left.inner.data.map (fun c => String.singleton c)
  let r := right.inner.data.map (fun c => String.singleton c)
  let len := max left.inner.utf8ByteSize right.inner.utf8ByteSize
  let diff := Comparison.compute { left := l, right := r, context_radius := len }
  if diff.is_empty then [{ style := Style.line, content := right.inner }]
  else
    match diff.hunks.head? with
    | none => []
    | some hunk => mergedFragments hunk

/-- Whether a line is printed when replaying the old file: its sign is
`-` or a space (`Removed`, `ReplaceRemoved`, `Unchanged`). -/
def Line.isOldSide (l : Line) : Bool :=
  l.kind != LineKind.Inserted && l.kind != LineKind.ReplaceInserted

/-- Whether a line is printed when replaying the new file: its sign is
`+` or a space (`Inserted`, `ReplaceInserted`, `Unchanged`). -/
def Line.isNewSide (l : Line) : Bool :=
  l.kind != LineKind.Removed && l.kind != LineKind.ReplaceRemoved

/-- The `-` and space lines of a hunk body, in order. -/
def oldSide (ls : List Line) : List Line := ls.filter Line.isOldSide

/-- The `+` and space lines of a hunk body, in order. -/
def newSide (ls : List Line) : List Line := ls.filter Line.isNewSide

/-- Replaying the `-` and space lines: their contents in order. -/
def replayOld (ls : List Line) : List String := (oldSide ls).map Line.inner

/-- Replaying the `+` and space lines: their contents in order. -/
def replayNew (ls : List Line) : List String := (newSide ls).map Line.inner

/-- Reconstruction soundness of one emitted hunk: there are 0-based
positions `s` (old file) and `t` (new file) such that replaying the
`-`/space lines reproduces exactly `removed` contiguous old-file lines
starting at `s`, replaying the `+`/space lines reproduces exactly
`inserted` contiguous new-file lines starting at `t`, the recorded
positions are exactly those ranges, and the reported `old_start` and
`new_start` are `s` and `t` except that a hunk whose accumulator start
is `0` has both shifted up by the clamping in `create_hunk`. -/
def HunkSound (text1 text2 : List String) (h : Hunk) : Prop :=
  ∃ s t,
    h.old_start = (if s = 0 then 1 else s) ∧
    h.new_start = (if s = 0 then t + 1 else t) ∧
    (oldSide h.lines).length = h.removed ∧
    s + h.removed ≤ text1.length ∧
    (oldSide h.lines).map Line.old_pos = (List.range' s h.removed).map some ∧
    replayOld h.lines = (text1.drop s).take h.removed ∧
    (newSide h.lines).length = h.inserted ∧
    t + h.inserted ≤ text2.length ∧
    (newSide h.lines).map Line.new_pos = (List.range' t h.inserted).map some ∧
    replayNew h.lines = (text2.drop t).take h.inserted

/-- Rust `usize` subtraction with its panic on underflow made explicit. -/
def checkedSub (a b : Nat) : Option Nat := if b ≤ a then some (a - b) else none

/-- `Context::create_hunk` with the `usize` subtraction
`start + inserted - removed` checked: `none` models the panic, `some r`
the normal return `r` of the source. -/
def Context.create_hunkChk (c : Context) (removed inserted : Nat) : Option (Option Hunk) :=
  match c.start with
  | none => some none
  | some start0 =>
    let start := if start0 = 0 then 1 else start0
    if c.changed then
      match checkedSub (start + inserted) removed with
      | none => none
      | some ns =>
        some (some { old_start := start,
                     removed := c.equaled + c.removed,
                     new_start := ns,
                     inserted := c.equaled + c.inserted,
                     lines := c.data })
    else
      some none

/-- `Processor::split_hunks` with every panicking `usize` subtraction
checked: `data.len() - diff`, `equaled -= diff`, the subtraction inside
`create_hunk`, and `i - removed.len()`.  The initial
`checked_sub(..).unwrap_or_default()` stays truncated as in the source. -/
def Processor.split_hunksChk (p : Processor) (i : Option Nat) : Option Processor :=
  let diff := p.size - p.context_radius
  match checkedSub p.context.data.length diff with
  | none => none
  | some at_ =>
    match checkedSub p.context.equaled diff with
    | none => none
    | some eq1 =>
      let kept := p.context.data.take at_
      let removedQ := p.context.data.drop at_
      let ctx1 : Context := { p.context with data := kept, equaled := eq1 }
      match ctx1.create_hunkChk p.removed p.inserted with
      | none => none
      | some hunkOpt =>
        let result := match hunkOpt with
          | some hunk => p.result ++ [hunk]
          | none => p.result
        let removedQ := removedQ.tail
        let removedTot := p.removed + ctx1.removed
        let insertedTot := p.inserted + ctx1.inserted
        let mkP (st : Option Nat) : Processor :=
          { p with
            context := { start := st, data := removedQ, changed := false,
                         equaled := removedQ.length, removed := 0, inserted := 0 },
            result := result, removed := removedTot, inserted := insertedTot,
            size := removedQ.length }
        match i with
        | none => some (mkP none)
        | some ix =>
          match checkedSub ix removedQ.length with
          | none => none
          | some st => some (mkP (some st))

/-- One `equal`-loop iteration with the split checked; the non-split
branches perform no `usize` subtraction and agree with `equalStep`. -/
def Processor.equalStepChk (p : Processor) (i j : Nat) : Option Processor :=
  if p.context.changed = true ∧ ¬ p.size < p.context_radius * 2 then
    (p.split_hunksChk (some i)).map (fun q =>
      { q with
        context := { q.context with
          data := q.context.data ++ [Line.unchanged i j (q.text1.getD i "")],
          equaled := q.context.equaled + 1 },
        size := q.size + 1 })
  else
    some (p.equalStep i j)

/-- The `equal` loop with checked subtraction. -/
def Processor.equalLoopChk : Processor → Nat → Nat → Nat → Option Processor
  | p, _, _, 0 => some p
  | p, i, j, len + 1 => (p.equalStepChk i j).bind (fun q => q.equalLoopChk (i + 1) (j + 1) len)

/-- `Processor::equal` with checked subtraction. -/
def Processor.equalChk (p : Processor) (old new_ len : Nat) : Option Processor :=
  (p.pre old).equalLoopChk old new_ len

/-- Operation dispatch with checked subtraction; `delete`, `insert` and
`replace` perform no `usize` subtraction. -/
def Processor.applyOpChk (p : Processor) (o n : Nat) : Op → Option Processor
  | .equal len => p.equalChk o n len
  | op => some (p.applyOp o n op)

/-- The runner with checked subtraction. -/
def Processor.runChk : Processor → Nat → Nat → List Op → Option Processor
  | p, _, _, [] => some p
  | p, o, n, op :: rest =>
    (p.applyOpChk o n op).bind (fun q => q.runChk (o + op.oldLen) (n + op.newLen) rest)

/-- The full pipeline with checked subtraction: `some` exactly when no
`usize` subtraction in the run underflows. -/
def processScriptChk (text1 text2 : List String) (radius : Nat) (script : List Op) :
    Option Processor :=
  ((Processor.new text1 text2 radius).runChk 0 0 script).bind
    (fun q => q.split_hunksChk none)

/-- Length of the run of unchanged lines at the head of a hunk body. -/
def leadingUnchanged (ls : List Line) : Nat :=
  (ls.takeWhile (fun l => l.kind == LineKind.Unchanged)).length

/-- Length of the run of unchanged lines at the end of a hunk body. -/
def trailingUnchanged (ls : List Line) : Nat :=
  leadingUnchanged ls.reverse


section InvariantToolkit

/-- Number of unchanged lines in a buffer. -/
def countUnch (ls : List Line) : Nat :=
  ls.countP (fun l => l.kind == LineKind.Unchanged)

/-- Number of removed (plain or replace) lines in a buffer. -/
def countRem (ls : List Line) : Nat :=
  ls.countP (fun l => l.kind == LineKind.Removed || l.kind == LineKind.ReplaceRemoved)

/-- Number of inserted (plain or replace) lines in a buffer. -/
def countIns (ls : List Line) : Nat :=
  ls.countP (fun l => l.kind == LineKind.Inserted || l.kind == LineKind.ReplaceInserted)

/-- Position/content pair expected at old position `k`. -/
def oldStamp (text1 : List String) (k : Nat) : Option Nat × String :=
  (some k, text1.getD k "")

/-- Position/content pair expected at new position `k`. -/
def newStamp (text2 : List String) (k : Nat) : Option Nat × String :=
  (some k, text2.getD k "")

/-- Old positions and contents of the `-`/space lines of a buffer. -/
def oldTrace (ls : List Line) : List (Option Nat × String) :=
  (oldSide ls).map (fun l => (l.old_pos, l.inner))

/-- New positions and contents of the `+`/space lines of a buffer. -/
def newTrace (ls : List Line) : List (Option Nat × String) :=
  (newSide ls).map (fun l => (l.new_pos, l.inner))

/-- The run of unchanged lines the processor pushes for old positions
`o0..o0+len` paired with new positions `n0..n0+len`. -/
def unchRun (text1 : List String) (o0 n0 len : Nat) : List Line :=
  (List.range len).map (fun k => Line.unchanged (o0 + k) (n0 + k) (text1.getD (o0 + k) ""))

theorem oldSide_append (a b : List Line) : oldSide (a ++ b) = oldSide a ++ oldSide b := by
  simp [oldSide, List.filter_append]

theorem newSide_append (a b : List Line) : newSide (a ++ b) = newSide a ++ newSide b := by
  simp [newSide, List.filter_append]

theorem oldTrace_append (a b : List Line) : oldTrace (a ++ b) = oldTrace a ++ oldTrace b := by
  simp [oldTrace, oldSide_append]

theorem newTrace_append (a b : List Line) : newTrace (a ++ b) = newTrace a ++ newTrace b := by
  simp [newTrace, newSide_append]

theorem countUnch_append (a b : List Line) : countUnch (a ++ b) = countUnch a + countUnch b := by
  simp [countUnch, List.countP_append]

theorem countRem_append (a b : List Line) : countRem (a ++ b) = countRem a + countRem b := by
  simp [countRem, List.countP_append]

theorem countIns_append (a b : List Line) : countIns (a ++ b) = countIns a + countIns b := by
  simp [countIns, List.countP_append]

theorem length_oldSide (ls : List Line) :
    (oldSide ls).length = countUnch ls + countRem ls := by
  induction ls with
  | nil => rfl
  | cons l tl ih =>
    rcases l with ⟨k, c, op, np⟩
    cases k <;>
      simp [oldSide, countUnch, countRem, Line.isOldSide, List.filter_cons, List.countP_cons] at * <;>
      omega

theorem length_newSide (ls : List Line) :
    (newSide ls).length = countUnch ls + countIns ls := by
  induction ls with
  | nil => rfl
  | cons l tl ih =>
    rcases l with ⟨k, c, op, np⟩
    cases k <;>
      simp [newSide, countUnch, countIns, Line.isNewSide, List.filter_cons, List.countP_cons] at * <;>
      omega

theorem allUnch_oldSide {ls : List Line} (h : ∀ l ∈ ls, l.kind = LineKind.Unchanged) :
    oldSide ls = ls :=
  List.filter_eq_self.mpr (fun l hl => by simp [Line.isOldSide, h l hl])

theorem allUnch_newSide {ls : List Line} (h : ∀ l ∈ ls, l.kind = LineKind.Unchanged) :
    newSide ls = ls :=
  List.filter_eq_self.mpr (fun l hl => by simp [Line.isNewSide, h l hl])

theorem allUnch_countUnch {ls : List Line} (h : ∀ l ∈ ls, l.kind = LineKind.Unchanged) :
    countUnch ls = ls.length :=
  List.countP_eq_length.mpr (fun l hl => by simp [h l hl])

theorem allUnch_countRem {ls : List Line} (h : ∀ l ∈ ls, l.kind = LineKind.Unchanged) :
    countRem ls = 0 :=
  List.countP_eq_zero.mpr (fun l hl => by simp [h l hl])

theorem allUnch_countIns {ls : List Line} (h : ∀ l ∈ ls, l.kind = LineKind.Unchanged) :
    countIns ls = 0 :=
  List.countP_eq_zero.mpr (fun l hl => by simp [h l hl])

theorem unchRun_length (text1 : List String) (o0 n0 len : Nat) :
    (unchRun text1 o0 n0 len).length = len := by
  simp [unchRun]

theorem unchRun_zero (text1 : List String) (o0 n0 : Nat) :
    unchRun text1 o0 n0 0 = [] := rfl

theorem unchRun_concat (text1 : List String) (o0 n0 len : Nat) :
    unchRun text1 o0 n0 len ++
      [Line.unchanged (o0 + len) (n0 + len) (text1.getD (o0 + len) "")] =
    unchRun text1 o0 n0 (len + 1) := by
  simp [unchRun, List.range_succ]

theorem unchRun_cons (text1 : List String) (o0 n0 len : Nat) :
    unchRun text1 o0 n0 (len + 1) =
      Line.unchanged o0 n0 (text1.getD o0 "") :: unchRun text1 (o0 + 1) (n0 + 1) len := by
  simp only [unchRun, List.range_succ_eq_map, List.map_cons, List.map_map, List.cons.injEq]
  constructor
  · simp
  · apply List.map_congr_left
    intro k _
    show Line.unchanged (o0 + (k + 1)) (n0 + (k + 1)) (text1.getD (o0 + (k + 1)) "") = _
    rw [show o0 + (k + 1) = o0 + 1 + k from by omega,
        show n0 + (k + 1) = n0 + 1 + k from by omega]

theorem unchRun_kinds (text1 : List String) (o0 n0 len : Nat) :
    ∀ l ∈ unchRun text1 o0 n0 len, l.kind = LineKind.Unchanged := by
  intro l hl
  simp only [unchRun, List.mem_map] at hl
  obtain ⟨k, -, rfl⟩ := hl
  rfl

theorem unchRun_drop (text1 : List String) (o0 n0 len k : Nat) :
    (unchRun text1 o0 n0 len).drop k = unchRun text1 (o0 + k) (n0 + k) (len - k) := by
  induction k generalizing o0 n0 len with
  | zero => simp
  | succ k ih =>
    cases len with
    | zero => simp [unchRun_zero]
    | succ len =>
      rw [unchRun_cons, List.drop_succ_cons, ih]
      congr 1 <;> omega

theorem unchRun_take (text1 : List String) (o0 n0 len k : Nat) (h : k ≤ len) :
    (unchRun text1 o0 n0 len).take k = unchRun text1 o0 n0 k := by
  induction k generalizing o0 n0 len with
  | zero => simp [unchRun_zero]
  | succ k ih =>
    cases len with
    | zero => omega
    | succ len =>
      rw [unchRun_cons, List.take_succ_cons, ih (o0 + 1) (n0 + 1) len (by omega), unchRun_cons]

theorem unchRun_oldTrace (text1 : List String) (o0 n0 len : Nat) :
    oldTrace (unchRun text1 o0 n0 len) = (List.range' o0 len).map (oldStamp text1) := by
  rw [oldTrace, allUnch_oldSide (unchRun_kinds text1 o0 n0 len)]
  simp only [unchRun, List.map_map, List.range'_eq_map_range]
  apply List.map_congr_left
  intro k _
  simp [Function.comp, oldStamp, Line.unchanged]

theorem unchRun_newTrace (text1 : List String) (o0 n0 len : Nat) :
    newTrace (unchRun text1 o0 n0 len) =
      (List.range len).map (fun k => (some (n0 + k), text1.getD (o0 + k) "")) := by
  rw [newTrace, allUnch_newSide (unchRun_kinds text1 o0 n0 len)]
  simp [unchRun, List.map_map, Function.comp, Line.unchanged]

theorem range'_map_getD_eq {α : Type} [Inhabited α] (xs : List α) (d : α) :
    ∀ (L s : Nat), s + L ≤ xs.length →
      (List.range' s L).map (fun k => xs.getD k d) = (xs.drop s).take L := by
  intro L
  induction L with
  | zero => simp
  | succ L ih =>
    intro s h
    rw [List.range'_succ, List.map_cons, ih (s + 1) (by omega)]
    have hs : s < xs.length := by omega
    rw [List.drop_eq_getElem_cons hs, List.take_succ_cons, List.getD_eq_getElem?_getD,
      List.getElem?_eq_getElem hs]
    rfl

theorem trace_fst {ls : List Line} {stamps : List (Option Nat × String)}
    (pos : Line → Option Nat) (inner : Line → String)
    (h : ls.map (fun l => (pos l, inner l)) = stamps) :
    ls.map pos = stamps.map Prod.fst := by
  rw [← h, List.map_map]
  rfl

theorem trace_snd {ls : List Line} {stamps : List (Option Nat × String)}
    (pos : Line → Option Nat) (inner : Line → String)
    (h : ls.map (fun l => (pos l, inner l)) = stamps) :
    ls.map inner = stamps.map Prod.snd := by
  rw [← h, List.map_map]
  rfl


end InvariantToolkit

section Invariant

/-- The ordering relation claimed for consecutive hunks: strictly
increasing `old_start`, and the old range covered by the first ends
strictly before the `old_start` of the second. -/
def hunkOrdered (a b : Hunk) : Prop :=
  a.old_start < b.old_start ∧ a.old_start + a.removed ≤ b.old_start

/-- The processing invariant, at a state where `o` old lines and `n`
new lines have been consumed. -/
structure PInv (p : Processor) (o n : Nat) : Prop where
  balance : p.removed + p.context.removed + n = p.inserted + p.context.inserted + o
  startNone : p.context.start = none →
    p.context.data = [] ∧ p.context.changed = false ∧ p.context.equaled = 0 ∧
    p.context.removed = 0 ∧ p.context.inserted = 0 ∧ p.size = 0
  countEq : p.context.equaled = countUnch p.context.data
  countRm : p.context.removed = countRem p.context.data
  countIn : p.context.inserted = countIns p.context.data
  flushOld : ∀ s, p.context.start = some s →
    s ≤ o ∧ oldTrace p.context.data = (List.range' s (o - s)).map (oldStamp p.text1)
  flushNew : ∀ s, p.context.start = some s →
    ∃ t, t + p.removed = s + p.inserted ∧ t ≤ n ∧
      newTrace p.context.data = (List.range' t (n - t)).map (newStamp p.text2)
  trailing : ∃ fr, p.context.data = fr ++ unchRun p.text1 (o - p.size) (n - p.size) p.size ∧
    p.size ≤ o ∧ p.size ≤ n
  gathering : p.context.changed = false → ∀ l ∈ p.context.data, l.kind = LineKind.Unchanged
  sound : ∀ h ∈ p.result, HunkSound p.text1 p.text2 h
  chain : 1 ≤ p.context_radius → List.Chain' hunkOrdered p.result
  link : 1 ≤ p.context_radius → p.result ≠ [] →
    ∃ s, p.context.start = some s ∧ 2 ≤ s ∧
      ∀ h, p.result.getLast? = some h → h.old_start < s ∧ h.old_start + h.removed ≤ s

/-- The invariant holds at the fresh state. -/
theorem pinv_new (text1 text2 : List String) (radius : Nat) :
    PInv (Processor.new text1 text2 radius) 0 0 := by
  refine ⟨rfl, fun _ => ⟨rfl, rfl, rfl, rfl, rfl, rfl⟩, rfl, rfl, rfl, ?_, ?_, ?_, ?_, ?_, ?_, ?_⟩
  · intro s hs
    simp [Processor.new, Context.default] at hs
  · intro s hs
    simp [Processor.new, Context.default] at hs
  · exact ⟨[], rfl, Nat.le_refl 0, Nat.le_refl 0⟩
  · intro _ l hl
    simp [Processor.new, Context.default] at hl
  · intro h hh
    simp [Processor.new] at hh
  · exact fun _ => List.chain'_nil
  · intro _ hne
    simp [Processor.new] at hne

/-- Shape of the buffer around a split that discards the last `d`
lines: the discarded tail is a run of unchanged lines flush with
`(o, n)`, and the kept part keeps the decomposition. -/
theorem split_take_drop {p : Processor} {o n : Nat} (hInv : PInv p o n) {d : Nat}
    (hd : d ≤ p.size) :
    p.context.data.drop (p.context.data.length - d) = unchRun p.text1 (o - d) (n - d) d ∧
    ∃ fr, p.context.data.take (p.context.data.length - d) =
      fr ++ unchRun p.text1 (o - p.size) (n - p.size) (p.size - d) := by
  obtain ⟨fr, hdata, hso, hsn⟩ := hInv.trailing
  have hlen : p.context.data.length = fr.length + p.size := by
    rw [hdata]; simp [unchRun_length]
  constructor
  · rw [hdata]
    rw [show (fr ++ unchRun p.text1 (o - p.size) (n - p.size) p.size).length - d =
          fr.length + (p.size - d) from by simp only [List.length_append, unchRun_length]; omega]
    rw [List.drop_append, unchRun_drop]
    congr 1 <;> omega
  · refine ⟨fr, ?_⟩
    rw [hdata]
    rw [show (fr ++ unchRun p.text1 (o - p.size) (n - p.size) p.size).length - d =
          fr.length + (p.size - d) from by simp only [List.length_append, unchRun_length]; omega]
    rw [List.take_append, unchRun_take _ _ _ _ _ (by omega)]

/-- The old-side trace of the kept part of a split. -/
theorem split_trace_old {p : Processor} {o n : Nat} (hInv : PInv p o n) {s d : Nat}
    (hstart : p.context.start = some s) (hd : d ≤ p.size) :
    s + d ≤ o ∧
    oldTrace (p.context.data.take (p.context.data.length - d)) =
      (List.range' s (o - d - s)).map (oldStamp p.text1) := by
  obtain ⟨hso2, htrace⟩ := hInv.flushOld s hstart
  have hdrop := (split_take_drop hInv hd).1
  have hsplit := List.take_append_drop (p.context.data.length - d) p.context.data
  have htr2 : oldTrace (p.context.data.take (p.context.data.length - d)) ++
      (List.range' (o - d) d).map (oldStamp p.text1) =
      (List.range' s (o - s)).map (oldStamp p.text1) := by
    rw [← unchRun_oldTrace p.text1 (o - d) (n - d) d, ← hdrop, ← oldTrace_append, hsplit, htrace]
  have hlen : (oldTrace (p.context.data.take (p.context.data.length - d))).length + d = o - s := by
    have := congrArg List.length htr2
    simpa using this
  have hdo : s + d ≤ o := by omega
  refine ⟨hdo, ?_⟩
  have hrange : (List.range' s (o - d - s)).map (oldStamp p.text1) ++
      (List.range' (o - d) d).map (oldStamp p.text1) =
      (List.range' s (o - s)).map (oldStamp p.text1) := by
    have hr := List.range'_append s (o - d - s) d 1
    rw [show s + 1 * (o - d - s) = o - d from by omega,
        show d + (o - d - s) = o - s from by omega] at hr
    rw [← List.map_append, hr]
  exact (List.append_inj' (htr2.trans hrange.symm) (by simp)).1

/-- The new-side trace of the kept part of a split. -/
theorem split_trace_new {p : Processor} {o n : Nat} (hInv : PInv p o n) {t d : Nat}
    (hd : d ≤ p.size) (ht : t ≤ n)
    (htrace : newTrace p.context.data = (List.range' t (n - t)).map (newStamp p.text2)) :
    t + d ≤ n ∧
    newTrace (p.context.data.take (p.context.data.length - d)) =
      (List.range' t (n - d - t)).map (newStamp p.text2) ∧
    newTrace (p.context.data.drop (p.context.data.length - d)) =
      (List.range' (n - d) d).map (newStamp p.text2) := by
  have hdrop := (split_take_drop hInv hd).1
  have hsplit := List.take_append_drop (p.context.data.length - d) p.context.data
  have hdlen : (newTrace (p.context.data.drop (p.context.data.length - d))).length = d := by
    rw [hdrop, newTrace, allUnch_newSide (unchRun_kinds _ _ _ _)]
    simp [unchRun_length]
  have htr2 : newTrace (p.context.data.take (p.context.data.length - d)) ++
      newTrace (p.context.data.drop (p.context.data.length - d)) =
      (List.range' t (n - t)).map (newStamp p.text2) := by
    rw [← newTrace_append, hsplit, htrace]
  have hlen : (newTrace (p.context.data.take (p.context.data.length - d))).length + d = n - t := by
    have := congrArg List.length htr2
    simpa [hdlen] using this
  have hdn : t + d ≤ n := by omega
  have hrange : (List.range' t (n - d - t)).map (newStamp p.text2) ++
      (List.range' (n - d) d).map (newStamp p.text2) =
      (List.range' t (n - t)).map (newStamp p.text2) := by
    have hr := List.range'_append t (n - d - t) d 1
    rw [show t + 1 * (n - d - t) = n - d from by omega,
        show d + (n - d - t) = n - t from by omega] at hr
    rw [← List.map_append, hr]
  have := List.append_inj' (htr2.trans hrange.symm) (by simp [hdlen])
  exact ⟨hdn, this.1, this.2⟩



theorem unchRun_tail (text1 : List String) (o0 n0 len : Nat) :
    (unchRun text1 o0 n0 len).tail = unchRun text1 (o0 + 1) (n0 + 1) (len - 1) := by
  rw [← List.drop_one, unchRun_drop]

theorem create_hunk_none_start {c : Context} (h : c.start = none) (r i : Nat) :
    c.create_hunk r i = none := by
  simp [Context.create_hunk, h]

theorem create_hunk_none_unchanged {c : Context} {s : Nat} (hs : c.start = some s)
    (h : c.changed = false) (r i : Nat) : c.create_hunk r i = none := by
  simp [Context.create_hunk, hs, h]

theorem create_hunk_some {c : Context} {s : Nat} (hs : c.start = some s)
    (hc : c.changed = true) (r i : Nat) :
    c.create_hunk r i =
      some { old_start := if s = 0 then 1 else s,
             removed := c.equaled + c.removed,
             new_start := (if s = 0 then 1 else s) + i - r,
             inserted := c.equaled + c.inserted,
             lines := c.data } := by
  simp [Context.create_hunk, hs, hc]

theorem map_fst_oldStamps (text1 : List String) (s L : Nat) :
    ((List.range' s L).map (oldStamp text1)).map Prod.fst = (List.range' s L).map some := by
  simp [oldStamp, List.map_map, Function.comp]

theorem map_snd_oldStamps (text1 : List String) (s L : Nat) :
    ((List.range' s L).map (oldStamp text1)).map Prod.snd =
      (List.range' s L).map (fun k => text1.getD k "") := by
  simp [oldStamp, List.map_map, Function.comp]

theorem map_fst_newStamps (text2 : List String) (s L : Nat) :
    ((List.range' s L).map (newStamp text2)).map Prod.fst = (List.range' s L).map some := by
  simp [newStamp, List.map_map, Function.comp]

theorem map_snd_newStamps (text2 : List String) (s L : Nat) :
    ((List.range' s L).map (newStamp text2)).map Prod.snd =
      (List.range' s L).map (fun k => text2.getD k "") := by
  simp [newStamp, List.map_map, Function.comp]

theorem size_le_len {p : Processor} {o n : Nat} (hInv : PInv p o n) :
    p.size ≤ p.context.data.length := by
  obtain ⟨fr, hdata, -, -⟩ := hInv.trailing
  rw [hdata]
  simp [unchRun_length]

theorem size_le_equaled {p : Processor} {o n : Nat} (hInv : PInv p o n) :
    p.size ≤ p.context.equaled := by
  obtain ⟨fr, hdata, -, -⟩ := hInv.trailing
  rw [hInv.countEq, hdata, countUnch_append,
      allUnch_countUnch (unchRun_kinds p.text1 (o - p.size) (n - p.size) p.size),
      unchRun_length]
  omega

theorem split_counts {p : Processor} {o n : Nat} (hInv : PInv p o n) {d : Nat}
    (hd : d ≤ p.size) :
    d ≤ p.context.equaled ∧
    countUnch (p.context.data.take (p.context.data.length - d)) = p.context.equaled - d ∧
    countRem (p.context.data.take (p.context.data.length - d)) = p.context.removed ∧
    countIns (p.context.data.take (p.context.data.length - d)) = p.context.inserted := by
  have hdrop := (split_take_drop hInv hd).1
  have hsplit := List.take_append_drop (p.context.data.length - d) p.context.data
  have hkinds : ∀ l ∈ p.context.data.drop (p.context.data.length - d),
      l.kind = LineKind.Unchanged := by
    rw [hdrop]; exact unchRun_kinds p.text1 (o - d) (n - d) d
  have hdl : (p.context.data.drop (p.context.data.length - d)).length = d := by
    rw [hdrop, unchRun_length]
  have hu : countUnch p.context.data =
      countUnch (p.context.data.take (p.context.data.length - d)) + d := by
    conv_lhs => rw [← hsplit]
    rw [countUnch_append, allUnch_countUnch hkinds, hdl]
  have hr : countRem p.context.data =
      countRem (p.context.data.take (p.context.data.length - d)) := by
    conv_lhs => rw [← hsplit]
    rw [countRem_append, allUnch_countRem hkinds, Nat.add_zero]
  have hi : countIns p.context.data =
      countIns (p.context.data.take (p.context.data.length - d)) := by
    conv_lhs => rw [← hsplit]
    rw [countIns_append, allUnch_countIns hkinds, Nat.add_zero]
  refine ⟨?_, ?_, ?_, ?_⟩
  · rw [hInv.countEq]; omega
  · rw [hInv.countEq]; omega
  · rw [hInv.countRm]; omega
  · rw [hInv.countIn]; omega



/-- Definitional unfolding of `split_hunks`. -/
theorem split_hunks_eval (p : Processor) (i : Option Nat) :
    p.split_hunks i =
      { p with
        context :=
          { start := i.map (fun x => x -
              ((p.context.data.drop
                (p.context.data.length - (p.size - p.context_radius))).tail).length),
            data := (p.context.data.drop
              (p.context.data.length - (p.size - p.context_radius))).tail,
            changed := false,
            equaled := ((p.context.data.drop
              (p.context.data.length - (p.size - p.context_radius))).tail).length,
            removed := 0, inserted := 0 },
        result := match Context.create_hunk
            { p.context with
              data := p.context.data.take
                (p.context.data.length - (p.size - p.context_radius)),
              equaled := p.context.equaled - (p.size - p.context_radius) }
            p.removed p.inserted with
          | some hunk => p.result ++ [hunk]
          | none => p.result,
        removed := p.removed + p.context.removed,
        inserted := p.inserted + p.context.inserted,
        size := ((p.context.data.drop
          (p.context.data.length - (p.size - p.context_radius))).tail).length } := rfl




theorem create_hunkChk_eq (c : Context) (r i : Nat)
    (h : ∀ s, c.start = some s → c.changed = true → r ≤ (if s = 0 then 1 else s) + i) :
    c.create_hunkChk r i = some (c.create_hunk r i) := by
  rcases hs : c.start with _ | s
  · simp [Context.create_hunkChk, Context.create_hunk, hs]
  · rcases hc : c.changed with _ | _
    · simp [Context.create_hunkChk, Context.create_hunk, hs, hc]
    · have hr := h s hs hc
      simp only [Context.create_hunkChk, Context.create_hunk, hs, hc, if_true, checkedSub,
        if_pos hr]

/-- The checked split agrees with the plain split whenever none of its
`usize` subtractions underflow. -/
theorem split_hunksChk_eq (p : Processor) (i : Option Nat)
    (h1 : p.size - p.context_radius ≤ p.context.data.length)
    (h2 : p.size - p.context_radius ≤ p.context.equaled)
    (h3 : ∀ s, p.context.start = some s → p.context.changed = true →
      p.removed ≤ (if s = 0 then 1 else s) + p.inserted)
    (h4 : ∀ x, i = some x → p.size - p.context_radius ≤ x + 1) :
    p.split_hunksChk i = some (p.split_hunks i) := by
  have hck : Context.create_hunkChk
      { p.context with
        data := p.context.data.take
          (p.context.data.length - (p.size - p.context_radius)),
        equaled := p.context.equaled - (p.size - p.context_radius) }
      p.removed p.inserted =
      some (Context.create_hunk
        { p.context with
          data := p.context.data.take
            (p.context.data.length - (p.size - p.context_radius)),
          equaled := p.context.equaled - (p.size - p.context_radius) }
        p.removed p.inserted) := by
    apply create_hunkChk_eq
    intro s hs hc
    exact h3 s hs hc
  have hdlen : ((p.context.data.drop
      (p.context.data.length - (p.size - p.context_radius))).tail).length =
      p.size - p.context_radius - 1 := by
    rw [List.length_tail, List.length_drop]
    omega
  rw [split_hunks_eval]
  simp only [Processor.split_hunksChk, checkedSub, if_pos h1, if_pos h2, hck]
  rcases i with _ | x
  · rfl
  · have hx : ((p.context.data.drop
        (p.context.data.length - (p.size - p.context_radius))).tail).length ≤ x := by
      have := h4 x rfl
      omega
    simp only [if_pos hx]
    rcases Context.create_hunk
        { p.context with
          data := p.context.data.take
            (p.context.data.length - (p.size - p.context_radius)),
          equaled := p.context.equaled - (p.size - p.context_radius) }
        p.removed p.inserted with _ | hunk
    · rfl
    · rfl


theorem split_some_start_none (p : Processor) (o n : Nat) (hInv : PInv p o n)
    (hstart : p.context.start = none) :
    PInv (p.split_hunks (some o)) o n ∧
    p.split_hunksChk (some o) = some (p.split_hunks (some o)) := by
  obtain ⟨hdata, hch, heq, hrm, hins, hsz⟩ := hInv.startNone hstart
  have hck : Context.create_hunk
      { p.context with
        data := p.context.data.take
          (p.context.data.length - (p.size - p.context_radius)),
        equaled := p.context.equaled - (p.size - p.context_radius) }
      p.removed p.inserted = none := by
    apply create_hunk_none_start
    exact hstart
  have hq : p.split_hunks (some o) =
      { p with context := { start := some o, data := [], changed := false,
                            equaled := 0, removed := 0, inserted := 0 },
               size := 0 } := by
    rw [split_hunks_eval, hck]
    simp [hdata, hsz, hrm, hins]
  constructor
  · rw [hq]
    refine ⟨?_, ?_, ?_, ?_, ?_, ?_, ?_, ?_, ?_, ?_, ?_, ?_⟩
    · have := hInv.balance
      simp only [hrm, hins] at this
      show p.removed + 0 + n = p.inserted + 0 + o
      omega
    · intro h; simp at h
    · rfl
    · rfl
    · rfl
    · intro s hs
      simp only [Option.some.injEq] at hs
      subst hs
      exact ⟨Nat.le_refl o, by simp [oldTrace, oldSide, Nat.sub_self]⟩
    · intro s hs
      simp only [Option.some.injEq] at hs
      subst hs
      refine ⟨n, ?_, Nat.le_refl n, ?_⟩
      · show n + p.removed = o + p.inserted
        have := hInv.balance
        simp only [hrm, hins] at this
        omega
      · simp [newTrace, newSide, Nat.sub_self]
    · exact ⟨[], by simp [unchRun_zero], Nat.zero_le o, Nat.zero_le n⟩
    · intro _ l hl; simp at hl
    · exact hInv.sound
    · exact hInv.chain
    · intro hr hne
      obtain ⟨s, hs, -⟩ := hInv.link hr hne
      rw [hstart] at hs
      exact absurd hs (by simp)
  · rw [hq]
    simp [Processor.split_hunksChk, hdata, hsz, hrm, hins, checkedSub,
      Context.create_hunkChk, hstart]



theorem split_trace_new_tail {p : Processor} {o n : Nat} (hInv : PInv p o n) {t d : Nat}
    (hd : d ≤ p.size) (ht : t ≤ n)
    (htrace : newTrace p.context.data = (List.range' t (n - t)).map (newStamp p.text2))
    (hdn : d ≤ n) :
    newTrace ((p.context.data.drop (p.context.data.length - d)).tail) =
      (List.range' (n - (d - 1)) (d - 1)).map (newStamp p.text2) := by
  obtain ⟨-, -, hdr⟩ := split_trace_new hInv hd ht htrace
  have hdrop := (split_take_drop hInv hd).1
  have hkinds : ∀ l ∈ p.context.data.drop (p.context.data.length - d),
      l.kind = LineKind.Unchanged := by
    rw [hdrop]; exact unchRun_kinds p.text1 (o - d) (n - d) d
  have hkt : ∀ l ∈ (p.context.data.drop (p.context.data.length - d)).tail,
      l.kind = LineKind.Unchanged := fun l hl => hkinds l (List.mem_of_mem_tail hl)
  have h1 : newTrace ((p.context.data.drop (p.context.data.length - d)).tail) =
      (newTrace (p.context.data.drop (p.context.data.length - d))).tail := by
    rw [newTrace, allUnch_newSide hkt, newTrace, allUnch_newSide hkinds, List.map_tail]
  rw [h1, hdr]
  cases d with
  | zero => simp
  | succ k =>
    simp only [Nat.add_sub_cancel]
    rw [List.range'_succ, List.map_cons, List.tail_cons,
        show n - (k + 1) + 1 = n - k from by omega]

theorem split_some_gathering (p : Processor) (o n : Nat) (hInv : PInv p o n)
    {s : Nat} (hstart : p.context.start = some s) (hch : p.context.changed = false) :
    PInv (p.split_hunks (some o)) o n ∧
    p.split_hunksChk (some o) = some (p.split_hunks (some o)) := by
  set d := p.size - p.context_radius with hd_def
  have hd : d ≤ p.size := Nat.sub_le _ _
  obtain ⟨hdrop, fr, htake⟩ := split_take_drop hInv hd
  obtain ⟨t, htbal, htn, htrN⟩ := hInv.flushNew s hstart
  obtain ⟨hso, htrO⟩ := hInv.flushOld s hstart
  obtain ⟨fr2, hdec, hsizo, hsizn⟩ := hInv.trailing
  have hallU := hInv.gathering hch
  have hrm0 : p.context.removed = 0 := by
    rw [hInv.countRm, allUnch_countRem hallU]
  have hins0 : p.context.inserted = 0 := by
    rw [hInv.countIn, allUnch_countIns hallU]
  have hlen : p.context.data.length = o - s := by
    have h1 : oldTrace p.context.data = p.context.data.map (fun l => (l.old_pos, l.inner)) := by
      rw [oldTrace, allUnch_oldSide hallU]
    have h2 := congrArg List.length htrO
    rw [h1] at h2
    simpa using h2
  have hszlen := size_le_len hInv
  have hdo : d ≤ o := by omega
  have hdn : d ≤ n := by omega
  have hdso : s + d ≤ o := by omega
  have htail : (p.context.data.drop (p.context.data.length - d)).tail =
      unchRun p.text1 (o - (d - 1)) (n - (d - 1)) (d - 1) := by
    rw [hdrop, unchRun_tail]
    rcases Nat.eq_zero_or_pos d with h0 | h0
    · rw [h0]; simp [unchRun_zero]
    · congr 1 <;> omega
  have htlen : ((p.context.data.drop (p.context.data.length - d)).tail).length = d - 1 := by
    rw [htail, unchRun_length]
  have hck : Context.create_hunk
      { p.context with
        data := p.context.data.take (p.context.data.length - d),
        equaled := p.context.equaled - d }
      p.removed p.inserted = none := by
    apply create_hunk_none_unchanged (s := s)
    · exact hstart
    · exact hch
  have hq : p.split_hunks (some o) =
      { p with
        context := { start := some (o - (d - 1)),
                     data := unchRun p.text1 (o - (d - 1)) (n - (d - 1)) (d - 1),
                     changed := false, equaled := d - 1, removed := 0, inserted := 0 },
        removed := p.removed, inserted := p.inserted,
        size := d - 1 } := by
    rw [split_hunks_eval]
    rw [show p.size - p.context_radius = d from rfl] at *
    rw [hck]
    simp [htail, htlen, unchRun_length, hrm0, hins0]
  have hnewTr := split_trace_new_tail hInv hd htn htrN hdn
  constructor
  · rw [hq]
    refine ⟨?_, ?_, ?_, ?_, ?_, ?_, ?_, ?_, ?_, ?_, ?_, ?_⟩
    · show p.removed + 0 + n = p.inserted + 0 + o
      have := hInv.balance
      omega
    · intro h; simp at h
    · show d - 1 = countUnch (unchRun p.text1 (o - (d - 1)) (n - (d - 1)) (d - 1))
      rw [allUnch_countUnch (unchRun_kinds _ _ _ _), unchRun_length]
    · show (0 : Nat) = countRem (unchRun p.text1 (o - (d - 1)) (n - (d - 1)) (d - 1))
      rw [allUnch_countRem (unchRun_kinds _ _ _ _)]
    · show (0 : Nat) = countIns (unchRun p.text1 (o - (d - 1)) (n - (d - 1)) (d - 1))
      rw [allUnch_countIns (unchRun_kinds _ _ _ _)]
    · intro s'' hs''
      simp only [Option.some.injEq] at hs''
      subst hs''
      refine ⟨by omega, ?_⟩
      rw [show o - (o - (d - 1)) = d - 1 from by omega, unchRun_oldTrace]
    · intro s'' hs''
      simp only [Option.some.injEq] at hs''
      subst hs''
      refine ⟨n - (d - 1), ?_, by omega, ?_⟩
      · show n - (d - 1) + p.removed = o - (d - 1) + p.inserted
        have := hInv.balance
        omega
      · show newTrace (unchRun p.text1 (o - (d - 1)) (n - (d - 1)) (d - 1)) =
          (List.range' (n - (d - 1)) (n - (n - (d - 1)))).map (newStamp p.text2)
        rw [← htail, show n - (n - (d - 1)) = d - 1 from by omega]
        exact hnewTr
    · refine ⟨[], ?_, ?_, ?_⟩
      · show unchRun p.text1 (o - (d - 1)) (n - (d - 1)) (d - 1) =
          [] ++ unchRun p.text1 (o - (d - 1)) (n - (d - 1)) (d - 1)
        rw [List.nil_append]
      · show d - 1 ≤ o
        omega
      · show d - 1 ≤ n
        omega
    · intro _ l hl
      exact unchRun_kinds _ _ _ _ l hl
    · exact hInv.sound
    · exact hInv.chain
    · intro hr hne
      obtain ⟨s0, hs0, h2s, hrel⟩ := hInv.link hr hne
      rw [hstart] at hs0
      simp only [Option.some.injEq] at hs0
      subst hs0
      refine ⟨o - (d - 1), rfl, by omega, ?_⟩
      intro h hlast
      obtain ⟨ha, hb⟩ := hrel h hlast
      constructor <;> omega
  · apply split_hunksChk_eq
    · omega
    · have := size_le_equaled hInv
      omega
    · intro s' hs' hc'
      rw [hch] at hc'
      exact absurd hc' (by simp)
    · intro x hx
      simp only [Option.some.injEq] at hx
      omega



theorem split_hunk_sound (p : Processor) (o n : Nat) (hInv : PInv p o n)
    (ho : o ≤ p.text1.length) (hn : n ≤ p.text2.length)
    {s : Nat} (hstart : p.context.start = some s) :
    HunkSound p.text1 p.text2
      { old_start := if s = 0 then 1 else s,
        removed := p.context.equaled - (p.size - p.context_radius) + p.context.removed,
        new_start := (if s = 0 then 1 else s) + p.inserted - p.removed,
        inserted := p.context.equaled - (p.size - p.context_radius) + p.context.inserted,
        lines := p.context.data.take
          (p.context.data.length - (p.size - p.context_radius)) } := by
  set d := p.size - p.context_radius with hd_def
  have hd : d ≤ p.size := Nat.sub_le _ _
  obtain ⟨t, htbal, htn, htrN⟩ := hInv.flushNew s hstart
  obtain ⟨hso, htrO⟩ := hInv.flushOld s hstart
  obtain ⟨fr2, hdec, hsizo, hsizn⟩ := hInv.trailing
  obtain ⟨hsdo, htrKO⟩ := split_trace_old hInv hstart hd
  obtain ⟨htdn, htrKN, htrDN⟩ := split_trace_new hInv hd htn htrN
  obtain ⟨hde, hcu, hcr, hci⟩ := split_counts hInv hd
  have hKlen : (oldSide (p.context.data.take (p.context.data.length - d))).length =
      o - d - s := by
    have h2 := congrArg List.length htrKO
    simpa [oldTrace] using h2
  have hKlenN : (newSide (p.context.data.take (p.context.data.length - d))).length =
      n - d - t := by
    have h2 := congrArg List.length htrKN
    simpa [newTrace] using h2
  have hremoved : p.context.equaled - d + p.context.removed = o - d - s := by
    have h1 := length_oldSide (p.context.data.take (p.context.data.length - d))
    omega
  have hinserted : p.context.equaled - d + p.context.inserted = n - d - t := by
    have h1 := length_newSide (p.context.data.take (p.context.data.length - d))
    omega
  refine ⟨s, t, rfl, ?_, ?_, ?_, ?_, ?_, ?_, ?_, ?_, ?_⟩
  · show (if s = 0 then 1 else s) + p.inserted - p.removed = if s = 0 then t + 1 else t
    split_ifs with h0 <;> omega
  · show (oldSide (p.context.data.take (p.context.data.length - d))).length =
      p.context.equaled - d + p.context.removed
    omega
  · show s + (p.context.equaled - d + p.context.removed) ≤ p.text1.length
    omega
  · show (oldSide (p.context.data.take (p.context.data.length - d))).map Line.old_pos =
      (List.range' s (p.context.equaled - d + p.context.removed)).map some
    rw [hremoved, ← map_fst_oldStamps p.text1 s (o - d - s), ← htrKO]
    exact trace_fst Line.old_pos Line.inner rfl
  · show replayOld (p.context.data.take (p.context.data.length - d)) =
      (p.text1.drop s).take (p.context.equaled - d + p.context.removed)
    rw [hremoved, ← range'_map_getD_eq p.text1 "" (o - d - s) s (by omega),
      ← map_snd_oldStamps p.text1 s (o - d - s), ← htrKO]
    exact trace_snd Line.old_pos Line.inner rfl
  · show (newSide (p.context.data.take (p.context.data.length - d))).length =
      p.context.equaled - d + p.context.inserted
    omega
  · show t + (p.context.equaled - d + p.context.inserted) ≤ p.text2.length
    omega
  · show (newSide (p.context.data.take (p.context.data.length - d))).map Line.new_pos =
      (List.range' t (p.context.equaled - d + p.context.inserted)).map some
    rw [hinserted, ← map_fst_newStamps p.text2 t (n - d - t), ← htrKN]
    exact trace_fst Line.new_pos Line.inner rfl
  · show replayNew (p.context.data.take (p.context.data.length - d)) =
      (p.text2.drop t).take (p.context.equaled - d + p.context.inserted)
    rw [hinserted, ← range'_map_getD_eq p.text2 "" (n - d - t) t (by omega),
      ← map_snd_newStamps p.text2 t (n - d - t), ← htrKN]
    exact trace_snd Line.new_pos Line.inner rfl

theorem chain_extend (p : Processor) {o n : Nat} (hInv : PInv p o n) {s : Nat}
    (hstart : p.context.start = some s) (hr : 1 ≤ p.context_radius)
    (h : Hunk) (hh : h.old_start = if s = 0 then 1 else s) :
    List.Chain' hunkOrdered (p.result ++ [h]) := by
  rw [List.chain'_append]
  refine ⟨hInv.chain hr, List.chain'_singleton _, ?_⟩
  intro x hx y hy
  simp only [List.head?_cons, Option.mem_def, Option.some.injEq] at hy
  subst hy
  have hne : p.result ≠ [] := by
    intro hnil
    rw [hnil] at hx
    simp at hx
  obtain ⟨s0, hs0, h2s0, hrel⟩ := hInv.link hr hne
  rw [hstart] at hs0
  simp only [Option.some.injEq] at hs0
  subst hs0
  obtain ⟨ha, hb⟩ := hrel x hx
  constructor
  · rw [hh]
    split_ifs with h0 <;> omega
  · rw [hh]
    split_ifs with h0 <;> omega

theorem chk_conditions (p : Processor) (o n : Nat) (hInv : PInv p o n) :
    p.size - p.context_radius ≤ p.context.data.length ∧
    p.size - p.context_radius ≤ p.context.equaled ∧
    (∀ s, p.context.start = some s → p.context.changed = true →
      p.removed ≤ (if s = 0 then 1 else s) + p.inserted) := by
  refine ⟨?_, ?_, ?_⟩
  · have := size_le_len hInv
    omega
  · have := size_le_equaled hInv
    omega
  · intro s hs _
    obtain ⟨t, ht, -, -⟩ := hInv.flushNew s hs
    split_ifs with h0 <;> omega

theorem split_some_changed (p : Processor) (o n : Nat) (hInv : PInv p o n)
    (ho : o ≤ p.text1.length) (hn : n ≤ p.text2.length)
    {s : Nat} (hstart : p.context.start = some s) (hch : p.context.changed = true)
    (htrig : p.context_radius * 2 ≤ p.size) :
    PInv (p.split_hunks (some o)) o n ∧
    p.split_hunksChk (some o) = some (p.split_hunks (some o)) := by
  set d := p.size - p.context_radius with hd_def
  have hd : d ≤ p.size := Nat.sub_le _ _
  obtain ⟨hdrop, fr, htake⟩ := split_take_drop hInv hd
  obtain ⟨t, htbal, htn, htrN⟩ := hInv.flushNew s hstart
  obtain ⟨hso, htrO⟩ := hInv.flushOld s hstart
  obtain ⟨fr2, hdec, hsizo, hsizn⟩ := hInv.trailing
  obtain ⟨hsdo, htrKO⟩ := split_trace_old hInv hstart hd
  obtain ⟨htdn, htrKN, htrDN⟩ := split_trace_new hInv hd htn htrN
  obtain ⟨hde, hcu, hcr, hci⟩ := split_counts hInv hd
  have hdo : d ≤ o := by omega
  have hdn : d ≤ n := by omega
  have hseq := size_le_equaled hInv
  have hKlen : (oldSide (p.context.data.take (p.context.data.length - d))).length =
      o - d - s := by
    have h2 := congrArg List.length htrKO
    simpa [oldTrace] using h2
  have hKlenN : (newSide (p.context.data.take (p.context.data.length - d))).length =
      n - d - t := by
    have h2 := congrArg List.length htrKN
    simpa [newTrace] using h2
  have hremoved : p.context.equaled - d + p.context.removed = o - d - s := by
    have h1 := length_oldSide (p.context.data.take (p.context.data.length - d))
    omega
  have hinserted : p.context.equaled - d + p.context.inserted = n - d - t := by
    have h1 := length_newSide (p.context.data.take (p.context.data.length - d))
    omega
  have hck : Context.create_hunk
      { p.context with
        data := p.context.data.take (p.context.data.length - d),
        equaled := p.context.equaled - d }
      p.removed p.inserted =
      some { old_start := if s = 0 then 1 else s,
             removed := p.context.equaled - d + p.context.removed,
             new_start := (if s = 0 then 1 else s) + p.inserted - p.removed,
             inserted := p.context.equaled - d + p.context.inserted,
             lines := p.context.data.take (p.context.data.length - d) } := by
    apply create_hunk_some (s := s)
    · exact hstart
    · exact hch
  have htail : (p.context.data.drop (p.context.data.length - d)).tail =
      unchRun p.text1 (o - (d - 1)) (n - (d - 1)) (d - 1) := by
    rw [hdrop, unchRun_tail]
    rcases Nat.eq_zero_or_pos d with h0 | h0
    · rw [h0]; simp [unchRun_zero]
    · congr 1 <;> omega
  have htlen : ((p.context.data.drop (p.context.data.length - d)).tail).length = d - 1 := by
    rw [htail, unchRun_length]
  have hsound := split_hunk_sound p o n hInv ho hn hstart
  rw [show p.size - p.context_radius = d from rfl] at hsound
  have hq : p.split_hunks (some o) =
      { p with
        context := { start := some (o - (d - 1)),
                     data := unchRun p.text1 (o - (d - 1)) (n - (d - 1)) (d - 1),
                     changed := false, equaled := d - 1, removed := 0, inserted := 0 },
        result := p.result ++
          [{ old_start := if s = 0 then 1 else s,
             removed := p.context.equaled - d + p.context.removed,
             new_start := (if s = 0 then 1 else s) + p.inserted - p.removed,
             inserted := p.context.equaled - d + p.context.inserted,
             lines := p.context.data.take (p.context.data.length - d) }],
        removed := p.removed + p.context.removed,
        inserted := p.inserted + p.context.inserted,
        size := d - 1 } := by
    rw [split_hunks_eval]
    rw [show p.size - p.context_radius = d from rfl] at *
    rw [hck]
    simp [htail, htlen, unchRun_length]
  have hnewTr := split_trace_new_tail hInv hd htn htrN hdn
  constructor
  · rw [hq]
    refine ⟨?_, ?_, ?_, ?_, ?_, ?_, ?_, ?_, ?_, ?_, ?_, ?_⟩
    · show p.removed + p.context.removed + 0 + n = p.inserted + p.context.inserted + 0 + o
      have := hInv.balance
      omega
    · intro h; simp at h
    · show d - 1 = countUnch (unchRun p.text1 (o - (d - 1)) (n - (d - 1)) (d - 1))
      rw [allUnch_countUnch (unchRun_kinds _ _ _ _), unchRun_length]
    · show (0 : Nat) = countRem (unchRun p.text1 (o - (d - 1)) (n - (d - 1)) (d - 1))
      rw [allUnch_countRem (unchRun_kinds _ _ _ _)]
    · show (0 : Nat) = countIns (unchRun p.text1 (o - (d - 1)) (n - (d - 1)) (d - 1))
      rw [allUnch_countIns (unchRun_kinds _ _ _ _)]
    · intro s2 hs2
      simp only [Option.some.injEq] at hs2
      subst hs2
      refine ⟨by omega, ?_⟩
      rw [show o - (o - (d - 1)) = d - 1 from by omega, unchRun_oldTrace]
    · intro s2 hs2
      simp only [Option.some.injEq] at hs2
      subst hs2
      refine ⟨n - (d - 1), ?_, by omega, ?_⟩
      · show n - (d - 1) + (p.removed + p.context.removed) =
          o - (d - 1) + (p.inserted + p.context.inserted)
        have := hInv.balance
        omega
      · show newTrace (unchRun p.text1 (o - (d - 1)) (n - (d - 1)) (d - 1)) =
          (List.range' (n - (d - 1)) (n - (n - (d - 1)))).map (newStamp p.text2)
        rw [← htail, show n - (n - (d - 1)) = d - 1 from by omega]
        exact hnewTr
    · refine ⟨[], ?_, ?_, ?_⟩
      · show unchRun p.text1 (o - (d - 1)) (n - (d - 1)) (d - 1) =
          [] ++ unchRun p.text1 (o - (d - 1)) (n - (d - 1)) (d - 1)
        rw [List.nil_append]
      · show d - 1 ≤ o
        omega
      · show d - 1 ≤ n
        omega
    · intro _ l hl
      exact unchRun_kinds _ _ _ _ l hl
    · intro h hh
      rw [List.mem_append] at hh
      rcases hh with hh | hh
      · exact hInv.sound h hh
      · rw [List.mem_singleton] at hh
        subst hh
        exact hsound
    · intro hr
      exact chain_extend p hInv hstart hr _ rfl
    · intro hr hne2
      have hr2 : 1 ≤ p.context_radius := hr
      have hd1 : 1 ≤ d := by omega
      have hrem1 : 1 ≤ o - d - s := by
        rw [← hremoved]
        omega
      refine ⟨o - (d - 1), rfl, by omega, ?_⟩
      intro h hlast
      rw [List.getLast?_concat] at hlast
      simp only [Option.some.injEq] at hlast
      subst hlast
      constructor
      · show (if s = 0 then 1 else s) < o - (d - 1)
        split_ifs with h0 <;> omega
      · show (if s = 0 then 1 else s) + (p.context.equaled - d + p.context.removed) ≤
          o - (d - 1)
        rw [hremoved]
        split_ifs with h0 <;> omega
  · apply split_hunksChk_eq
    · rw [show p.size - p.context_radius = d from rfl]
      have := size_le_len hInv
      omega
    · rw [show p.size - p.context_radius = d from rfl]
      omega
    · intro s2 hs2 hc2
      rw [hstart] at hs2
      simp only [Option.some.injEq] at hs2
      subst hs2
      split_ifs with h0 <;> omega
    · intro x hx
      simp only [Option.some.injEq] at hx
      rw [show p.size - p.context_radius = d from rfl]
      omega



theorem split_some_spec (p : Processor) (o n : Nat) (hInv : PInv p o n)
    (ho : o ≤ p.text1.length) (hn : n ≤ p.text2.length)
    (htrig : p.context.changed = true → p.context_radius * 2 ≤ p.size) :
    PInv (p.split_hunks (some o)) o n ∧
    p.split_hunksChk (some o) = some (p.split_hunks (some o)) := by
  rcases hstart : p.context.start with _ | s
  · exact split_some_start_none p o n hInv hstart
  · rcases hch : p.context.changed with _ | _
    · exact split_some_gathering p o n hInv hstart hch
    · exact split_some_changed p o n hInv ho hn hstart hch (htrig hch)

theorem split_none_spec (p : Processor) (o n : Nat) (hInv : PInv p o n)
    (ho : o ≤ p.text1.length) (hn : n ≤ p.text2.length) :
    (∀ h ∈ (p.split_hunks none).result, HunkSound p.text1 p.text2 h) ∧
    (1 ≤ p.context_radius → List.Chain' hunkOrdered (p.split_hunks none).result) ∧
    p.split_hunksChk none = some (p.split_hunks none) := by
  obtain ⟨h1, h2, h3⟩ := chk_conditions p o n hInv
  have hchk := split_hunksChk_eq p none h1 h2 h3 (fun x hx => by simp at hx)
  have hcore : (∀ h ∈ (p.split_hunks none).result, HunkSound p.text1 p.text2 h) ∧
      (1 ≤ p.context_radius → List.Chain' hunkOrdered (p.split_hunks none).result) := by
    rcases hstart : p.context.start with _ | s
    · have hck : Context.create_hunk
          { p.context with
            data := p.context.data.take
              (p.context.data.length - (p.size - p.context_radius)),
            equaled := p.context.equaled - (p.size - p.context_radius) }
          p.removed p.inserted = none := by
        apply create_hunk_none_start
        exact hstart
      have hres : (p.split_hunks none).result = p.result := by
        rw [split_hunks_eval, hck]
      rw [hres]
      exact ⟨hInv.sound, fun hr => hInv.chain hr⟩
    · rcases hch : p.context.changed with _ | _
      · have hck : Context.create_hunk
            { p.context with
              data := p.context.data.take
                (p.context.data.length - (p.size - p.context_radius)),
              equaled := p.context.equaled - (p.size - p.context_radius) }
            p.removed p.inserted = none := by
          apply create_hunk_none_unchanged (s := s)
          · exact hstart
          · exact hch
        have hres : (p.split_hunks none).result = p.result := by
          rw [split_hunks_eval, hck]
        rw [hres]
        exact ⟨hInv.sound, fun hr => hInv.chain hr⟩
      · have hck : Context.create_hunk
            { p.context with
              data := p.context.data.take
                (p.context.data.length - (p.size - p.context_radius)),
              equaled := p.context.equaled - (p.size - p.context_radius) }
            p.removed p.inserted =
            some { old_start := if s = 0 then 1 else s,
                   removed := p.context.equaled - (p.size - p.context_radius) +
                     p.context.removed,
                   new_start := (if s = 0 then 1 else s) + p.inserted - p.removed,
                   inserted := p.context.equaled - (p.size - p.context_radius) +
                     p.context.inserted,
                   lines := p.context.data.take
                     (p.context.data.length - (p.size - p.context_radius)) } := by
          apply create_hunk_some (s := s)
          · exact hstart
          · exact hch
        have hres : (p.split_hunks none).result = p.result ++
            [{ old_start := if s = 0 then 1 else s,
               removed := p.context.equaled - (p.size - p.context_radius) +
                 p.context.removed,
               new_start := (if s = 0 then 1 else s) + p.inserted - p.removed,
               inserted := p.context.equaled - (p.size - p.context_radius) +
                 p.context.inserted,
               lines := p.context.data.take
                 (p.context.data.length - (p.size - p.context_radius)) }] := by
          rw [split_hunks_eval, hck]
        rw [hres]
        constructor
        · intro h hh
          rw [List.mem_append] at hh
          rcases hh with hh | hh
          · exact hInv.sound h hh
          · rw [List.mem_singleton] at hh
            subst hh
            exact split_hunk_sound p o n hInv ho hn hstart
        · intro hr
          exact chain_extend p hInv hstart hr _ rfl
  exact ⟨hcore.1, hcore.2, hchk⟩


theorem oldTrace_allUnch {ls : List Line} (h : ∀ l ∈ ls, l.kind = LineKind.Unchanged) :
    oldTrace ls = ls.map (fun l => (l.old_pos, l.inner)) := by
  rw [oldTrace, allUnch_oldSide h]

theorem newTrace_allUnch {ls : List Line} (h : ∀ l ∈ ls, l.kind = LineKind.Unchanged) :
    newTrace ls = ls.map (fun l => (l.new_pos, l.inner)) := by
  rw [newTrace, allUnch_newSide h]

theorem push_unch_pinv (p : Processor) (o n : Nat) (hInv : PInv p o n)
    (hc : p.text1.getD o "" = p.text2.getD n "")
    {s : Nat} (hstart : p.context.start = some s) :
    PInv { p with
      context := { p.context with
        data := p.context.data ++ [Line.unchanged o n (p.text1.getD o "")],
        equaled := p.context.equaled + 1 },
      size := p.size + 1 } (o + 1) (n + 1) := by
  obtain ⟨hso, htrO⟩ := hInv.flushOld s hstart
  obtain ⟨t, htbal, htn, htrN⟩ := hInv.flushNew s hstart
  obtain ⟨fr, hdec, hsizo, hsizn⟩ := hInv.trailing
  refine ⟨?_, ?_, ?_, ?_, ?_, ?_, ?_, ?_, ?_, ?_, ?_, ?_⟩
  · show p.removed + p.context.removed + (n + 1) = p.inserted + p.context.inserted + (o + 1)
    have := hInv.balance
    omega
  · intro h
    rw [show ({ p with
      context := { p.context with
        data := p.context.data ++ [Line.unchanged o n (p.text1.getD o "")],
        equaled := p.context.equaled + 1 },
      size := p.size + 1 } : Processor).context.start = p.context.start from rfl,
      hstart] at h
    exact absurd h (by simp)
  · show p.context.equaled + 1 =
      countUnch (p.context.data ++ [Line.unchanged o n (p.text1.getD o "")])
    rw [countUnch_append, hInv.countEq]
    rfl
  · show p.context.removed =
      countRem (p.context.data ++ [Line.unchanged o n (p.text1.getD o "")])
    rw [countRem_append, hInv.countRm]
    rfl
  · show p.context.inserted =
      countIns (p.context.data ++ [Line.unchanged o n (p.text1.getD o "")])
    rw [countIns_append, hInv.countIn]
    rfl
  · intro s2 hs2
    rw [show ({ p with
      context := { p.context with
        data := p.context.data ++ [Line.unchanged o n (p.text1.getD o "")],
        equaled := p.context.equaled + 1 },
      size := p.size + 1 } : Processor).context.start = p.context.start from rfl,
      hstart] at hs2
    simp only [Option.some.injEq] at hs2
    subst hs2
    refine ⟨by omega, ?_⟩
    show oldTrace (p.context.data ++ [Line.unchanged o n (p.text1.getD o "")]) =
      (List.range' s (o + 1 - s)).map (oldStamp p.text1)
    rw [oldTrace_append, htrO,
      show oldTrace [Line.unchanged o n (p.text1.getD o "")] = [oldStamp p.text1 o] from rfl,
      show o + 1 - s = (o - s) + 1 from by omega, List.range'_1_concat, List.map_append]
    congr 2
    simp [show s + (o - s) = o from by omega]
  · intro s2 hs2
    rw [show ({ p with
      context := { p.context with
        data := p.context.data ++ [Line.unchanged o n (p.text1.getD o "")],
        equaled := p.context.equaled + 1 },
      size := p.size + 1 } : Processor).context.start = p.context.start from rfl,
      hstart] at hs2
    simp only [Option.some.injEq] at hs2
    subst hs2
    refine ⟨t, htbal, by omega, ?_⟩
    show newTrace (p.context.data ++ [Line.unchanged o n (p.text1.getD o "")]) =
      (List.range' t (n + 1 - t)).map (newStamp p.text2)
    rw [newTrace_append, htrN,
      show newTrace [Line.unchanged o n (p.text1.getD o "")] =
        [(some n, p.text1.getD o "")] from rfl,
      show n + 1 - t = (n - t) + 1 from by omega, List.range'_1_concat, List.map_append]
    rw [show t + (n - t) = n from by omega, hc]
    rfl
  · refine ⟨fr, ?_, ?_, ?_⟩
    · show p.context.data ++ [Line.unchanged o n (p.text1.getD o "")] =
        fr ++ unchRun p.text1 (o + 1 - (p.size + 1)) (n + 1 - (p.size + 1)) (p.size + 1)
      rw [hdec, List.append_assoc]
      congr 1
      rw [show o + 1 - (p.size + 1) = o - p.size from by omega,
          show n + 1 - (p.size + 1) = n - p.size from by omega,
          ← unchRun_concat,
          show o - p.size + p.size = o from by omega,
          show n - p.size + p.size = n from by omega]
    · show p.size + 1 ≤ o + 1
      omega
    · show p.size + 1 ≤ n + 1
      omega
  · intro hchf l hl
    rw [show ({ p with
      context := { p.context with
        data := p.context.data ++ [Line.unchanged o n (p.text1.getD o "")],
        equaled := p.context.equaled + 1 },
      size := p.size + 1 } : Processor).context.data =
        p.context.data ++ [Line.unchanged o n (p.text1.getD o "")] from rfl] at hl
    rw [List.mem_append] at hl
    rcases hl with hl | hl
    · exact hInv.gathering hchf l hl
    · rw [List.mem_singleton] at hl
      subst hl
      rfl
  · exact hInv.sound
  · exact fun hr => hInv.chain hr
  · intro hr hne
    obtain ⟨s0, hs0, h2s, hrel⟩ := hInv.link hr hne
    exact ⟨s0, hs0, h2s, hrel⟩

theorem pop_unch_pinv (p : Processor) (o n : Nat) (hInv : PInv p o n)
    (hc : p.text1.getD o "" = p.text2.getD n "")
    {s : Nat} (hstart : p.context.start = some s) (hch : p.context.changed = false) :
    PInv { p with
      context := { p.context with
        data := (p.context.data ++ [Line.unchanged o n (p.text1.getD o "")]).tail,
        start := p.context.start.map (· + 1) } } (o + 1) (n + 1) := by
  obtain ⟨hso, htrO⟩ := hInv.flushOld s hstart
  obtain ⟨t, htbal, htn, htrN⟩ := hInv.flushNew s hstart
  obtain ⟨fr, hdec, hsizo, hsizn⟩ := hInv.trailing
  have hallU := hInv.gathering hch
  have hallU2 : ∀ l ∈ p.context.data ++ [Line.unchanged o n (p.text1.getD o "")],
      l.kind = LineKind.Unchanged := by
    intro l hl
    rw [List.mem_append] at hl
    rcases hl with hl | hl
    · exact hallU l hl
    · rw [List.mem_singleton] at hl
      subst hl
      rfl
  have hallT : ∀ l ∈ (p.context.data ++ [Line.unchanged o n (p.text1.getD o "")]).tail,
      l.kind = LineKind.Unchanged :=
    fun l hl => hallU2 l (List.mem_of_mem_tail hl)
  have hlen : p.context.data.length = o - s := by
    have h1 : oldTrace p.context.data = p.context.data.map (fun l => (l.old_pos, l.inner)) := by
      rw [oldTrace, allUnch_oldSide hallU]
    have h2 := congrArg List.length htrO
    rw [h1] at h2
    simpa using h2
  have hstart2 : p.context.start.map (· + 1) = some (s + 1) := by
    rw [hstart]
    rfl
  have htrO' : oldTrace (p.context.data ++ [Line.unchanged o n (p.text1.getD o "")]) =
      (List.range' s (o + 1 - s)).map (oldStamp p.text1) := by
    rw [oldTrace_append, htrO,
      show oldTrace [Line.unchanged o n (p.text1.getD o "")] = [oldStamp p.text1 o] from rfl,
      show o + 1 - s = (o - s) + 1 from by omega, List.range'_1_concat, List.map_append]
    congr 2
    simp [show s + (o - s) = o from by omega]
  have htrN' : newTrace (p.context.data ++ [Line.unchanged o n (p.text1.getD o "")]) =
      (List.range' t (n + 1 - t)).map (newStamp p.text2) := by
    rw [newTrace_append, htrN,
      show newTrace [Line.unchanged o n (p.text1.getD o "")] =
        [(some n, p.text1.getD o "")] from rfl,
      show n + 1 - t = (n - t) + 1 from by omega, List.range'_1_concat, List.map_append]
    rw [show t + (n - t) = n from by omega, hc]
    rfl
  have htailO : oldTrace ((p.context.data ++ [Line.unchanged o n (p.text1.getD o "")]).tail) =
      (List.range' (s + 1) (o - s)).map (oldStamp p.text1) := by
    rw [oldTrace, allUnch_oldSide hallT, List.map_tail, ← oldTrace_allUnch hallU2, htrO',
      show o + 1 - s = (o - s) + 1 from by omega, List.range'_succ, List.map_cons,
      List.tail_cons]
  have htailN : newTrace ((p.context.data ++ [Line.unchanged o n (p.text1.getD o "")]).tail) =
      (List.range' (t + 1) (n - t)).map (newStamp p.text2) := by
    rw [newTrace, allUnch_newSide hallT, List.map_tail, ← newTrace_allUnch hallU2, htrN',
      show n + 1 - t = (n - t) + 1 from by omega, List.range'_succ, List.map_cons,
      List.tail_cons]
  refine ⟨?_, ?_, ?_, ?_, ?_, ?_, ?_, ?_, ?_, ?_, ?_, ?_⟩
  · show p.removed + p.context.removed + (n + 1) = p.inserted + p.context.inserted + (o + 1)
    have := hInv.balance
    omega
  · intro h
    rw [show ({ p with
      context := { p.context with
        data := (p.context.data ++ [Line.unchanged o n (p.text1.getD o "")]).tail,
        start := p.context.start.map (· + 1) } } : Processor).context.start =
        p.context.start.map (· + 1) from rfl, hstart2] at h
    exact absurd h (by simp)
  · show p.context.equaled =
      countUnch ((p.context.data ++ [Line.unchanged o n (p.text1.getD o "")]).tail)
    rw [allUnch_countUnch hallT, List.length_tail, List.length_append, hInv.countEq,
      allUnch_countUnch hallU]
    simp
  · show p.context.removed =
      countRem ((p.context.data ++ [Line.unchanged o n (p.text1.getD o "")]).tail)
    rw [allUnch_countRem hallT, hInv.countRm, allUnch_countRem hallU]
  · show p.context.inserted =
      countIns ((p.context.data ++ [Line.unchanged o n (p.text1.getD o "")]).tail)
    rw [allUnch_countIns hallT, hInv.countIn, allUnch_countIns hallU]
  · intro s2 hs2
    rw [show ({ p with
      context := { p.context with
        data := (p.context.data ++ [Line.unchanged o n (p.text1.getD o "")]).tail,
        start := p.context.start.map (· + 1) } } : Processor).context.start =
        p.context.start.map (· + 1) from rfl, hstart2] at hs2
    simp only [Option.some.injEq] at hs2
    subst hs2
    refine ⟨by omega, ?_⟩
    rw [show o + 1 - (s + 1) = o - s from by omega]
    exact htailO
  · intro s2 hs2
    rw [show ({ p with
      context := { p.context with
        data := (p.context.data ++ [Line.unchanged o n (p.text1.getD o "")]).tail,
        start := p.context.start.map (· + 1) } } : Processor).context.start =
        p.context.start.map (· + 1) from rfl, hstart2] at hs2
    simp only [Option.some.injEq] at hs2
    subst hs2
    refine ⟨t + 1, ?_, by omega, ?_⟩
    · show t + 1 + p.removed = s + 1 + p.inserted
      omega
    · rw [show n + 1 - (t + 1) = n - t from by omega]
      exact htailN
  · have hstep : p.context.data ++ [Line.unchanged o n (p.text1.getD o "")] =
        fr ++ unchRun p.text1 (o - p.size) (n - p.size) (p.size + 1) := by
      rw [hdec, List.append_assoc]
      congr 1
      rw [← unchRun_concat, show o - p.size + p.size = o from by omega,
          show n - p.size + p.size = n from by omega]
    have harith1 : o + 1 - p.size = o - p.size + 1 := by omega
    have harith2 : n + 1 - p.size = n - p.size + 1 := by omega
    rcases fr with _ | ⟨x, fr2⟩
    · refine ⟨[], ?_, ?_, ?_⟩
      · show (p.context.data ++ [Line.unchanged o n (p.text1.getD o "")]).tail =
          [] ++ unchRun p.text1 (o + 1 - p.size) (n + 1 - p.size) p.size
        rw [hstep, List.nil_append, List.nil_append, unchRun_tail, Nat.add_sub_cancel,
            harith1, harith2]
      · show p.size ≤ o + 1
        omega
      · show p.size ≤ n + 1
        omega
    · refine ⟨fr2 ++ [Line.unchanged (o - p.size) (n - p.size)
          (p.text1.getD (o - p.size) "")], ?_, ?_, ?_⟩
      · show (p.context.data ++ [Line.unchanged o n (p.text1.getD o "")]).tail =
          (fr2 ++ [Line.unchanged (o - p.size) (n - p.size)
            (p.text1.getD (o - p.size) "")]) ++
          unchRun p.text1 (o + 1 - p.size) (n + 1 - p.size) p.size
        rw [hstep, List.cons_append, List.tail_cons, unchRun_cons, harith1, harith2,
            ← List.singleton_append, ← List.append_assoc]
      · show p.size ≤ o + 1
        omega
      · show p.size ≤ n + 1
        omega
  · intro _ l hl
    exact hallT l hl
  · exact hInv.sound
  · exact fun hr => hInv.chain hr
  · intro hr hne
    obtain ⟨s0, hs0, h2s, hrel⟩ := hInv.link hr hne
    rw [hstart] at hs0
    simp only [Option.some.injEq] at hs0
    subst hs0
    refine ⟨s + 1, hstart2, by omega, ?_⟩
    intro h hlast
    obtain ⟨ha, hb⟩ := hrel h hlast
    constructor <;> omega



theorem equalStep_spec (p : Processor) (o n : Nat) (hInv : PInv p o n)
    (ho : o ≤ p.text1.length) (hn : n ≤ p.text2.length)
    (hc : p.text1.getD o "" = p.text2.getD n "")
    {s : Nat} (hstart : p.context.start = some s) :
    PInv (p.equalStep o n) (o + 1) (n + 1) ∧
    (∃ s2, (p.equalStep o n).context.start = some s2) ∧
    p.equalStepChk o n = some (p.equalStep o n) := by
  rcases hch : p.context.changed with _ | _
  · by_cases hsz : p.size < p.context_radius
    · have heq : p.equalStep o n = { p with
          context := { p.context with
            data := p.context.data ++ [Line.unchanged o n (p.text1.getD o "")],
            equaled := p.context.equaled + 1 },
          size := p.size + 1 } := by
        simp [Processor.equalStep, hch, hsz]
      refine ⟨?_, ?_, ?_⟩
      · rw [heq]
        exact push_unch_pinv p o n hInv hc hstart
      · refine ⟨s, ?_⟩
        rw [heq]
        exact hstart
      · simp [Processor.equalStepChk, hch]
    · have heq : p.equalStep o n = { p with
          context := { p.context with
            data := (p.context.data ++ [Line.unchanged o n (p.text1.getD o "")]).tail,
            start := p.context.start.map (· + 1) } } := by
        simp [Processor.equalStep, hch, hsz]
      refine ⟨?_, ?_, ?_⟩
      · rw [heq]
        exact pop_unch_pinv p o n hInv hc hstart hch
      · refine ⟨s + 1, ?_⟩
        rw [heq]
        show p.context.start.map (· + 1) = some (s + 1)
        rw [hstart]
        rfl
      · simp [Processor.equalStepChk, hch]
  · by_cases hsz : p.size < p.context_radius * 2
    · have heq : p.equalStep o n = { p with
          context := { p.context with
            data := p.context.data ++ [Line.unchanged o n (p.text1.getD o "")],
            equaled := p.context.equaled + 1 },
          size := p.size + 1 } := by
        simp [Processor.equalStep, hch, hsz]
      refine ⟨?_, ?_, ?_⟩
      · rw [heq]
        exact push_unch_pinv p o n hInv hc hstart
      · refine ⟨s, ?_⟩
        rw [heq]
        exact hstart
      · simp [Processor.equalStepChk, hch, hsz]
    · obtain ⟨hq0, hchk0⟩ := split_some_spec p o n hInv ho hn (fun _ => by omega)
      have hs0 : (p.split_hunks (some o)).context.start =
          some (o - ((p.context.data.drop
            (p.context.data.length - (p.size - p.context_radius))).tail).length) := by
        rw [split_hunks_eval]
        rfl
      have heq : p.equalStep o n = { p.split_hunks (some o) with
          context := { (p.split_hunks (some o)).context with
            data := (p.split_hunks (some o)).context.data ++
              [Line.unchanged o n ((p.split_hunks (some o)).text1.getD o "")],
            equaled := (p.split_hunks (some o)).context.equaled + 1 },
          size := (p.split_hunks (some o)).size + 1 } := by
        simp [Processor.equalStep, hch, hsz]
      refine ⟨?_, ?_, ?_⟩
      · rw [heq]
        exact push_unch_pinv (p.split_hunks (some o)) o n hq0 hc hs0
      · refine ⟨o - ((p.context.data.drop
            (p.context.data.length - (p.size - p.context_radius))).tail).length, ?_⟩
        rw [heq]
        exact hs0
      · rw [heq]
        simp [Processor.equalStepChk, hch, hsz, hchk0]



theorem pre_spec (p : Processor) (o n : Nat) (hInv : PInv p o n) :
    PInv (p.pre o) o n ∧ (∃ s, (p.pre o).context.start = some s) ∧
    (p.pre o).text1 = p.text1 ∧ (p.pre o).text2 = p.text2 ∧
    (p.pre o).context_radius = p.context_radius ∧
    (p.pre o).context.changed = p.context.changed ∧
    (p.pre o).result = p.result ∧ (p.pre o).size = 0 := by
  by_cases hstart : p.context.start = none
  · obtain ⟨hdata, hch, heq, hrm, hins, hsz⟩ := hInv.startNone hstart
    have hpre : p.pre o = { p with
        context := { p.context with start := some o }, size := 0 } := by
      simp [Processor.pre, hstart]
    rw [hpre]
    refine ⟨⟨?_, ?_, ?_, ?_, ?_, ?_, ?_, ?_, ?_, ?_, ?_, ?_⟩, ⟨o, rfl⟩, rfl, rfl, rfl, rfl, rfl, rfl⟩
    · show p.removed + p.context.removed + n = p.inserted + p.context.inserted + o
      exact hInv.balance
    · intro h
      simp at h
    · exact hInv.countEq
    · exact hInv.countRm
    · exact hInv.countIn
    · intro s2 hs2
      simp only [Option.some.injEq] at hs2
      subst hs2
      refine ⟨Nat.le_refl o, ?_⟩
      rw [hdata, Nat.sub_self]
      rfl
    · intro s2 hs2
      simp only [Option.some.injEq] at hs2
      subst hs2
      refine ⟨n, ?_, Nat.le_refl n, ?_⟩
      · show n + p.removed = o + p.inserted
        have := hInv.balance
        omega
      · rw [hdata, Nat.sub_self]
        rfl
    · refine ⟨p.context.data, ?_, Nat.zero_le o, Nat.zero_le n⟩
      show p.context.data = p.context.data ++ unchRun p.text1 (o - 0) (n - 0) 0
      rw [unchRun_zero, List.append_nil]
    · exact hInv.gathering
    · exact hInv.sound
    · exact fun hr => hInv.chain hr
    · intro hr hne
      obtain ⟨s0, hs0, -⟩ := hInv.link hr hne
      rw [hstart] at hs0
      exact absurd hs0 (by simp)
  · obtain ⟨s, hs⟩ := Option.ne_none_iff_exists'.mp hstart
    have hpre : p.pre o = { p with size := 0 } := by
      simp [Processor.pre, hstart]
    rw [hpre]
    refine ⟨⟨?_, ?_, ?_, ?_, ?_, ?_, ?_, ?_, ?_, ?_, ?_, ?_⟩, ⟨s, hs⟩, rfl, rfl, rfl, rfl, rfl, rfl⟩
    · exact hInv.balance
    · intro h
      exact absurd h hstart
    · exact hInv.countEq
    · exact hInv.countRm
    · exact hInv.countIn
    · exact hInv.flushOld
    · exact hInv.flushNew
    · obtain ⟨fr, hdec, -, -⟩ := hInv.trailing
      refine ⟨p.context.data, ?_, Nat.zero_le o, Nat.zero_le n⟩
      show p.context.data = p.context.data ++ unchRun p.text1 (o - 0) (n - 0) 0
      rw [unchRun_zero, List.append_nil]
    · exact hInv.gathering
    · exact hInv.sound
    · exact fun hr => hInv.chain hr
    · intro hr hne
      obtain ⟨s0, hs0, h2, hrel⟩ := hInv.link hr hne
      exact ⟨s0, hs0, h2, hrel⟩

theorem equalStep_fields (p : Processor) (i j : Nat) :
    (p.equalStep i j).text1 = p.text1 ∧ (p.equalStep i j).text2 = p.text2 ∧
    (p.equalStep i j).context_radius = p.context_radius := by
  rcases hch : p.context.changed with _ | _
  · by_cases hsz : p.size < p.context_radius
    · simp [Processor.equalStep, hch, hsz]
    · simp [Processor.equalStep, hch, hsz]
  · by_cases hsz : p.size < p.context_radius * 2
    · simp [Processor.equalStep, hch, hsz]
    · simp [Processor.equalStep, hch, hsz, Processor.split_hunks]

theorem filter_map_range_all {g : Nat → Line} {pr : Line → Bool}
    (h : ∀ k, pr (g k) = true) (len : Nat) :
    ((List.range len).map g).filter pr = (List.range len).map g :=
  List.filter_eq_self.mpr (fun l hl => by
    obtain ⟨k, -, rfl⟩ := List.mem_map.mp hl
    exact h k)

theorem filter_map_range_none {g : Nat → Line} {pr : Line → Bool}
    (h : ∀ k, pr (g k) = false) (len : Nat) :
    ((List.range len).map g).filter pr = [] := by
  rw [List.filter_eq_nil_iff]
  intro l hl
  obtain ⟨k, -, rfl⟩ := List.mem_map.mp hl
  simp [h k]

theorem countP_map_range_all {g : Nat → Line} {pr : Line → Bool}
    (h : ∀ k, pr (g k) = true) (len : Nat) :
    ((List.range len).map g).countP pr = len := by
  rw [List.countP_eq_length.mpr (fun l hl => by
    obtain ⟨k, -, rfl⟩ := List.mem_map.mp hl
    exact h k)]
  simp

theorem countP_map_range_none {g : Nat → Line} {pr : Line → Bool}
    (h : ∀ k, pr (g k) = false) (len : Nat) :
    ((List.range len).map g).countP pr = 0 :=
  List.countP_eq_zero.mpr (fun l hl => by
    obtain ⟨k, -, rfl⟩ := List.mem_map.mp hl
    simp [h k])



theorem delete_spec (p : Processor) (o len n : Nat) (hInv : PInv p o n) :
    PInv (p.delete o len n) (o + len) n ∧
    (p.delete o len n).text1 = p.text1 ∧ (p.delete o len n).text2 = p.text2 ∧
    (p.delete o len n).context_radius = p.context_radius := by
  obtain ⟨hQ, ⟨s, hqs⟩, hqt1, hqt2, hqr, -, -, hqsz⟩ := pre_spec p o n hInv
  have hR : p.delete o len n = { p.pre o with
      context := { (p.pre o).context with
        data := (p.pre o).context.data ++
          (List.range len).map (fun k => Line.remove (o + k) ((p.pre o).text1.getD (o + k) "")),
        changed := true,
        removed := (p.pre o).context.removed + len } } := rfl
  rw [hR]
  obtain ⟨hso, htrO⟩ := hQ.flushOld s hqs
  obtain ⟨t, htbal, htn, htrN⟩ := hQ.flushNew s hqs
  have hDLold : oldTrace ((List.range len).map
      (fun k => Line.remove (o + k) ((p.pre o).text1.getD (o + k) ""))) =
      (List.range' o len).map (oldStamp (p.pre o).text1) := by
    rw [oldTrace, oldSide, filter_map_range_all (fun k => rfl), List.map_map,
      List.range'_eq_map_range, List.map_map]
    rfl
  have hDLnew : newSide ((List.range len).map
      (fun k => Line.remove (o + k) ((p.pre o).text1.getD (o + k) ""))) = [] :=
    filter_map_range_none (fun k => rfl) len
  refine ⟨⟨?_, ?_, ?_, ?_, ?_, ?_, ?_, ?_, ?_, ?_, ?_, ?_⟩, hqt1, hqt2, hqr⟩
  · show (p.pre o).removed + ((p.pre o).context.removed + len) + n =
      (p.pre o).inserted + (p.pre o).context.inserted + (o + len)
    have := hQ.balance
    omega
  · intro h
    rw [show ({ p.pre o with
      context := { (p.pre o).context with
        data := (p.pre o).context.data ++
          (List.range len).map (fun k => Line.remove (o + k) ((p.pre o).text1.getD (o + k) "")),
        changed := true,
        removed := (p.pre o).context.removed + len } } : Processor).context.start =
      (p.pre o).context.start from rfl, hqs] at h
    exact absurd h (by simp)
  · show (p.pre o).context.equaled = countUnch _
    rw [countUnch_append, hQ.countEq,
      show countUnch ((List.range len).map
          (fun k => Line.remove (o + k) ((p.pre o).text1.getD (o + k) ""))) = 0 from
        countP_map_range_none (fun k => rfl) len, Nat.add_zero]
  · show (p.pre o).context.removed + len = countRem _
    rw [countRem_append, hQ.countRm,
      show countRem ((List.range len).map
          (fun k => Line.remove (o + k) ((p.pre o).text1.getD (o + k) ""))) = len from
        countP_map_range_all (fun k => rfl) len]
  · show (p.pre o).context.inserted = countIns _
    rw [countIns_append, hQ.countIn,
      show countIns ((List.range len).map
          (fun k => Line.remove (o + k) ((p.pre o).text1.getD (o + k) ""))) = 0 from
        countP_map_range_none (fun k => rfl) len, Nat.add_zero]
  · intro s2 hs2
    rw [show ({ p.pre o with
      context := { (p.pre o).context with
        data := (p.pre o).context.data ++
          (List.range len).map (fun k => Line.remove (o + k) ((p.pre o).text1.getD (o + k) "")),
        changed := true,
        removed := (p.pre o).context.removed + len } } : Processor).context.start =
      (p.pre o).context.start from rfl, hqs] at hs2
    simp only [Option.some.injEq] at hs2
    subst hs2
    refine ⟨by omega, ?_⟩
    show oldTrace ((p.pre o).context.data ++ _) = _
    rw [oldTrace_append, htrO, hDLold]
    rw [show o + len - s = (o - s) + len from by omega, ← List.map_append]
    have hr := List.range'_append s (o - s) len 1
    rw [show s + 1 * (o - s) = o from by omega] at hr
    rw [hr, Nat.add_comm (o - s) len]
  · intro s2 hs2
    rw [show ({ p.pre o with
      context := { (p.pre o).context with
        data := (p.pre o).context.data ++
          (List.range len).map (fun k => Line.remove (o + k) ((p.pre o).text1.getD (o + k) "")),
        changed := true,
        removed := (p.pre o).context.removed + len } } : Processor).context.start =
      (p.pre o).context.start from rfl, hqs] at hs2
    simp only [Option.some.injEq] at hs2
    subst hs2
    refine ⟨t, htbal, htn, ?_⟩
    show newTrace ((p.pre o).context.data ++ _) = _
    rw [newTrace_append, htrN, newTrace, hDLnew]
    simp
  · refine ⟨(p.pre o).context.data ++
      (List.range len).map (fun k => Line.remove (o + k) ((p.pre o).text1.getD (o + k) "")),
      ?_, ?_, ?_⟩
    · show _ = _ ++ unchRun (p.pre o).text1 (o + len - (p.pre o).size) (n - (p.pre o).size)
        (p.pre o).size
      rw [hqsz, unchRun_zero, List.append_nil]
    · show (p.pre o).size ≤ o + len
      omega
    · show (p.pre o).size ≤ n
      rw [hqsz]
      omega
  · intro h
    simp at h
  · exact hQ.sound
  · exact fun hr => hQ.chain hr
  · intro hr hne
    obtain ⟨s0, hs0, h2, hrel⟩ := hQ.link hr hne
    exact ⟨s0, hs0, h2, hrel⟩



theorem insert_spec (p : Processor) (o n len : Nat) (hInv : PInv p o n) :
    PInv (p.insert o n len) o (n + len) ∧
    (p.insert o n len).text1 = p.text1 ∧ (p.insert o n len).text2 = p.text2 ∧
    (p.insert o n len).context_radius = p.context_radius := by
  obtain ⟨hQ, ⟨s, hqs⟩, hqt1, hqt2, hqr, -, -, hqsz⟩ := pre_spec p o n hInv
  have hR : p.insert o n len = { p.pre o with
      context := { (p.pre o).context with
        data := (p.pre o).context.data ++
          (List.range len).map (fun k => Line.insert (n + k) ((p.pre o).text2.getD (n + k) "")),
        changed := true,
        inserted := (p.pre o).context.inserted + len } } := rfl
  rw [hR]
  obtain ⟨hso, htrO⟩ := hQ.flushOld s hqs
  obtain ⟨t, htbal, htn, htrN⟩ := hQ.flushNew s hqs
  have hILnew : newTrace ((List.range len).map
      (fun k => Line.insert (n + k) ((p.pre o).text2.getD (n + k) ""))) =
      (List.range' n len).map (newStamp (p.pre o).text2) := by
    rw [newTrace, newSide, filter_map_range_all (fun k => rfl), List.map_map,
      List.range'_eq_map_range, List.map_map]
    rfl
  have hILold : oldSide ((List.range len).map
      (fun k => Line.insert (n + k) ((p.pre o).text2.getD (n + k) ""))) = [] :=
    filter_map_range_none (fun k => rfl) len
  refine ⟨⟨?_, ?_, ?_, ?_, ?_, ?_, ?_, ?_, ?_, ?_, ?_, ?_⟩, hqt1, hqt2, hqr⟩
  · show (p.pre o).removed + (p.pre o).context.removed + (n + len) =
      (p.pre o).inserted + ((p.pre o).context.inserted + len) + o
    have := hQ.balance
    omega
  · intro h
    rw [show ({ p.pre o with
      context := { (p.pre o).context with
        data := (p.pre o).context.data ++
          (List.range len).map (fun k => Line.insert (n + k) ((p.pre o).text2.getD (n + k) "")),
        changed := true,
        inserted := (p.pre o).context.inserted + len } } : Processor).context.start =
      (p.pre o).context.start from rfl, hqs] at h
    exact absurd h (by simp)
  · show (p.pre o).context.equaled = countUnch _
    rw [countUnch_append, hQ.countEq,
      show countUnch ((List.range len).map
          (fun k => Line.insert (n + k) ((p.pre o).text2.getD (n + k) ""))) = 0 from
        countP_map_range_none (fun k => rfl) len, Nat.add_zero]
  · show (p.pre o).context.removed = countRem _
    rw [countRem_append, hQ.countRm,
      show countRem ((List.range len).map
          (fun k => Line.insert (n + k) ((p.pre o).text2.getD (n + k) ""))) = 0 from
        countP_map_range_none (fun k => rfl) len, Nat.add_zero]
  · show (p.pre o).context.inserted + len = countIns _
    rw [countIns_append, hQ.countIn,
      show countIns ((List.range len).map
          (fun k => Line.insert (n + k) ((p.pre o).text2.getD (n + k) ""))) = len from
        countP_map_range_all (fun k => rfl) len]
  · intro s2 hs2
    rw [show ({ p.pre o with
      context := { (p.pre o).context with
        data := (p.pre o).context.data ++
          (List.range len).map (fun k => Line.insert (n + k) ((p.pre o).text2.getD (n + k) "")),
        changed := true,
        inserted := (p.pre o).context.inserted + len } } : Processor).context.start =
      (p.pre o).context.start from rfl, hqs] at hs2
    simp only [Option.some.injEq] at hs2
    subst hs2
    refine ⟨hso, ?_⟩
    show oldTrace ((p.pre o).context.data ++ _) = _
    rw [oldTrace_append, htrO, oldTrace, hILold]
    simp
  · intro s2 hs2
    rw [show ({ p.pre o with
      context := { (p.pre o).context with
        data := (p.pre o).context.data ++
          (List.range len).map (fun k => Line.insert (n + k) ((p.pre o).text2.getD (n + k) "")),
        changed := true,
        inserted := (p.pre o).context.inserted + len } } : Processor).context.start =
      (p.pre o).context.start from rfl, hqs] at hs2
    simp only [Option.some.injEq] at hs2
    subst hs2
    refine ⟨t, ?_, by omega, ?_⟩
    · show t + (p.pre o).removed = s + (p.pre o).inserted
      omega
    · show newTrace ((p.pre o).context.data ++ _) = _
      rw [newTrace_append, htrN, hILnew]
      rw [show n + len - t = (n - t) + len from by omega, ← List.map_append]
      have hr := List.range'_append t (n - t) len 1
      rw [show t + 1 * (n - t) = n from by omega] at hr
      rw [hr, Nat.add_comm (n - t) len]
  · refine ⟨(p.pre o).context.data ++
      (List.range len).map (fun k => Line.insert (n + k) ((p.pre o).text2.getD (n + k) "")),
      ?_, ?_, ?_⟩
    · show _ = _ ++ unchRun (p.pre o).text1 (o - (p.pre o).size) (n + len - (p.pre o).size)
        (p.pre o).size
      rw [hqsz, unchRun_zero, List.append_nil]
    · show (p.pre o).size ≤ o
      rw [hqsz]
      omega
    · show (p.pre o).size ≤ n + len
      omega
  · intro h
    simp at h
  · exact hQ.sound
  · exact fun hr => hQ.chain hr
  · intro hr hne
    obtain ⟨s0, hs0, h2, hrel⟩ := hQ.link hr hne
    exact ⟨s0, hs0, h2, hrel⟩



theorem replace_spec (p : Processor) (o ol n nl : Nat) (hInv : PInv p o n) :
    PInv (p.replace o ol n nl) (o + ol) (n + nl) ∧
    (p.replace o ol n nl).text1 = p.text1 ∧ (p.replace o ol n nl).text2 = p.text2 ∧
    (p.replace o ol n nl).context_radius = p.context_radius := by
  obtain ⟨hQ, ⟨s, hqs⟩, hqt1, hqt2, hqr, -, -, hqsz⟩ := pre_spec p o n hInv
  have hR : p.replace o ol n nl = { p.pre o with
      context := { (p.pre o).context with
        data := (p.pre o).context.data ++
          (List.range ol).map (fun k => Line.replace_remove (o + k)
            (if n + k < n + nl then some (n + k) else none)
            ((p.pre o).text1.getD (o + k) "")) ++
          (List.range nl).map (fun k => Line.replace_insert
            (if o + k < o + ol then some (o + k) else none) (n + k)
            ((p.pre o).text2.getD (n + k) "")),
        changed := true,
        removed := (p.pre o).context.removed + ol,
        inserted := (p.pre o).context.inserted + nl } } := rfl
  rw [hR]
  obtain ⟨hso, htrO⟩ := hQ.flushOld s hqs
  obtain ⟨t, htbal, htn, htrN⟩ := hQ.flushNew s hqs
  have hRRold : oldTrace ((List.range ol).map (fun k => Line.replace_remove (o + k)
      (if n + k < n + nl then some (n + k) else none) ((p.pre o).text1.getD (o + k) ""))) =
      (List.range' o ol).map (oldStamp (p.pre o).text1) := by
    rw [oldTrace, oldSide, filter_map_range_all (fun k => rfl), List.map_map,
      List.range'_eq_map_range, List.map_map]
    rfl
  have hRInew : newTrace ((List.range nl).map (fun k => Line.replace_insert
      (if o + k < o + ol then some (o + k) else none) (n + k)
      ((p.pre o).text2.getD (n + k) ""))) =
      (List.range' n nl).map (newStamp (p.pre o).text2) := by
    rw [newTrace, newSide, filter_map_range_all (fun k => rfl), List.map_map,
      List.range'_eq_map_range, List.map_map]
    rfl
  have hRRnew : newSide ((List.range ol).map (fun k => Line.replace_remove (o + k)
      (if n + k < n + nl then some (n + k) else none) ((p.pre o).text1.getD (o + k) ""))) = [] :=
    filter_map_range_none (fun k => rfl) ol
  have hRIold : oldSide ((List.range nl).map (fun k => Line.replace_insert
      (if o + k < o + ol then some (o + k) else none) (n + k)
      ((p.pre o).text2.getD (n + k) ""))) = [] :=
    filter_map_range_none (fun k => rfl) nl
  refine ⟨⟨?_, ?_, ?_, ?_, ?_, ?_, ?_, ?_, ?_, ?_, ?_, ?_⟩, hqt1, hqt2, hqr⟩
  · show (p.pre o).removed + ((p.pre o).context.removed + ol) + (n + nl) =
      (p.pre o).inserted + ((p.pre o).context.inserted + nl) + (o + ol)
    have := hQ.balance
    omega
  · intro h
    exact absurd (hqs ▸ h) (by simp)
  · show (p.pre o).context.equaled = countUnch _
    rw [countUnch_append, countUnch_append, hQ.countEq,
      show countUnch ((List.range ol).map (fun k => Line.replace_remove (o + k)
          (if n + k < n + nl then some (n + k) else none)
          ((p.pre o).text1.getD (o + k) ""))) = 0 from
        countP_map_range_none (fun k => rfl) ol,
      show countUnch ((List.range nl).map (fun k => Line.replace_insert
          (if o + k < o + ol then some (o + k) else none) (n + k)
          ((p.pre o).text2.getD (n + k) ""))) = 0 from
        countP_map_range_none (fun k => rfl) nl]
    omega
  · show (p.pre o).context.removed + ol = countRem _
    rw [countRem_append, countRem_append, hQ.countRm,
      show countRem ((List.range ol).map (fun k => Line.replace_remove (o + k)
          (if n + k < n + nl then some (n + k) else none)
          ((p.pre o).text1.getD (o + k) ""))) = ol from
        countP_map_range_all (fun k => rfl) ol,
      show countRem ((List.range nl).map (fun k => Line.replace_insert
          (if o + k < o + ol then some (o + k) else none) (n + k)
          ((p.pre o).text2.getD (n + k) ""))) = 0 from
        countP_map_range_none (fun k => rfl) nl]
    omega
  · show (p.pre o).context.inserted + nl = countIns _
    rw [countIns_append, countIns_append, hQ.countIn,
      show countIns ((List.range ol).map (fun k => Line.replace_remove (o + k)
          (if n + k < n + nl then some (n + k) else none)
          ((p.pre o).text1.getD (o + k) ""))) = 0 from
        countP_map_range_none (fun k => rfl) ol,
      show countIns ((List.range nl).map (fun k => Line.replace_insert
          (if o + k < o + ol then some (o + k) else none) (n + k)
          ((p.pre o).text2.getD (n + k) ""))) = nl from
        countP_map_range_all (fun k => rfl) nl,
      Nat.add_zero]
  · intro s2 hs2
    have hs2' : s2 = s := by
      rw [show ({ p.pre o with
        context := { (p.pre o).context with
          data := (p.pre o).context.data ++
            (List.range ol).map (fun k => Line.replace_remove (o + k)
              (if n + k < n + nl then some (n + k) else none)
              ((p.pre o).text1.getD (o + k) "")) ++
            (List.range nl).map (fun k => Line.replace_insert
              (if o + k < o + ol then some (o + k) else none) (n + k)
              ((p.pre o).text2.getD (n + k) "")),
          changed := true,
          removed := (p.pre o).context.removed + ol,
          inserted := (p.pre o).context.inserted + nl } } : Processor).context.start =
        (p.pre o).context.start from rfl, hqs] at hs2
      simpa using hs2.symm
    rw [hs2']
    refine ⟨by omega, ?_⟩
    show oldTrace ((p.pre o).context.data ++ _ ++ _) = _
    rw [oldTrace_append, oldTrace_append, htrO, hRRold, oldTrace, hRIold,
      List.map_nil, List.append_nil]
    rw [show o + ol - s = (o - s) + ol from by omega, ← List.map_append]
    have hr := List.range'_append s (o - s) ol 1
    rw [show s + 1 * (o - s) = o from by omega] at hr
    rw [hr, Nat.add_comm (o - s) ol]
  · intro s2 hs2
    have hs2' : s2 = s := by
      rw [show ({ p.pre o with
        context := { (p.pre o).context with
          data := (p.pre o).context.data ++
            (List.range ol).map (fun k => Line.replace_remove (o + k)
              (if n + k < n + nl then some (n + k) else none)
              ((p.pre o).text1.getD (o + k) "")) ++
            (List.range nl).map (fun k => Line.replace_insert
              (if o + k < o + ol then some (o + k) else none) (n + k)
              ((p.pre o).text2.getD (n + k) "")),
          changed := true,
          removed := (p.pre o).context.removed + ol,
          inserted := (p.pre o).context.inserted + nl } } : Processor).context.start =
        (p.pre o).context.start from rfl, hqs] at hs2
      simpa using hs2.symm
    rw [hs2']
    refine ⟨t, htbal, by omega, ?_⟩
    show newTrace ((p.pre o).context.data ++ _ ++ _) = _
    rw [newTrace_append, newTrace_append, htrN, hRInew, newTrace, hRRnew,
      List.map_nil, List.append_nil]
    rw [show n + nl - t = (n - t) + nl from by omega, ← List.map_append]
    have hr := List.range'_append t (n - t) nl 1
    rw [show t + 1 * (n - t) = n from by omega] at hr
    rw [hr, Nat.add_comm (n - t) nl]
  · refine ⟨(p.pre o).context.data ++
      (List.range ol).map (fun k => Line.replace_remove (o + k)
        (if n + k < n + nl then some (n + k) else none)
        ((p.pre o).text1.getD (o + k) "")) ++
      (List.range nl).map (fun k => Line.replace_insert
        (if o + k < o + ol then some (o + k) else none) (n + k)
        ((p.pre o).text2.getD (n + k) "")), ?_, ?_, ?_⟩
    · show _ = _ ++ unchRun (p.pre o).text1 (o + ol - (p.pre o).size)
        (n + nl - (p.pre o).size) (p.pre o).size
      rw [hqsz, unchRun_zero, List.append_nil]
    · show (p.pre o).size ≤ o + ol
      omega
    · show (p.pre o).size ≤ n + nl
      omega
  · intro h
    simp at h
  · exact hQ.sound
  · exact fun hr => hQ.chain hr
  · intro hr hne
    obtain ⟨s0, hs0, h2, hrel⟩ := hQ.link hr hne
    exact ⟨s0, hs0, h2, hrel⟩



theorem equalLoop_spec (len : Nat) :
    ∀ (p : Processor) (o n : Nat), PInv p o n →
    (∃ s, p.context.start = some s) →
    o + len ≤ p.text1.length → n + len ≤ p.text2.length →
    (∀ k, k < len → p.text1.getD (o + k) "" = p.text2.getD (n + k) "") →
    PInv (p.equalLoop o n len) (o + len) (n + len) ∧
    (∃ s2, (p.equalLoop o n len).context.start = some s2) ∧
    (p.equalLoop o n len).text1 = p.text1 ∧ (p.equalLoop o n len).text2 = p.text2 ∧
    (p.equalLoop o n len).context_radius = p.context_radius ∧
    p.equalLoopChk o n len = some (p.equalLoop o n len) := by
  induction len with
  | zero =>
    intro p o n hInv hs ho hn hc
    exact ⟨hInv, hs, rfl, rfl, rfl, rfl⟩
  | succ len ih =>
    rintro p o n hInv ⟨s, hstart⟩ ho hn hc
    have hc0 : p.text1.getD o "" = p.text2.getD n "" := by
      have := hc 0 (by omega)
      simpa using this
    obtain ⟨hQ, ⟨s2, hs2⟩, hchk⟩ :=
      equalStep_spec p o n hInv (by omega) (by omega) hc0 hstart
    obtain ⟨ht1, ht2, hr⟩ := equalStep_fields p o n
    have hrec := ih (p.equalStep o n) (o + 1) (n + 1) hQ ⟨s2, hs2⟩
      (by rw [ht1]; omega) (by rw [ht2]; omega)
      (fun k hk => by
        rw [ht1, ht2, show o + 1 + k = o + (k + 1) from by omega,
          show n + 1 + k = n + (k + 1) from by omega]
        exact hc (k + 1) (by omega))
    obtain ⟨hI, hS, hT1, hT2, hR, hChk⟩ := hrec
    refine ⟨?_, ?_, ?_, ?_, ?_, ?_⟩
    · show PInv ((p.equalStep o n).equalLoop (o + 1) (n + 1) len)
        (o + (len + 1)) (n + (len + 1))
      rw [show o + (len + 1) = o + 1 + len from by omega,
        show n + (len + 1) = n + 1 + len from by omega]
      exact hI
    · exact hS
    · show ((p.equalStep o n).equalLoop (o + 1) (n + 1) len).text1 = p.text1
      rw [hT1, ht1]
    · show ((p.equalStep o n).equalLoop (o + 1) (n + 1) len).text2 = p.text2
      rw [hT2, ht2]
    · show ((p.equalStep o n).equalLoop (o + 1) (n + 1) len).context_radius =
        p.context_radius
      rw [hR, hr]
    · show (p.equalStepChk o n).bind
        (fun q => q.equalLoopChk (o + 1) (n + 1) len) = _
      rw [hchk]
      show (p.equalStep o n).equalLoopChk (o + 1) (n + 1) len = _
      rw [hChk]
      rfl

theorem equal_spec (p : Processor) (o n len : Nat) (hInv : PInv p o n)
    (ho : o + len ≤ p.text1.length) (hn : n + len ≤ p.text2.length)
    (hc : ∀ k, k < len → p.text1.getD (o + k) "" = p.text2.getD (n + k) "") :
    PInv (p.equal o n len) (o + len) (n + len) ∧
    (p.equal o n len).text1 = p.text1 ∧ (p.equal o n len).text2 = p.text2 ∧
    (p.equal o n len).context_radius = p.context_radius ∧
    p.equalChk o n len = some (p.equal o n len) := by
  obtain ⟨hQ, hs, ht1, ht2, hr, -, -, -⟩ := pre_spec p o n hInv
  have hrec := equalLoop_spec len (p.pre o) o n hQ hs
    (by rw [ht1]; exact ho) (by rw [ht2]; exact hn)
    (fun k hk => by rw [ht1, ht2]; exact hc k hk)
  obtain ⟨hI, -, hT1, hT2, hR, hChk⟩ := hrec
  refine ⟨hI, ?_, ?_, ?_, ?_⟩
  · show ((p.pre o).equalLoop o n len).text1 = p.text1
    rw [hT1, ht1]
  · show ((p.pre o).equalLoop o n len).text2 = p.text2
    rw [hT2, ht2]
  · show ((p.pre o).equalLoop o n len).context_radius = p.context_radius
    rw [hR, hr]
  · exact hChk

theorem applyOp_spec (p : Processor) (o n : Nat) (op : Op) (hInv : PInv p o n)
    (ho : o + op.oldLen ≤ p.text1.length) (hn : n + op.newLen ≤ p.text2.length)
    (hc : op.isEqual = true → ∀ k, k < op.oldLen →
      p.text1.getD (o + k) "" = p.text2.getD (n + k) "") :
    PInv (p.applyOp o n op) (o + op.oldLen) (n + op.newLen) ∧
    (p.applyOp o n op).text1 = p.text1 ∧ (p.applyOp o n op).text2 = p.text2 ∧
    (p.applyOp o n op).context_radius = p.context_radius ∧
    p.applyOpChk o n op = some (p.applyOp o n op) := by
  cases op with
  | equal len =>
    obtain ⟨hI, hT1, hT2, hR, hChk⟩ := equal_spec p o n len hInv ho hn (hc rfl)
    exact ⟨hI, hT1, hT2, hR, hChk⟩
  | delete len =>
    obtain ⟨hI, hT1, hT2, hR⟩ := delete_spec p o len n hInv
    exact ⟨hI, hT1, hT2, hR, rfl⟩
  | insert len =>
    obtain ⟨hI, hT1, hT2, hR⟩ := insert_spec p o n len hInv
    exact ⟨hI, hT1, hT2, hR, rfl⟩
  | replace ol nl =>
    obtain ⟨hI, hT1, hT2, hR⟩ := replace_spec p o ol n nl hInv
    exact ⟨hI, hT1, hT2, hR, rfl⟩

theorem run_spec (script : List Op) :
    ∀ (p : Processor) (o n : Nat), PInv p o n →
    WFFrom p.text1 p.text2 o n script →
    PInv (p.run o n script) p.text1.length p.text2.length ∧
    (p.run o n script).text1 = p.text1 ∧ (p.run o n script).text2 = p.text2 ∧
    (p.run o n script).context_radius = p.context_radius ∧
    p.runChk o n script = some (p.run o n script) := by
  induction script with
  | nil =>
    intro p o n hInv hwf
    obtain ⟨h1, h2⟩ := hwf
    subst h1
    subst h2
    exact ⟨hInv, rfl, rfl, rfl, rfl⟩
  | cons op rest ih =>
    intro p o n hInv hwf
    obtain ⟨hcov1, hcov2⟩ := WFFrom.coverage hwf
    have hsum1 : scriptOldLen (op :: rest) = op.oldLen + scriptOldLen rest := by
      simp [scriptOldLen]
    have hsum2 : scriptNewLen (op :: rest) = op.newLen + scriptNewLen rest := by
      simp [scriptNewLen]
    rw [hsum1] at hcov1
    rw [hsum2] at hcov2
    have ho : o + op.oldLen ≤ p.text1.length := by omega
    have hn : n + op.newLen ≤ p.text2.length := by omega
    have hrest : WFFrom p.text1 p.text2 (o + op.oldLen) (n + op.newLen) rest ∧
        (op.isEqual = true → ∀ k, k < op.oldLen →
          p.text1.getD (o + k) "" = p.text2.getD (n + k) "") := by
      cases op with
      | equal len => exact ⟨hwf.2, fun _ => hwf.1⟩
      | delete len => exact ⟨hwf, fun h => by simp [Op.isEqual] at h⟩
      | insert len => exact ⟨hwf, fun h => by simp [Op.isEqual] at h⟩
      | replace ol nl => exact ⟨hwf, fun h => by simp [Op.isEqual] at h⟩
    obtain ⟨hwfrest, hceq⟩ := hrest
    obtain ⟨hQ, hT1, hT2, hR, hChk⟩ := applyOp_spec p o n op hInv ho hn hceq
    have hrec := ih (p.applyOp o n op) (o + op.oldLen) (n + op.newLen) hQ
      (by rw [hT1, hT2]; exact hwfrest)
    rw [hT1, hT2] at hrec
    obtain ⟨hI, hU1, hU2, hUr, hUchk⟩ := hrec
    refine ⟨?_, ?_, ?_, ?_, ?_⟩
    · show PInv ((p.applyOp o n op).run (o + op.oldLen) (n + op.newLen) rest)
        p.text1.length p.text2.length
      exact hI
    · show ((p.applyOp o n op).run (o + op.oldLen) (n + op.newLen) rest).text1 = p.text1
      rw [hU1]
    · show ((p.applyOp o n op).run (o + op.oldLen) (n + op.newLen) rest).text2 = p.text2
      rw [hU2]
    · show ((p.applyOp o n op).run (o + op.oldLen) (n + op.newLen) rest).context_radius =
        p.context_radius
      rw [hUr, hR]
    · show (p.applyOpChk o n op).bind
        (fun q => q.runChk (o + op.oldLen) (n + op.newLen) rest) = _
      rw [hChk]
      show (p.applyOp o n op).runChk (o + op.oldLen) (n + op.newLen) rest = _
      rw [hUchk]
      rfl



theorem processScript_spec (text1 text2 : List String) (radius : Nat) (script : List Op)
    (hwf : WellFormed text1 text2 script) :
    (∀ h ∈ (processScript text1 text2 radius script).result, HunkSound text1 text2 h) ∧
    (1 ≤ radius → List.Chain' hunkOrdered (processScript text1 text2 radius script).result) ∧
    processScriptChk text1 text2 radius script =
      some (processScript text1 text2 radius script) := by
  obtain ⟨hI, hT1, hT2, hR, hChk⟩ :=
    run_spec script (Processor.new text1 text2 radius) 0 0
      (pinv_new text1 text2 radius) hwf
  obtain ⟨hsound, hchain, hchk2⟩ :=
    split_none_spec ((Processor.new text1 text2 radius).run 0 0 script)
      text1.length text2.length hI
      (by rw [hT1]; exact Nat.le_refl _) (by rw [hT2]; exact Nat.le_refl _)
  rw [hT1, hT2] at hsound
  refine ⟨hsound, ?_, ?_⟩
  · intro hr
    exact hchain (by rw [hR]; exact hr)
  · show ((Processor.new text1 text2 radius).runChk 0 0 script).bind
      (fun q => q.split_hunksChk none) = _
    rw [hChk]
    exact hchk2



theorem drop_cons_head {t : List String} {o : Nat} {x : String} {xs : List String}
    (h : t.drop o = x :: xs) :
    o < t.length ∧ t.getD o "" = x ∧ t.drop (o + 1) = xs := by
  have hlen : o < t.length := by
    have hl := congrArg List.length h
    simp only [List.length_drop, List.length_cons] at hl
    omega
  refine ⟨hlen, ?_, ?_⟩
  · have h0 : t[o]? = some x := by
      have h1 := List.getElem?_drop t o 0
      rw [h] at h1
      simpa using h1.symm
    rw [List.getD_eq_getElem?_getD, h0]
    rfl
  · rw [← List.drop_drop, h]
    rfl

theorem align_wf_aux (xs : List String) : ∀ (ys t1 t2 : List String) (o n : Nat),
    o ≤ t1.length → n ≤ t2.length → t1.drop o = xs → t2.drop n = ys →
    WFFrom t1 t2 o n (align xs ys) := by
  induction xs with
  | nil =>
    intro ys t1 t2 o n ho hn hx hy
    have ho' : o = t1.length := by
      have := List.drop_eq_nil_iff.mp hx
      omega
    cases ys with
    | nil =>
      have hn' : n = t2.length := by
        have := List.drop_eq_nil_iff.mp hy
        omega
      exact ⟨ho', hn'⟩
    | cons y ys =>
      show o = t1.length ∧ n + (y :: ys).length = t2.length
      have hl := congrArg List.length hy
      simp only [List.length_drop, List.length_cons] at hl
      exact ⟨ho', by simp only [List.length_cons]; omega⟩
  | cons x xs ih =>
    intro ys t1 t2 o n ho hn hx hy
    obtain ⟨hlt, hget, hdrop⟩ := drop_cons_head hx
    cases ys with
    | nil =>
      show o + (x :: xs).length = t1.length ∧ n = t2.length
      have hl := congrArg List.length hx
      simp only [List.length_drop, List.length_cons] at hl
      have hn' : n = t2.length := by
        have := List.drop_eq_nil_iff.mp hy
        omega
      exact ⟨by simp only [List.length_cons]; omega, hn'⟩
    | cons y ys =>
      obtain ⟨hlt2, hget2, hdrop2⟩ := drop_cons_head hy
      have hIH := ih ys t1 t2 (o + 1) (n + 1) (by omega) (by omega) hdrop hdrop2
      by_cases hxy : x = y
      · have halignEq : align (x :: xs) (y :: ys) = alignPush (align xs ys) := by
          simp [align, hxy]
        rw [halignEq]
        have hhead : t1.getD o "" = t2.getD n "" := by rw [hget, hget2, hxy]
        rcases halign : align xs ys with _ | ⟨op, tl⟩
        · rw [halign] at hIH
          show (∀ k, k < 1 → t1.getD (o + k) "" = t2.getD (n + k) "") ∧
            WFFrom t1 t2 (o + 1) (n + 1) []
          refine ⟨?_, hIH⟩
          intro k hk
          have hk0 : k = 0 := by omega
          subst hk0
          simpa using hhead
        · rw [halign] at hIH
          cases op with
          | equal k =>
            obtain ⟨hcont, hrest⟩ := hIH
            show (∀ j, j < k + 1 → t1.getD (o + j) "" = t2.getD (n + j) "") ∧
              WFFrom t1 t2 (o + (k + 1)) (n + (k + 1)) tl
            constructor
            · intro j hj
              cases j with
              | zero => simpa using hhead
              | succ j2 =>
                have hc2 := hcont j2 (by omega)
                rw [show o + (j2 + 1) = o + 1 + j2 from by omega,
                  show n + (j2 + 1) = n + 1 + j2 from by omega]
                exact hc2
            · rw [show o + (k + 1) = o + 1 + k from by omega,
                show n + (k + 1) = n + 1 + k from by omega]
              exact hrest
          | delete L =>
            show (∀ j, j < 1 → t1.getD (o + j) "" = t2.getD (n + j) "") ∧
              WFFrom t1 t2 (o + 1) (n + 1) (Op.delete L :: tl)
            refine ⟨?_, hIH⟩
            intro j hj
            have hj0 : j = 0 := by omega
            subst hj0
            simpa using hhead
          | insert L =>
            show (∀ j, j < 1 → t1.getD (o + j) "" = t2.getD (n + j) "") ∧
              WFFrom t1 t2 (o + 1) (n + 1) (Op.insert L :: tl)
            refine ⟨?_, hIH⟩
            intro j hj
            have hj0 : j = 0 := by omega
            subst hj0
            simpa using hhead
          | replace a b =>
            show (∀ j, j < 1 → t1.getD (o + j) "" = t2.getD (n + j) "") ∧
              WFFrom t1 t2 (o + 1) (n + 1) (Op.replace a b :: tl)
            refine ⟨?_, hIH⟩
            intro j hj
            have hj0 : j = 0 := by omega
            subst hj0
            simpa using hhead
      · have halignEq : align (x :: xs) (y :: ys) = Op.replace 1 1 :: align xs ys := by
          simp [align, hxy]
        rw [halignEq]
        show WFFrom t1 t2 (o + 1) (n + 1) (align xs ys)
        exact hIH

theorem align_wf (xs ys : List String) : WellFormed xs ys (align xs ys) :=
  align_wf_aux xs ys xs ys 0 0 (Nat.zero_le _) (Nat.zero_le _) rfl rfl



/-- A processor state that has recorded a change: either the current
accumulator has `changed` set (every change callback also sets its
`start`), or a hunk has already been emitted. -/
def Touched (p : Processor) : Prop :=
  (p.context.changed = true ∧ ∃ s, p.context.start = some s) ∨ p.result ≠ []

theorem pre_start_some (p : Processor) (o : Nat) :
    ∃ s, (p.pre o).context.start = some s := by
  rcases hst : p.context.start with _ | s
  · exact ⟨o, by simp [Processor.pre, hst]⟩
  · exact ⟨s, by simp [Processor.pre, hst]⟩

theorem pre_fields (p : Processor) (o : Nat) :
    (p.pre o).context.changed = p.context.changed ∧ (p.pre o).result = p.result := by
  rcases hst : p.context.start with _ | s <;> simp [Processor.pre, hst]

theorem pre_touched (p : Processor) (o : Nat) (h : Touched p) : Touched (p.pre o) := by
  rcases h with ⟨hch, -⟩ | hr
  · exact Or.inl ⟨(pre_fields p o).1.trans hch, pre_start_some p o⟩
  · exact Or.inr (by rw [(pre_fields p o).2]; exact hr)

theorem split_result_ne (p : Processor) (i : Option Nat) (h : Touched p) :
    (p.split_hunks i).result ≠ [] := by
  rw [split_hunks_eval]
  rcases h with ⟨hch, s, hs⟩ | hr
  · show (match Context.create_hunk _ p.removed p.inserted with
      | some hunk => p.result ++ [hunk]
      | none => p.result) ≠ []
    rw [show Context.create_hunk
        { p.context with
          data := p.context.data.take
            (p.context.data.length - (p.size - p.context_radius)),
          equaled := p.context.equaled - (p.size - p.context_radius) }
        p.removed p.inserted =
      some { old_start := if s = 0 then 1 else s,
             removed := p.context.equaled - (p.size - p.context_radius) + p.context.removed,
             new_start := (if s = 0 then 1 else s) + p.inserted - p.removed,
             inserted := p.context.equaled - (p.size - p.context_radius) + p.context.inserted,
             lines := p.context.data.take
               (p.context.data.length - (p.size - p.context_radius)) } from by
      simp [Context.create_hunk, hs, hch]]
    simp
  · show (match Context.create_hunk _ p.removed p.inserted with
      | some hunk => p.result ++ [hunk]
      | none => p.result) ≠ []
    rcases hck : Context.create_hunk
        { p.context with
          data := p.context.data.take
            (p.context.data.length - (p.size - p.context_radius)),
          equaled := p.context.equaled - (p.size - p.context_radius) }
        p.removed p.inserted with _ | hunk
    · exact hr
    · simp

theorem equalStep_touched (p : Processor) (i j : Nat) (h : Touched p) :
    Touched (p.equalStep i j) := by
  rcases hch : p.context.changed with _ | _
  · have hres : (p.equalStep i j).result = p.result := by
      by_cases hsz : p.size < p.context_radius <;> simp [Processor.equalStep, hch, hsz]
    rcases h with ⟨hc2, -⟩ | hr
    · rw [hch] at hc2
      exact absurd hc2 (by simp)
    · exact Or.inr (by rw [hres]; exact hr)
  · by_cases hsz : p.size < p.context_radius * 2
    · have heq : p.equalStep i j = { p with
          context := { p.context with
            data := p.context.data ++ [Line.unchanged i j (p.text1.getD i "")],
            equaled := p.context.equaled + 1 },
          size := p.size + 1 } := by
        simp [Processor.equalStep, hch, hsz]
      rw [heq]
      rcases h with ⟨-, s, hs⟩ | hr
      · exact Or.inl ⟨hch, s, hs⟩
      · exact Or.inr hr
    · have hres : (p.equalStep i j).result = (p.split_hunks (some i)).result := by
        simp [Processor.equalStep, hch, hsz]
      exact Or.inr (by rw [hres]; exact split_result_ne p (some i) h)

theorem equalLoop_touched (len : Nat) : ∀ (p : Processor) (i j : Nat), Touched p →
    Touched (p.equalLoop i j len) := by
  induction len with
  | zero => intro p i j h; exact h
  | succ len ih => intro p i j h; exact ih _ _ _ (equalStep_touched p i j h)

theorem change_touched (p : Processor) (o n : Nat) (op : Op) (hop : op.isEqual = false) :
    Touched (p.applyOp o n op) := by
  cases op with
  | equal len => simp [Op.isEqual] at hop
  | delete len => exact Or.inl ⟨rfl, pre_start_some p o⟩
  | insert len => exact Or.inl ⟨rfl, pre_start_some p o⟩
  | replace a b => exact Or.inl ⟨rfl, pre_start_some p o⟩

theorem applyOp_touched (p : Processor) (o n : Nat) (op : Op) (h : Touched p) :
    Touched (p.applyOp o n op) := by
  cases op with
  | equal len => exact equalLoop_touched len (p.pre o) o n (pre_touched p o h)
  | delete len => exact change_touched p o n (Op.delete len) rfl
  | insert len => exact change_touched p o n (Op.insert len) rfl
  | replace a b => exact change_touched p o n (Op.replace a b) rfl

theorem run_touched (script : List Op) : ∀ (p : Processor) (o n : Nat), Touched p →
    Touched (p.run o n script) := by
  induction script with
  | nil => intro p o n h; exact h
  | cons op rest ih => intro p o n h; exact ih _ _ _ (applyOp_touched p o n op h)

theorem run_change_touched (script : List Op) :
    ∀ (p : Processor) (o n : Nat), (∃ op ∈ script, op.isEqual = false) →
    Touched (p.run o n script) := by
  induction script with
  | nil =>
    rintro p o n ⟨op, hmem, -⟩
    simp at hmem
  | cons op rest ih =>
    rintro p o n ⟨op2, hmem, hop2⟩
    rcases List.mem_cons.mp hmem with rfl | hmem2
    · exact run_touched rest _ _ _ (change_touched p o n op2 hop2)
    · exact ih _ _ _ ⟨op2, hmem2, hop2⟩

theorem finish_touched (p : Processor) (h : Touched p) : (p.finish).result ≠ [] :=
  split_result_ne p none h

theorem equalStep_nochange (p : Processor) (i j : Nat)
    (hch : p.context.changed = false) :
    (p.equalStep i j).context.changed = false ∧ (p.equalStep i j).result = p.result := by
  by_cases hsz : p.size < p.context_radius <;>
    constructor <;> simp [Processor.equalStep, hch, hsz]

theorem equalLoop_nochange (len : Nat) : ∀ (p : Processor) (i j : Nat),
    p.context.changed = false →
    (p.equalLoop i j len).context.changed = false ∧
    (p.equalLoop i j len).result = p.result := by
  induction len with
  | zero => intro p i j h; exact ⟨h, rfl⟩
  | succ len ih =>
    intro p i j h
    obtain ⟨h1, h2⟩ := equalStep_nochange p i j h
    obtain ⟨h3, h4⟩ := ih (p.equalStep i j) (i + 1) (j + 1) h1
    exact ⟨h3, h4.trans h2⟩

theorem equal_nochange (p : Processor) (o n len : Nat)
    (hch : p.context.changed = false) :
    (p.equal o n len).context.changed = false ∧ (p.equal o n len).result = p.result := by
  obtain ⟨h1, h2⟩ := pre_fields p o
  obtain ⟨h3, h4⟩ := equalLoop_nochange len (p.pre o) o n (h1.trans hch)
  exact ⟨h3, h4.trans h2⟩

theorem run_nochange (script : List Op) : ∀ (p : Processor) (o n : Nat),
    (∀ op ∈ script, op.isEqual = true) →
    p.context.changed = false → p.result = [] →
    (p.run o n script).context.changed = false ∧ (p.run o n script).result = [] := by
  induction script with
  | nil => intro p o n _ h1 h2; exact ⟨h1, h2⟩
  | cons op rest ih =>
    intro p o n hall h1 h2
    cases op with
    | equal len =>
      obtain ⟨h3, h4⟩ := equal_nochange p o n len h1
      exact ih _ _ _ (fun op2 hm => hall op2 (List.mem_cons_of_mem _ hm)) h3 (h4.trans h2)
    | delete len =>
      have := hall (Op.delete len) (by simp)
      simp [Op.isEqual] at this
    | insert len =>
      have := hall (Op.insert len) (by simp)
      simp [Op.isEqual] at this
    | replace a b =>
      have := hall (Op.replace a b) (by simp)
      simp [Op.isEqual] at this

theorem finish_nochange (p : Processor) (hch : p.context.changed = false) :
    (p.finish).result = p.result := by
  have hck : Context.create_hunk
      { p.context with
        data := p.context.data.take
          (p.context.data.length - (p.size - p.context_radius)),
        equaled := p.context.equaled - (p.size - p.context_radius) }
      p.removed p.inserted = none := by
    rcases hst : p.context.start with _ | s
    · apply create_hunk_none_start
      exact hst
    · apply create_hunk_none_unchanged (s := s)
      · exact hst
      · exact hch
  show (p.split_hunks none).result = p.result
  rw [split_hunks_eval, hck]

theorem processScript_result_all_equal (text1 text2 : List String) (radius : Nat)
    (script : List Op) (hall : ∀ op ∈ script, op.isEqual = true) :
    (processScript text1 text2 radius script).result = [] := by
  obtain ⟨h1, h2⟩ :=
    run_nochange script (Processor.new text1 text2 radius) 0 0 hall rfl rfl
  have h3 := finish_nochange ((Processor.new text1 text2 radius).run 0 0 script) h1
  exact h3.trans h2

theorem processScript_result_change (text1 text2 : List String) (radius : Nat)
    (script : List Op) (op : Op) (hmem : op ∈ script) (hop : op.isEqual = false) :
    (processScript text1 text2 radius script).result ≠ [] :=
  finish_touched _ (run_change_touched script _ 0 0 ⟨op, hmem, hop⟩)

theorem align_self_equal : ∀ xs : List String, (align xs xs).all Op.isEqual = true := by
  intro xs
  induction xs with
  | nil => rfl
  | cons x xs ih =>
    have heq : align (x :: xs) (x :: xs) = alignPush (align xs xs) := by simp [align]
    rw [heq]
    rcases h : align xs xs with _ | ⟨op, tl⟩
    · rfl
    · rw [h] at ih
      cases op with
      | equal k =>
        simp [alignPush, Op.isEqual] at ih ⊢
        exact ih
      | delete L => simp [Op.isEqual] at ih
      | insert L => simp [Op.isEqual] at ih
      | replace a b => simp [Op.isEqual] at ih



theorem utf8Len_ge_length : ∀ cs : List Char, cs.length ≤ String.utf8Len cs := by
  intro cs
  induction cs with
  | nil => exact Nat.le_refl 0
  | cons c cs ih =>
    have hstep : String.utf8Len (c :: cs) = String.utf8Len cs + c.utf8Size := rfl
    have hc := Char.utf8Size_pos c
    simp only [List.length_cons, hstep]
    omega

theorem data_length_le_utf8ByteSize (s : String) : s.data.length ≤ s.utf8ByteSize := by
  have h1 := utf8Len_ge_length s.data
  have h2 : s.utf8ByteSize = String.utf8Len s.data := by
    cases s with
    | mk data => exact String.utf8ByteSize_mk data
  omega

theorem split_result_len (p : Processor) (i : Option Nat) :
    (p.split_hunks i).result.length ≤ p.result.length + 1 := by
  rw [split_hunks_eval]
  show (match Context.create_hunk
      { p.context with
        data := p.context.data.take
          (p.context.data.length - (p.size - p.context_radius)),
        equaled := p.context.equaled - (p.size - p.context_radius) }
      p.removed p.inserted with
    | some hunk => p.result ++ [hunk]
    | none => p.result).length ≤ p.result.length + 1
  rcases hck : Context.create_hunk
      { p.context with
        data := p.context.data.take
          (p.context.data.length - (p.size - p.context_radius)),
        equaled := p.context.equaled - (p.size - p.context_radius) }
      p.removed p.inserted with _ | hunk
  · simp
  · simp

theorem equalLoop_result_bounded (len : Nat) :
    ∀ (p : Processor) (o n : Nat), PInv p o n → (∃ s, p.context.start = some s) →
    o + len ≤ p.text1.length → n + len ≤ p.text2.length →
    (∀ k, k < len → p.text1.getD (o + k) "" = p.text2.getD (n + k) "") →
    1 ≤ p.context_radius → p.text1.length ≤ p.context_radius →
    (p.equalLoop o n len).result = p.result := by
  induction len with
  | zero => intro p o n _ _ _ _ _ _ _; rfl
  | succ len ih =>
    rintro p o n hInv ⟨s, hstart⟩ ho hn hc hr hb
    have hsz : p.size < p.context_radius * 2 := by
      obtain ⟨fr, -, hso, -⟩ := hInv.trailing
      omega
    have hres : (p.equalStep o n).result = p.result := by
      rcases hch : p.context.changed with _ | _
      · by_cases h2 : p.size < p.context_radius <;> simp [Processor.equalStep, hch, h2]
      · simp [Processor.equalStep, hch, hsz]
    have hc0 : p.text1.getD o "" = p.text2.getD n "" := by
      have := hc 0 (by omega)
      simpa using this
    obtain ⟨hQ, ⟨s2, hs2⟩, -⟩ := equalStep_spec p o n hInv (by omega) (by omega) hc0 hstart
    obtain ⟨ht1, ht2, hrad⟩ := equalStep_fields p o n
    have hrec := ih (p.equalStep o n) (o + 1) (n + 1) hQ ⟨s2, hs2⟩
      (by rw [ht1]; omega) (by rw [ht2]; omega)
      (fun k hk => by
        rw [ht1, ht2, show o + 1 + k = o + (k + 1) from by omega,
          show n + 1 + k = n + (k + 1) from by omega]
        exact hc (k + 1) (by omega))
      (by rw [hrad]; exact hr) (by rw [ht1, hrad]; exact hb)
    show ((p.equalStep o n).equalLoop (o + 1) (n + 1) len).result = p.result
    rw [hrec, hres]

theorem run_result_bounded (script : List Op) :
    ∀ (p : Processor) (o n : Nat), PInv p o n →
    WFFrom p.text1 p.text2 o n script →
    1 ≤ p.context_radius → p.text1.length ≤ p.context_radius →
    (p.run o n script).result = p.result := by
  induction script with
  | nil => intro p o n _ _ _ _; rfl
  | cons op rest ih =>
    intro p o n hInv hwf hr hb
    obtain ⟨hcov1, hcov2⟩ := WFFrom.coverage hwf
    have hsum1 : scriptOldLen (op :: rest) = op.oldLen + scriptOldLen rest := by
      simp [scriptOldLen]
    have hsum2 : scriptNewLen (op :: rest) = op.newLen + scriptNewLen rest := by
      simp [scriptNewLen]
    rw [hsum1] at hcov1
    rw [hsum2] at hcov2
    have ho : o + op.oldLen ≤ p.text1.length := by omega
    have hn : n + op.newLen ≤ p.text2.length := by omega
    have hrest : WFFrom p.text1 p.text2 (o + op.oldLen) (n + op.newLen) rest ∧
        (op.isEqual = true → ∀ k, k < op.oldLen →
          p.text1.getD (o + k) "" = p.text2.getD (n + k) "") := by
      cases op with
      | equal len => exact ⟨hwf.2, fun _ => hwf.1⟩
      | delete len => exact ⟨hwf, fun h => by simp [Op.isEqual] at h⟩
      | insert len => exact ⟨hwf, fun h => by simp [Op.isEqual] at h⟩
      | replace ol nl => exact ⟨hwf, fun h => by simp [Op.isEqual] at h⟩
    obtain ⟨hwfrest, hceq⟩ := hrest
    obtain ⟨hQ, hT1, hT2, hR, -⟩ := applyOp_spec p o n op hInv ho hn hceq
    have hres : (p.applyOp o n op).result = p.result := by
      cases op with
      | equal len =>
        obtain ⟨hQ2, hs2, ht1, ht2, hrad, -, hresPre, -⟩ := pre_spec p o n hInv
        have hloop := equalLoop_result_bounded len (p.pre o) o n hQ2 hs2
          (by rw [ht1]; exact ho) (by rw [ht2]; exact hn)
          (fun k hk => by rw [ht1, ht2]; exact hceq rfl k hk)
          (by rw [hrad]; exact hr) (by rw [ht1, hrad]; exact hb)
        show ((p.pre o).equalLoop o n len).result = p.result
        rw [hloop, hresPre]
      | delete len => exact (pre_fields p o).2
      | insert len => exact (pre_fields p o).2
      | replace ol nl => exact (pre_fields p o).2
    have hrec := ih (p.applyOp o n op) (o + op.oldLen) (n + op.newLen) hQ
      (by rw [hT1, hT2]; exact hwfrest) (by rw [hR]; exact hr)
      (by rw [hT1, hR]; exact hb)
    show ((p.applyOp o n op).run (o + op.oldLen) (n + op.newLen) rest).result = p.result
    rw [hrec, hres]



theorem compute_hunks_le_one (l r : List String) (rad : Nat)
    (hl : l.length ≤ rad) (hz : rad = 0 → l = [] ∧ r = []) :
    (Comparison.compute { left := l, right := r, context_radius := rad }).hunks.length ≤ 1 := by
  rcases Nat.eq_zero_or_pos rad with h0 | hpos
  · obtain ⟨hL, hR⟩ := hz h0
    subst hL
    subst hR
    subst h0
    decide
  · have hwf := align_wf l r
    have hrun := run_result_bounded (align l r) (Processor.new l r rad) 0 0
      (pinv_new l r rad) hwf hpos hl
    have hfin := split_result_len ((Processor.new l r rad).run 0 0 (align l r)) none
    show (((Processor.new l r rad).run 0 0 (align l r)).split_hunks none).result.length ≤ 1
    have h1 : ((Processor.new l r rad).run 0 0 (align l r)).result.length = 0 := by
      rw [hrun]
      rfl
    omega



theorem equalLoop_append (a : Nat) : ∀ (b : Nat) (p : Processor) (i j : Nat),
    p.equalLoop i j (a + b) = (p.equalLoop i j a).equalLoop (i + a) (j + a) b := by
  induction a with
  | zero =>
    intro b p i j
    rw [Nat.zero_add]
    rfl
  | succ a ih =>
    intro b p i j
    rw [show a + 1 + b = (a + b) + 1 from by omega]
    show (p.equalStep i j).equalLoop (i + 1) (j + 1) (a + b) = _
    rw [ih b (p.equalStep i j) (i + 1) (j + 1)]
    show _ = ((p.equalStep i j).equalLoop (i + 1) (j + 1) a).equalLoop
      (i + (a + 1)) (j + (a + 1)) b
    rw [show i + 1 + a = i + (a + 1) from by omega,
      show j + 1 + a = j + (a + 1) from by omega]

theorem unchRun_append (t1 : List String) (o n x : Nat) : ∀ y : Nat,
    unchRun t1 o n x ++ unchRun t1 (o + x) (n + x) y = unchRun t1 o n (x + y) := by
  intro y
  induction y with
  | zero =>
    rw [unchRun_zero, List.append_nil]
    rfl
  | succ y ih =>
    have h1 : unchRun t1 (o + x) (n + x) (y + 1) =
        unchRun t1 (o + x) (n + x) y ++
          [Line.unchanged (o + x + y) (n + x + y) (t1.getD (o + x + y) "")] :=
      (unchRun_concat t1 (o + x) (n + x) y).symm
    have h2 : unchRun t1 o n (x + (y + 1)) =
        unchRun t1 o n (x + y) ++
          [Line.unchanged (o + (x + y)) (n + (x + y)) (t1.getD (o + (x + y)) "")] := by
      rw [show x + (y + 1) = x + y + 1 from by omega]
      exact (unchRun_concat t1 o n (x + y)).symm
    rw [h1, h2, ← List.append_assoc, ih,
      show o + x + y = o + (x + y) from by omega,
      show n + x + y = n + (x + y) from by omega]

theorem equalLoop_push_changed (len : Nat) : ∀ (p : Processor) (i j : Nat),
    p.context.changed = true → p.size + len ≤ p.context_radius * 2 →
    p.equalLoop i j len = { p with
      context := { p.context with
        data := p.context.data ++ unchRun p.text1 i j len,
        equaled := p.context.equaled + len },
      size := p.size + len } := by
  induction len with
  | zero =>
    intro p i j _ _
    rw [unchRun_zero, List.append_nil]
    rfl
  | succ len ih =>
    intro p i j hch hsz
    have hlt : p.size < p.context_radius * 2 := by omega
    have hstep : p.equalStep i j = { p with
        context := { p.context with
          data := p.context.data ++ [Line.unchanged i j (p.text1.getD i "")],
          equaled := p.context.equaled + 1 },
        size := p.size + 1 } := by
      simp [Processor.equalStep, hch, hlt]
    show (p.equalStep i j).equalLoop (i + 1) (j + 1) len = _
    rw [hstep, ih { p with
        context := { p.context with
          data := p.context.data ++ [Line.unchanged i j (p.text1.getD i "")],
          equaled := p.context.equaled + 1 },
        size := p.size + 1 } (i + 1) (j + 1) hch
      (by show p.size + 1 + len ≤ p.context_radius * 2; omega)]
    rw [List.append_assoc, unchRun_cons,
      show p.context.equaled + 1 + len = p.context.equaled + (len + 1) from by omega,
      show p.size + 1 + len = p.size + (len + 1) from by omega]
    rfl

theorem equalLoop_push_gather (len : Nat) : ∀ (p : Processor) (i j : Nat),
    p.context.changed = false → p.size + len ≤ p.context_radius →
    p.equalLoop i j len = { p with
      context := { p.context with
        data := p.context.data ++ unchRun p.text1 i j len,
        equaled := p.context.equaled + len },
      size := p.size + len } := by
  induction len with
  | zero =>
    intro p i j _ _
    rw [unchRun_zero, List.append_nil]
    rfl
  | succ len ih =>
    intro p i j hch hsz
    have hlt : p.size < p.context_radius := by omega
    have hstep : p.equalStep i j = { p with
        context := { p.context with
          data := p.context.data ++ [Line.unchanged i j (p.text1.getD i "")],
          equaled := p.context.equaled + 1 },
        size := p.size + 1 } := by
      simp [Processor.equalStep, hch, hlt]
    show (p.equalStep i j).equalLoop (i + 1) (j + 1) len = _
    rw [hstep, ih { p with
        context := { p.context with
          data := p.context.data ++ [Line.unchanged i j (p.text1.getD i "")],
          equaled := p.context.equaled + 1 },
        size := p.size + 1 } (i + 1) (j + 1) hch
      (by show p.size + 1 + len ≤ p.context_radius; omega)]
    rw [List.append_assoc, unchRun_cons,
      show p.context.equaled + 1 + len = p.context.equaled + (len + 1) from by omega,
      show p.size + 1 + len = p.size + (len + 1) from by omega]
    rfl

theorem equalLoop_slide (len : Nat) : ∀ (p : Processor) (i j s : Nat),
    p.context.changed = false → p.context_radius ≤ p.size →
    p.context.start = some s →
    p.equalLoop i j len = { p with
      context := { p.context with
        data := (p.context.data ++ unchRun p.text1 i j len).drop len,
        start := some (s + len) } } := by
  induction len with
  | zero =>
    intro p i j s _ _ hst
    show p.equalLoop i j 0 = { p with
      context := { p.context with
        data := p.context.data ++ unchRun p.text1 i j 0, start := some s } }
    rw [unchRun_zero, List.append_nil, ← hst]
    rfl
  | succ len ih =>
    intro p i j s hch hsz hst
    have hnlt : ¬ p.size < p.context_radius := by omega
    have hst2 : p.context.start.map (· + 1) = some (s + 1) := by
      rw [hst]
      rfl
    have hstep : p.equalStep i j = { p with
        context := { p.context with
          data := (p.context.data ++ [Line.unchanged i j (p.text1.getD i "")]).tail,
          start := some (s + 1) } } := by
      rw [← hst2]
      simp [Processor.equalStep, hch, hnlt]
    show (p.equalStep i j).equalLoop (i + 1) (j + 1) len = _
    rw [hstep, ih { p with
        context := { p.context with
          data := (p.context.data ++ [Line.unchanged i j (p.text1.getD i "")]).tail,
          start := some (s + 1) } } (i + 1) (j + 1) (s + 1) hch hsz rfl]
    have hdata : (((p.context.data ++ [Line.unchanged i j (p.text1.getD i "")]).tail ++
          unchRun p.text1 (i + 1) (j + 1) len)).drop len =
        (p.context.data ++ unchRun p.text1 i j (len + 1)).drop (len + 1) := by
      rw [unchRun_cons, ← List.drop_one,
        ← List.drop_append_of_le_length (by simp), List.drop_drop, List.append_assoc]
      rw [show 1 + len = len + 1 from by omega]
      rfl
    rw [hdata, show s + 1 + len = s + (len + 1) from by omega]

theorem pre_some (p : Processor) (o s : Nat) (hst : p.context.start = some s) :
    p.pre o = { p with size := 0 } := by
  simp [Processor.pre, hst]

theorem pre_id (p : Processor) (o s : Nat) (hst : p.context.start = some s)
    (hsz : p.size = 0) : p.pre o = p := by
  rw [pre_some p o s hst, ← hsz]

theorem finish_changed (p : Processor) (s : Nat)
    (hch : p.context.changed = true) (hst : p.context.start = some s) :
    (p.finish).result = p.result ++
      [{ old_start := if s = 0 then 1 else s,
         removed := p.context.equaled - (p.size - p.context_radius) + p.context.removed,
         new_start := (if s = 0 then 1 else s) + p.inserted - p.removed,
         inserted := p.context.equaled - (p.size - p.context_radius) + p.context.inserted,
         lines := p.context.data.take
           (p.context.data.length - (p.size - p.context_radius)) }] := by
  show (p.split_hunks none).result = _
  rw [split_hunks_eval]
  show (match Context.create_hunk
      { p.context with
        data := p.context.data.take
          (p.context.data.length - (p.size - p.context_radius)),
        equaled := p.context.equaled - (p.size - p.context_radius) }
      p.removed p.inserted with
    | some hunk => p.result ++ [hunk]
    | none => p.result) = _
  rw [show Context.create_hunk
      { p.context with
        data := p.context.data.take
          (p.context.data.length - (p.size - p.context_radius)),
        equaled := p.context.equaled - (p.size - p.context_radius) }
      p.removed p.inserted =
    some { old_start := if s = 0 then 1 else s,
           removed := p.context.equaled - (p.size - p.context_radius) + p.context.removed,
           new_start := (if s = 0 then 1 else s) + p.inserted - p.removed,
           inserted := p.context.equaled - (p.size - p.context_radius) + p.context.inserted,
           lines := p.context.data.take
             (p.context.data.length - (p.size - p.context_radius)) } from by
    simp [Context.create_hunk, hst, hch]]



theorem split_hunks_after_push (p : Processor) (o n s : Nat)
    (hch : p.context.changed = true) (hsz : p.size = 0)
    (hst : p.context.start = some s) (hr : 1 ≤ p.context_radius) :
    ({ p with
      context := { p.context with
        data := p.context.data ++ unchRun p.text1 o n (p.context_radius * 2),
        equaled := p.context.equaled + p.context_radius * 2 },
      size := p.size + p.context_radius * 2 } : Processor).split_hunks
        (some (o + p.context_radius * 2)) =
    { p with
      inserted := p.inserted + p.context.inserted,
      removed := p.removed + p.context.removed,
      result := p.result ++
        [{ old_start := if s = 0 then 1 else s,
           removed := p.context.equaled + p.context_radius + p.context.removed,
           new_start := (if s = 0 then 1 else s) + p.inserted - p.removed,
           inserted := p.context.equaled + p.context_radius + p.context.inserted,
           lines := p.context.data ++ unchRun p.text1 o n p.context_radius }],
      context := { start := some (o + p.context_radius + 1),
                   data := unchRun p.text1 (o + p.context_radius + 1)
                     (n + p.context_radius + 1) (p.context_radius - 1),
                   changed := false, equaled := p.context_radius - 1,
                   removed := 0, inserted := 0 },
      size := p.context_radius - 1 } := by
  have e1 : (p.context.data ++ unchRun p.text1 o n (p.context_radius * 2)).length -
      (p.size + p.context_radius * 2 - p.context_radius) =
      p.context.data.length + p.context_radius := by
    simp only [List.length_append, unchRun_length]
    omega
  have e2 : (p.context.data ++ unchRun p.text1 o n (p.context_radius * 2)).take
      (p.context.data.length + p.context_radius) =
      p.context.data ++ unchRun p.text1 o n p.context_radius := by
    rw [List.take_append, unchRun_take _ _ _ _ _ (by omega)]
  have e3 : (p.context.data ++ unchRun p.text1 o n (p.context_radius * 2)).drop
      (p.context.data.length + p.context_radius) =
      unchRun p.text1 (o + p.context_radius) (n + p.context_radius) p.context_radius := by
    rw [List.drop_append, unchRun_drop]
    congr 1 <;> omega
  have e4 : (unchRun p.text1 (o + p.context_radius) (n + p.context_radius)
      p.context_radius).tail =
      unchRun p.text1 (o + p.context_radius + 1) (n + p.context_radius + 1)
        (p.context_radius - 1) := unchRun_tail _ _ _ _
  have e5 : p.context.equaled + p.context_radius * 2 -
      (p.size + p.context_radius * 2 - p.context_radius) =
      p.context.equaled + p.context_radius := by omega
  simp only [Processor.split_hunks, e1, e2, e3, e4, e5, unchRun_length,
    Context.create_hunk, hst, hch, Option.map_some, Option.map_some', if_true]
  rw [show o + p.context_radius * 2 - (p.context_radius - 1) =
    o + p.context_radius + 1 from by omega]



theorem equalLoop_split_mid (p : Processor) (o n len s : Nat)
    (hch : p.context.changed = true) (hsz : p.size = 0)
    (hst : p.context.start = some s) (hr : 1 ≤ p.context_radius)
    (hlen : p.context_radius * 2 < len) :
    p.equalLoop o n len = { p with
      inserted := p.inserted + p.context.inserted,
      removed := p.removed + p.context.removed,
      result := p.result ++
        [{ old_start := if s = 0 then 1 else s,
           removed := p.context.equaled + p.context_radius + p.context.removed,
           new_start := (if s = 0 then 1 else s) + p.inserted - p.removed,
           inserted := p.context.equaled + p.context_radius + p.context.inserted,
           lines := p.context.data ++ unchRun p.text1 o n p.context_radius }],
      context := { start := some (o + len - p.context_radius),
                   data := unchRun p.text1 (o + len - p.context_radius)
                     (n + len - p.context_radius) p.context_radius,
                   changed := false, equaled := p.context_radius,
                   removed := 0, inserted := 0 },
      size := p.context_radius } := by
  obtain ⟨k, rfl⟩ : ∃ k, len = p.context_radius * 2 + (k + 1) :=
    ⟨len - p.context_radius * 2 - 1, by omega⟩
  rw [equalLoop_append (p.context_radius * 2) (k + 1) p o n,
    equalLoop_push_changed (p.context_radius * 2) p o n hch (by omega)]
  have hcond : ¬ (p.size + p.context_radius * 2 < p.context_radius * 2) := by omega
  have econcat : unchRun p.text1 (o + p.context_radius + 1) (n + p.context_radius + 1)
        (p.context_radius - 1) ++
      [Line.unchanged (o + p.context_radius * 2) (n + p.context_radius * 2)
        (p.text1.getD (o + p.context_radius * 2) "")] =
      unchRun p.text1 (o + p.context_radius + 1) (n + p.context_radius + 1)
        p.context_radius := by
    rw [show o + p.context_radius * 2 =
        o + p.context_radius + 1 + (p.context_radius - 1) from by omega,
      show n + p.context_radius * 2 =
        n + p.context_radius + 1 + (p.context_radius - 1) from by omega,
      unchRun_concat,
      show p.context_radius - 1 + 1 = p.context_radius from by omega]
  have hstep : ({ p with
      context := { p.context with
        data := p.context.data ++ unchRun p.text1 o n (p.context_radius * 2),
        equaled := p.context.equaled + p.context_radius * 2 },
      size := p.size + p.context_radius * 2 } : Processor).equalStep
        (o + p.context_radius * 2) (n + p.context_radius * 2) =
    { p with
      inserted := p.inserted + p.context.inserted,
      removed := p.removed + p.context.removed,
      result := p.result ++
        [{ old_start := if s = 0 then 1 else s,
           removed := p.context.equaled + p.context_radius + p.context.removed,
           new_start := (if s = 0 then 1 else s) + p.inserted - p.removed,
           inserted := p.context.equaled + p.context_radius + p.context.inserted,
           lines := p.context.data ++ unchRun p.text1 o n p.context_radius }],
      context := { start := some (o + p.context_radius + 1),
                   data := unchRun p.text1 (o + p.context_radius + 1)
                       (n + p.context_radius + 1) p.context_radius,
                   changed := false, equaled := p.context_radius,
                   removed := 0, inserted := 0 },
      size := p.context_radius } := by
    simp only [Processor.equalStep]
    rw [if_pos hch, if_neg hcond, split_hunks_after_push p o n s hch hsz hst hr]
    dsimp only
    rw [econcat, show p.context_radius - 1 + 1 = p.context_radius from by omega]
  show (({ p with
      context := { p.context with
        data := p.context.data ++ unchRun p.text1 o n (p.context_radius * 2),
        equaled := p.context.equaled + p.context_radius * 2 },
      size := p.size + p.context_radius * 2 } : Processor).equalStep
        (o + p.context_radius * 2) (n + p.context_radius * 2)).equalLoop
      (o + p.context_radius * 2 + 1) (n + p.context_radius * 2 + 1) k = _
  rw [hstep]
  rw [equalLoop_slide k { p with
      inserted := p.inserted + p.context.inserted,
      removed := p.removed + p.context.removed,
      result := p.result ++
        [{ old_start := if s = 0 then 1 else s,
           removed := p.context.equaled + p.context_radius + p.context.removed,
           new_start := (if s = 0 then 1 else s) + p.inserted - p.removed,
           inserted := p.context.equaled + p.context_radius + p.context.inserted,
           lines := p.context.data ++ unchRun p.text1 o n p.context_radius }],
      context := { start := some (o + p.context_radius + 1),
                   data := unchRun p.text1 (o + p.context_radius + 1)
                       (n + p.context_radius + 1) p.context_radius,
                   changed := false, equaled := p.context_radius,
                   removed := 0, inserted := 0 },
      size := p.context_radius }
    (o + p.context_radius * 2 + 1) (n + p.context_radius * 2 + 1)
    (o + p.context_radius + 1) rfl (Nat.le_refl p.context_radius) rfl]
  have hdata : (unchRun p.text1 (o + p.context_radius + 1) (n + p.context_radius + 1)
        p.context_radius ++
      unchRun p.text1 (o + p.context_radius * 2 + 1) (n + p.context_radius * 2 + 1)
        k).drop k =
      unchRun p.text1 (o + (p.context_radius * 2 + (k + 1)) - p.context_radius)
        (n + (p.context_radius * 2 + (k + 1)) - p.context_radius) p.context_radius := by
    rw [show o + p.context_radius * 2 + 1 =
        o + p.context_radius + 1 + p.context_radius from by omega,
      show n + p.context_radius * 2 + 1 =
        n + p.context_radius + 1 + p.context_radius from by omega,
      unchRun_append, unchRun_drop]
    congr 1 <;> omega
  rw [hdata, show o + p.context_radius + 1 + k =
      o + (p.context_radius * 2 + (k + 1)) - p.context_radius from by omega]



theorem equal_finish_tail (p : Processor) (o n b s : Nat)
    (hch : p.context.changed = true) (hsz : p.size = 0)
    (hst : p.context.start = some s) (hr : 1 ≤ p.context_radius) :
    ((p.equal o n b).finish).result = p.result ++
      [{ old_start := if s = 0 then 1 else s,
         removed := p.context.equaled + min b p.context_radius + p.context.removed,
         new_start := (if s = 0 then 1 else s) + p.inserted - p.removed,
         inserted := p.context.equaled + min b p.context_radius + p.context.inserted,
         lines := p.context.data ++ unchRun p.text1 o n (min b p.context_radius) }] := by
  have hpre : p.pre o = p := pre_id p o s hst hsz
  show (((p.pre o).equalLoop o n b).finish).result = _
  rw [hpre]
  by_cases hb : b ≤ p.context_radius * 2
  · rw [equalLoop_push_changed b p o n hch (by omega)]
    rw [finish_changed { p with
        context := { p.context with
          data := p.context.data ++ unchRun p.text1 o n b,
          equaled := p.context.equaled + b },
        size := p.size + b } s hch hst]
    dsimp only
    have l1 : (p.context.data ++ unchRun p.text1 o n b).length -
        (p.size + b - p.context_radius) =
        p.context.data.length + min b p.context_radius := by
      simp only [List.length_append, unchRun_length]
      omega
    have l2 : (p.context.data ++ unchRun p.text1 o n b).take
        (p.context.data.length + min b p.context_radius) =
        p.context.data ++ unchRun p.text1 o n (min b p.context_radius) := by
      rw [List.take_append, unchRun_take _ _ _ _ _ (by omega)]
    have l3 : p.context.equaled + b - (p.size + b - p.context_radius) =
        p.context.equaled + min b p.context_radius := by omega
    rw [l1, l2, l3]
  · rw [equalLoop_split_mid p o n b s hch hsz hst hr (by omega)]
    rw [finish_nochange { p with
        inserted := p.inserted + p.context.inserted,
        removed := p.removed + p.context.removed,
        result := p.result ++
          [{ old_start := if s = 0 then 1 else s,
             removed := p.context.equaled + p.context_radius + p.context.removed,
             new_start := (if s = 0 then 1 else s) + p.inserted - p.removed,
             inserted := p.context.equaled + p.context_radius + p.context.inserted,
             lines := p.context.data ++ unchRun p.text1 o n p.context_radius }],
        context := { start := some (o + b - p.context_radius),
                     data := unchRun p.text1 (o + b - p.context_radius)
                       (n + b - p.context_radius) p.context_radius,
                     changed := false, equaled := p.context_radius,
                     removed := 0, inserted := 0 },
        size := p.context_radius } rfl]
    dsimp only
    rw [show min b p.context_radius = p.context_radius from by omega]

theorem replace_one_one (p : Processor) (o n : Nat) :
    p.replace o 1 n 1 = { p.pre o with
      context := { (p.pre o).context with
        data := (p.pre o).context.data ++
          [Line.replace_remove o (some n) ((p.pre o).text1.getD o ""),
           Line.replace_insert (some o) n ((p.pre o).text2.getD n "")],
        changed := true,
        removed := (p.pre o).context.removed + 1,
        inserted := (p.pre o).context.inserted + 1 } } := by
  simp only [Processor.replace]
  rw [show (List.range 1) = [0] from rfl]
  simp only [List.map_cons, List.map_nil]
  rw [if_pos (by omega : n + 0 < n + 1), if_pos (by omega : o + 0 < o + 1)]
  rw [show n + 0 = n from rfl, show o + 0 = o from rfl]
  rw [List.append_assoc]
  rfl



theorem equal_fresh (t1 t2 : List String) (r a : Nat) :
    (Processor.new t1 t2 r).equal 0 0 a =
    { text1 := t1, text2 := t2, context_radius := r, inserted := 0, removed := 0,
      context := { start := some (a - min a r),
                   data := unchRun t1 (a - min a r) (a - min a r) (min a r),
                   changed := false, equaled := min a r,
                   removed := 0, inserted := 0 },
      result := [], size := min a r } := by
  have hpre : (Processor.new t1 t2 r).pre 0 =
      { text1 := t1, text2 := t2, context_radius := r, inserted := 0, removed := 0,
        context := { start := some 0, data := [], changed := false,
                     equaled := 0, removed := 0, inserted := 0 },
        result := [], size := 0 } := rfl
  show (((Processor.new t1 t2 r).pre 0).equalLoop 0 0 a) = _
  rw [hpre]
  by_cases ha : a ≤ r
  · rw [equalLoop_push_gather a
      { text1 := t1, text2 := t2, context_radius := r, inserted := 0, removed := 0,
        context := { start := some 0, data := [], changed := false,
                     equaled := 0, removed := 0, inserted := 0 },
        result := [], size := 0 } 0 0 rfl (by show (0 : Nat) + a ≤ r; omega)]
    dsimp only
    rw [show min a r = a from by omega, show a - a = 0 from by omega]
    simp only [Nat.zero_add, List.nil_append]
  · obtain ⟨k, rfl⟩ : ∃ k, a = r + k := ⟨a - r, by omega⟩
    rw [equalLoop_append r k _ 0 0]
    rw [equalLoop_push_gather r
      { text1 := t1, text2 := t2, context_radius := r, inserted := 0, removed := 0,
        context := { start := some 0, data := [], changed := false,
                     equaled := 0, removed := 0, inserted := 0 },
        result := [], size := 0 } 0 0 rfl (by show (0 : Nat) + r ≤ r; omega)]
    dsimp only
    rw [equalLoop_slide k
      { text1 := t1, text2 := t2, context_radius := r, inserted := 0, removed := 0,
        context := { start := some 0, data := [] ++ unchRun t1 0 0 r, changed := false,
                     equaled := 0 + r, removed := 0, inserted := 0 },
        result := [], size := 0 + r } (0 + r) (0 + r) 0 rfl
      (by show r ≤ (0 : Nat) + r; omega) rfl]
    dsimp only
    have hdata : (([] ++ unchRun t1 0 0 r) ++ unchRun t1 (0 + r) (0 + r) k).drop k =
        unchRun t1 (0 + k) (0 + k) r := by
      rw [List.nil_append, unchRun_append, unchRun_drop]
      congr 1
      omega
    rw [hdata, show min (r + k) r = r from by omega, show r + k - r = k from by omega]
    simp only [Nat.zero_add, List.nil_append]



theorem c2_opening (t1 t2 : List String) (r a : Nat) :
    ((Processor.new t1 t2 r).equal 0 0 a).replace a 1 a 1 =
    { text1 := t1, text2 := t2, context_radius := r, inserted := 0, removed := 0,
      context := { start := some (a - min a r),
                   data := unchRun t1 (a - min a r) (a - min a r) (min a r) ++
                     [Line.replace_remove a (some a) (t1.getD a ""),
                      Line.replace_insert (some a) a (t2.getD a "")],
                   changed := true, equaled := min a r,
                   removed := 1, inserted := 1 },
      result := [], size := 0 } := by
  rw [equal_fresh, replace_one_one]
  rw [pre_some
    { text1 := t1, text2 := t2, context_radius := r, inserted := 0, removed := 0,
      context := { start := some (a - min a r),
                   data := unchRun t1 (a - min a r) (a - min a r) (min a r),
                   changed := false, equaled := min a r,
                   removed := 0, inserted := 0 },
      result := [], size := min a r } a (a - min a r) rfl]





theorem c2_pipeline_merge (t1 t2 : List String) (a m b r : Nat) (hr : 1 ≤ r)
    (hm : m ≤ r * 2) :
    (processScript t1 t2 r
      [Op.equal a, Op.replace 1 1, Op.equal m, Op.replace 1 1, Op.equal b]).result =
    [{ old_start := if a - min a r = 0 then 1 else a - min a r,
       removed := min a r + m + min b r + 2,
       new_start := if a - min a r = 0 then 1 else a - min a r,
       inserted := min a r + m + min b r + 2,
       lines := unchRun t1 (a - min a r) (a - min a r) (min a r) ++
         [Line.replace_remove a (some a) (t1.getD a ""),
          Line.replace_insert (some a) a (t2.getD a "")] ++
         unchRun t1 (a + 1) (a + 1) m ++
         [Line.replace_remove (a + m + 1) (some (a + m + 1)) (t1.getD (a + m + 1) ""),
          Line.replace_insert (some (a + m + 1)) (a + m + 1) (t2.getD (a + m + 1) "")] ++
         unchRun t1 (a + m + 2) (a + m + 2) (min b r) }] := by
  show ((((((Processor.new t1 t2 r).equal 0 0 a).replace (0 + a) 1 (0 + a) 1).equal
      (0 + a + 1) (0 + a + 1) m).replace (0 + a + 1 + m) 1 (0 + a + 1 + m) 1).equal
      (0 + a + 1 + m + 1) (0 + a + 1 + m + 1) b).finish.result = _
  simp only [Nat.zero_add]
  rw [c2_opening t1 t2 r a]
  have hP2eq :
      (
      { text1 := t1, text2 := t2, context_radius := r, inserted := 0, removed := 0,
        context := { start := some (a - min a r),
                     data := unchRun t1 (a - min a r) (a - min a r) (min a r) ++
                       [Line.replace_remove a (some a) (t1.getD a ""),
                        Line.replace_insert (some a) a (t2.getD a "")],
                     changed := true, equaled := min a r,
                     removed := 1, inserted := 1 },
        result := [], size := 0 }
        : Processor).equal (a + 1) (a + 1) m =
      (
      { text1 := t1, text2 := t2, context_radius := r, inserted := 0, removed := 0,
        context := { start := some (a - min a r),
                     data := unchRun t1 (a - min a r) (a - min a r) (min a r) ++
                       [Line.replace_remove a (some a) (t1.getD a ""),
                        Line.replace_insert (some a) a (t2.getD a "")],
                     changed := true, equaled := min a r,
                     removed := 1, inserted := 1 },
        result := [], size := 0 }
        : Processor).equalLoop (a + 1) (a + 1) m := by
    show ((
      { text1 := t1, text2 := t2, context_radius := r, inserted := 0, removed := 0,
        context := { start := some (a - min a r),
                     data := unchRun t1 (a - min a r) (a - min a r) (min a r) ++
                       [Line.replace_remove a (some a) (t1.getD a ""),
                        Line.replace_insert (some a) a (t2.getD a "")],
                     changed := true, equaled := min a r,
                     removed := 1, inserted := 1 },
        result := [], size := 0 }
        : Processor).pre (a + 1)).equalLoop (a + 1) (a + 1) m = _
    rw [pre_id (
      { text1 := t1, text2 := t2, context_radius := r, inserted := 0, removed := 0,
        context := { start := some (a - min a r),
                     data := unchRun t1 (a - min a r) (a - min a r) (min a r) ++
                       [Line.replace_remove a (some a) (t1.getD a ""),
                        Line.replace_insert (some a) a (t2.getD a "")],
                     changed := true, equaled := min a r,
                     removed := 1, inserted := 1 },
        result := [], size := 0 }
        : Processor) (a + 1) (a - min a r) rfl rfl]
  rw [hP2eq]
  rw [equalLoop_push_changed m (
      { text1 := t1, text2 := t2, context_radius := r, inserted := 0, removed := 0,
        context := { start := some (a - min a r),
                     data := unchRun t1 (a - min a r) (a - min a r) (min a r) ++
                       [Line.replace_remove a (some a) (t1.getD a ""),
                        Line.replace_insert (some a) a (t2.getD a "")],
                     changed := true, equaled := min a r,
                     removed := 1, inserted := 1 },
        result := [], size := 0 }
      : Processor) (a + 1) (a + 1) rfl
    (by show (0 : Nat) + m ≤ r * 2; omega)]
  dsimp only
  rw [replace_one_one (
      { text1 := t1, text2 := t2, context_radius := r, inserted := 0, removed := 0,
        context := { start := some (a - min a r),
                     data := (unchRun t1 (a - min a r) (a - min a r) (min a r) ++
                       [Line.replace_remove a (some a) (t1.getD a ""),
                        Line.replace_insert (some a) a (t2.getD a "")]) ++
                       unchRun t1 (a + 1) (a + 1) m,
                     changed := true, equaled := min a r + m,
                     removed := 1, inserted := 1 },
        result := [], size := 0 + m }
      : Processor) (a + 1 + m) (a + 1 + m)]
  rw [pre_some (
      { text1 := t1, text2 := t2, context_radius := r, inserted := 0, removed := 0,
        context := { start := some (a - min a r),
                     data := (unchRun t1 (a - min a r) (a - min a r) (min a r) ++
                       [Line.replace_remove a (some a) (t1.getD a ""),
                        Line.replace_insert (some a) a (t2.getD a "")]) ++
                       unchRun t1 (a + 1) (a + 1) m,
                     changed := true, equaled := min a r + m,
                     removed := 1, inserted := 1 },
        result := [], size := 0 + m }
      : Processor) (a + 1 + m) (a - min a r) rfl]
  dsimp only
  rw [equal_finish_tail (
      { text1 := t1, text2 := t2, context_radius := r, inserted := 0, removed := 0,
        context := { start := some (a - min a r),
                     data := ((unchRun t1 (a - min a r) (a - min a r) (min a r) ++
                       [Line.replace_remove a (some a) (t1.getD a ""),
                        Line.replace_insert (some a) a (t2.getD a "")]) ++
                       unchRun t1 (a + 1) (a + 1) m) ++
                       [Line.replace_remove (a + 1 + m) (some (a + 1 + m))
                          (t1.getD (a + 1 + m) ""),
                        Line.replace_insert (some (a + 1 + m)) (a + 1 + m)
                          (t2.getD (a + 1 + m) "")],
                     changed := true, equaled := min a r + m,
                     removed := 1 + 1, inserted := 1 + 1 },
        result := [], size := 0 }
      : Processor) (a + 1 + m + 1) (a + 1 + m + 1) b (a - min a r) rfl rfl rfl hr]
  dsimp only
  simp only [List.nil_append]
  rw [show a + 1 + m + 1 = a + m + 2 from by omega,
    show a + 1 + m = a + m + 1 from by omega]
  rfl



theorem c2_pipeline_split (t1 t2 : List String) (a m b r : Nat) (hr : 1 ≤ r)
    (hm : r * 2 < m) :
    (processScript t1 t2 r
      [Op.equal a, Op.replace 1 1, Op.equal m, Op.replace 1 1, Op.equal b]).result =
    [{ old_start := if a - min a r = 0 then 1 else a - min a r,
       removed := min a r + r + 1,
       new_start := if a - min a r = 0 then 1 else a - min a r,
       inserted := min a r + r + 1,
       lines := unchRun t1 (a - min a r) (a - min a r) (min a r) ++
         [Line.replace_remove a (some a) (t1.getD a ""),
          Line.replace_insert (some a) a (t2.getD a "")] ++
         unchRun t1 (a + 1) (a + 1) r },
     { old_start := a + m + 1 - r,
       removed := r + min b r + 1,
       new_start := a + m + 1 - r,
       inserted := r + min b r + 1,
       lines := unchRun t1 (a + m + 1 - r) (a + m + 1 - r) r ++
         [Line.replace_remove (a + m + 1) (some (a + m + 1)) (t1.getD (a + m + 1) ""),
          Line.replace_insert (some (a + m + 1)) (a + m + 1) (t2.getD (a + m + 1) "")] ++
         unchRun t1 (a + m + 2) (a + m + 2) (min b r) }] := by
  show ((((((Processor.new t1 t2 r).equal 0 0 a).replace (0 + a) 1 (0 + a) 1).equal
      (0 + a + 1) (0 + a + 1) m).replace (0 + a + 1 + m) 1 (0 + a + 1 + m) 1).equal
      (0 + a + 1 + m + 1) (0 + a + 1 + m + 1) b).finish.result = _
  simp only [Nat.zero_add]
  rw [c2_opening t1 t2 r a]
  have hP2eq :
      (
      { text1 := t1, text2 := t2, context_radius := r, inserted := 0, removed := 0,
        context := { start := some (a - min a r),
                     data := unchRun t1 (a - min a r) (a - min a r) (min a r) ++
                       [Line.replace_remove a (some a) (t1.getD a ""),
                        Line.replace_insert (some a) a (t2.getD a "")],
                     changed := true, equaled := min a r,
                     removed := 1, inserted := 1 },
        result := [], size := 0 }
        : Processor).equal (a + 1) (a + 1) m =
      (
      { text1 := t1, text2 := t2, context_radius := r, inserted := 0, removed := 0,
        context := { start := some (a - min a r),
                     data := unchRun t1 (a - min a r) (a - min a r) (min a r) ++
                       [Line.replace_remove a (some a) (t1.getD a ""),
                        Line.replace_insert (some a) a (t2.getD a "")],
                     changed := true, equaled := min a r,
                     removed := 1, inserted := 1 },
        result := [], size := 0 }
        : Processor).equalLoop (a + 1) (a + 1) m := by
    show ((
      { text1 := t1, text2 := t2, context_radius := r, inserted := 0, removed := 0,
        context := { start := some (a - min a r),
                     data := unchRun t1 (a - min a r) (a - min a r) (min a r) ++
                       [Line.replace_remove a (some a) (t1.getD a ""),
                        Line.replace_insert (some a) a (t2.getD a "")],
                     changed := true, equaled := min a r,
                     removed := 1, inserted := 1 },
        result := [], size := 0 }
        : Processor).pre (a + 1)).equalLoop (a + 1) (a + 1) m = _
    rw [pre_id (
      { text1 := t1, text2 := t2, context_radius := r, inserted := 0, removed := 0,
        context := { start := some (a - min a r),
                     data := unchRun t1 (a - min a r) (a - min a r) (min a r) ++
                       [Line.replace_remove a (some a) (t1.getD a ""),
                        Line.replace_insert (some a) a (t2.getD a "")],
                     changed := true, equaled := min a r,
                     removed := 1, inserted := 1 },
        result := [], size := 0 }
        : Processor) (a + 1) (a - min a r) rfl rfl]
  rw [hP2eq]
  rw [equalLoop_split_mid (
      { text1 := t1, text2 := t2, context_radius := r, inserted := 0, removed := 0,
        context := { start := some (a - min a r),
                     data := unchRun t1 (a - min a r) (a - min a r) (min a r) ++
                       [Line.replace_remove a (some a) (t1.getD a ""),
                        Line.replace_insert (some a) a (t2.getD a "")],
                     changed := true, equaled := min a r,
                     removed := 1, inserted := 1 },
        result := [], size := 0 }
      : Processor) (a + 1) (a + 1) m (a - min a r) rfl rfl rfl hr hm]
  dsimp only
  simp only [Nat.zero_add, Nat.add_zero, Nat.sub_zero, List.nil_append]
  rw [replace_one_one (
      { text1 := t1, text2 := t2, context_radius := r, inserted := 1, removed := 1,
        context := { start := some (a + 1 + m - r),
                     data := unchRun t1 (a + 1 + m - r) (a + 1 + m - r) r,
                     changed := false, equaled := r,
                     removed := 0, inserted := 0 },
        result :=
          [
                 { old_start := if a - min a r = 0 then 1 else a - min a r,
                   removed := min a r + r + 1,
                   new_start := if a - min a r = 0 then 1 else a - min a r,
                   inserted := min a r + r + 1,
                   lines := unchRun t1 (a - min a r) (a - min a r) (min a r) ++
                     [Line.replace_remove a (some a) (t1.getD a ""),
                      Line.replace_insert (some a) a (t2.getD a "")] ++
                     unchRun t1 (a + 1) (a + 1) r }],
        size := r }
      : Processor) (a + 1 + m) (a + 1 + m)]
  rw [pre_some (
      { text1 := t1, text2 := t2, context_radius := r, inserted := 1, removed := 1,
        context := { start := some (a + 1 + m - r),
                     data := unchRun t1 (a + 1 + m - r) (a + 1 + m - r) r,
                     changed := false, equaled := r,
                     removed := 0, inserted := 0 },
        result :=
          [
                 { old_start := if a - min a r = 0 then 1 else a - min a r,
                   removed := min a r + r + 1,
                   new_start := if a - min a r = 0 then 1 else a - min a r,
                   inserted := min a r + r + 1,
                   lines := unchRun t1 (a - min a r) (a - min a r) (min a r) ++
                     [Line.replace_remove a (some a) (t1.getD a ""),
                      Line.replace_insert (some a) a (t2.getD a "")] ++
                     unchRun t1 (a + 1) (a + 1) r }],
        size := r }
      : Processor) (a + 1 + m) (a + 1 + m - r) rfl]
  dsimp only
  simp only [Nat.zero_add]
  rw [equal_finish_tail (
      { text1 := t1, text2 := t2, context_radius := r, inserted := 1, removed := 1,
        context := { start := some (a + 1 + m - r),
                     data := unchRun t1 (a + 1 + m - r) (a + 1 + m - r) r ++
                       [Line.replace_remove (a + 1 + m) (some (a + 1 + m))
                          (t1.getD (a + 1 + m) ""),
                        Line.replace_insert (some (a + 1 + m)) (a + 1 + m)
                          (t2.getD (a + 1 + m) "")],
                     changed := true, equaled := r,
                     removed := 1, inserted := 1 },
        result :=
          [
                 { old_start := if a - min a r = 0 then 1 else a - min a r,
                   removed := min a r + r + 1,
                   new_start := if a - min a r = 0 then 1 else a - min a r,
                   inserted := min a r + r + 1,
                   lines := unchRun t1 (a - min a r) (a - min a r) (min a r) ++
                     [Line.replace_remove a (some a) (t1.getD a ""),
                      Line.replace_insert (some a) a (t2.getD a "")] ++
                     unchRun t1 (a + 1) (a + 1) r }],
        size := 0 }
      : Processor) (a + 1 + m + 1) (a + 1 + m + 1) b (a + 1 + m - r) rfl rfl rfl hr]
  dsimp only
  rw [show a + 1 + m + 1 = a + m + 2 from by omega,
    show a + 1 + m = a + m + 1 from by omega]
  rw [if_neg (show ¬ (a + m + 1 - r = 0) from by omega)]
  rfl



theorem leadingUnchanged_all_then (ys : List Line)
    (hys : ∀ y ∈ ys, y.kind = LineKind.Unchanged)
    (l : Line) (hl : ¬ l.kind = LineKind.Unchanged) (rest : List Line) :
    leadingUnchanged (ys ++ l :: rest) = ys.length := by
  induction ys with
  | nil =>
    show (List.takeWhile _ (l :: rest)).length = 0
    rw [List.takeWhile_cons_of_neg (by simp [hl])]
    rfl
  | cons y ys ih =>
    have hy : y.kind = LineKind.Unchanged := hys y (by simp)
    show (List.takeWhile _ (y :: (ys ++ l :: rest))).length = ys.length + 1
    rw [List.takeWhile_cons_of_pos (by simp [hy])]
    simp only [List.length_cons]
    show leadingUnchanged (ys ++ l :: rest) + 1 = ys.length + 1
    rw [ih (fun z hz => hys z (by simp [hz]))]

theorem leadingUnchanged_append_of_lt (x z : List Line)
    (h : leadingUnchanged x < x.length) :
    leadingUnchanged (x ++ z) = leadingUnchanged x := by
  induction x with
  | nil => simp [leadingUnchanged] at h
  | cons y x ih =>
    by_cases hy : (y.kind == LineKind.Unchanged) = true
    · show (List.takeWhile (fun l => l.kind == LineKind.Unchanged) (y :: (x ++ z))).length = _
      rw [List.takeWhile_cons_of_pos (p := fun (l : Line) => l.kind == LineKind.Unchanged) hy]
      have hx : leadingUnchanged (y :: x) =
          (List.takeWhile (fun l => l.kind == LineKind.Unchanged) x).length + 1 := by
        show (List.takeWhile (fun l => l.kind == LineKind.Unchanged) (y :: x)).length = _
        rw [List.takeWhile_cons_of_pos (p := fun (l : Line) => l.kind == LineKind.Unchanged) hy]
        rfl
      rw [hx]
      have hlt : leadingUnchanged x < x.length := by
        have h2 := h
        rw [hx] at h2
        simp only [List.length_cons] at h2
        show (List.takeWhile (fun l => l.kind == LineKind.Unchanged) x).length < x.length
        omega
      have h3 := ih hlt
      show leadingUnchanged (x ++ z) + 1 = _
      rw [h3]
      rfl
    · show (List.takeWhile (fun l => l.kind == LineKind.Unchanged) (y :: (x ++ z))).length = _
      rw [List.takeWhile_cons_of_neg (p := fun (l : Line) => l.kind == LineKind.Unchanged) hy]
      show 0 = (List.takeWhile (fun l => l.kind == LineKind.Unchanged) (y :: x)).length
      rw [List.takeWhile_cons_of_neg (p := fun (l : Line) => l.kind == LineKind.Unchanged) hy]
      rfl

theorem trailingUnchanged_shape (xs : List Line) (l1 l2 : Line)
    (hl2 : ¬ l2.kind = LineKind.Unchanged) (ys : List Line)
    (hys : ∀ y ∈ ys, y.kind = LineKind.Unchanged) :
    trailingUnchanged ((xs ++ [l1, l2]) ++ ys) = ys.length := by
  show leadingUnchanged (((xs ++ [l1, l2]) ++ ys).reverse) = ys.length
  rw [List.reverse_append, List.reverse_append]
  show leadingUnchanged (ys.reverse ++ l2 :: (l1 :: xs.reverse)) = ys.length
  rw [leadingUnchanged_all_then ys.reverse
    (fun y hy => hys y (List.mem_reverse.mp hy)) l2 hl2 (l1 :: xs.reverse),
    List.length_reverse]

theorem countUnch_unchRun (t1 : List String) (o n k : Nat) :
    countUnch (unchRun t1 o n k) = k :=
  countP_map_range_all (fun _ => rfl) k



theorem c2_wf (a m b : Nat) :
    WellFormed (List.replicate (a + m + b + 2) "z") (List.replicate (a + m + b + 2) "z")
      [Op.equal a, Op.replace 1 1, Op.equal m, Op.replace 1 1, Op.equal b] :=
  ⟨fun _ _ => rfl, fun _ _ => rfl, fun _ _ => rfl,
   by simp only [List.length_replicate]; omega,
   by simp only [List.length_replicate]; omega⟩



theorem kind_replace_remove (o : Nat) (np : Option Nat) (c : String) :
    ¬ (Line.replace_remove o np c).kind = LineKind.Unchanged := by
  simp [Line.replace_remove]

theorem kind_replace_insert (op : Option Nat) (n : Nat) (c : String) :
    ¬ (Line.replace_insert op n c).kind = LineKind.Unchanged := by
  simp [Line.replace_insert]


end Invariant

section Claims

/-- c3 counterexample: the claim states that `close` performs no
clamping of a zero start to one, but `Context::create_hunk` applied to
an accumulator whose start is `0` (with one removed and one inserted
line counted) reports `old_start = 1`, not `0`. -/
theorem c3_counterexample :
    Context.create_hunk
        { start := some 0, data := [], changed := true,
          equaled := 0, removed := 1, inserted := 1 } 0 0 =
      some { old_start := 1, new_start := 1, inserted := 1, removed := 1, lines := [] } := by
  decide

/-- c3 (amended): when the accumulator is closed, if `start` is unset
or no change has been seen no hunk is emitted; otherwise the emitted
hunk has `old_start = start` clamped from `0` to `1`,
`new_start = clamped start + total inserted so far - total removed so
far` (running totals across previously emitted hunks, subtraction
non-negative whenever `t + removedTot = start + insertedTot` has a
solution `t`), `removed = equaled + removed-in-accumulator`,
`inserted = equaled + inserted-in-accumulator`, and its lines are
exactly the buffered queue drained in order. -/
theorem c3_close_characterization (c : Context) (removedTot insertedTot : Nat) :
    ((c.start = none ∨ c.changed = false) →
        c.create_hunk removedTot insertedTot = none) ∧
    (∀ s t, c.start = some s → c.changed = true → t + removedTot = s + insertedTot →
        c.create_hunk removedTot insertedTot =
          some { old_start := if s = 0 then 1 else s,
                 new_start := if s = 0 then t + 1 else t,
                 inserted := c.equaled + c.inserted,
                 removed := c.equaled + c.removed,
                 lines := c.data }) := by
  constructor
  · rintro (hs | hc)
    · simp [Context.create_hunk, hs]
    · rcases h : c.start with _ | s
      · simp [Context.create_hunk, h]
      · simp [Context.create_hunk, h, hc]
  · intro s t hs hc ht
    have hns : (if s = 0 then 1 else s) + insertedTot - removedTot = if s = 0 then t + 1 else t := by
      split_ifs with h <;> omega
    simp [Context.create_hunk, hs, hc, hns]

/-- c3 witness: the amended characterization applied to a concrete
accumulator. -/
theorem c3_close_characterization_witness :
    ((Context.mk (some 5) [] true 2 1 0).create_hunk 1 1 =
      some { old_start := 5, new_start := 5, inserted := 2, removed := 3, lines := [] }) :=
  (c3_close_characterization (Context.mk (some 5) [] true 2 1 0) 1 1).2 5 5 rfl rfl rfl

/-- c8: comparing `["A B C","D E F"]` against `["A B D","E F G"]` with
radius 3 (through the spec-modelled aligner, which emits two one-line
replace operations here) produces exactly one hunk, all of whose lines
are replace-paired, with `old_start = 1`, `removed = 2`,
`new_start = 1`, `inserted = 2`. -/
theorem c8_scenario_a :
    ((Comparison.mk ["A B C", "D E F"] ["A B D", "E F G"] 3).compute.hunks.map
        (fun h => (h.old_start, h.removed, h.new_start, h.inserted)) = [(1, 2, 1, 2)]) ∧
    ((Comparison.mk ["A B C", "D E F"] ["A B D", "E F G"] 3).compute.hunks.all
        (fun h => h.lines.all (fun l => l.kind.isReplaced)) = true) := by
  decide

/-- c9: when the alignment stage fails, `Comparison::compare`
propagates that failure verbatim as its error result and returns no
`CompareResult` (hence no partial hunks). -/
theorem c9_error_propagation (c : Comparison) (e : String) :
    c.compare (Except.error e) = Except.error e := rfl

/-- c1 counterexample: from the well-formed script `[replace 1 1]` on
`["a"]` vs `["b"]` the engine emits a hunk whose `-` replay is `["a"]`
(the old file from 0-based position 0), while `old_start = 1`; the
old file starting at `old_start` is empty, so replaying does not
reproduce the old lines starting at `old_start`. -/
theorem c1_counterexample :
    WellFormed ["a"] ["b"] [Op.replace 1 1] ∧
    ((processScript ["a"] ["b"] 3 [Op.replace 1 1]).result.map
        (fun h => (h.old_start, h.removed, replayOld h.lines,
                   (((["a"] : List String).drop h.old_start).take h.removed))) =
      [(1, 1, ["a"], [])]) := by
  decide

/-- c2 counterexample: with radius 0 and the well-formed script
`[replace 1 1, equal 1, replace 1 1]` (two changes separated by one
unchanged line, more than `2*radius`), the second emitted hunk carries
a leading run of 1 unchanged line, exceeding the radius 0. -/
theorem c2_counterexample :
    WellFormed ["a", "x", "b"] ["c", "x", "d"] [Op.replace 1 1, Op.equal 1, Op.replace 1 1] ∧
    ((processScript ["a", "x", "b"] ["c", "x", "d"] 0
        [Op.replace 1 1, Op.equal 1, Op.replace 1 1]).result.map
        (fun h => leadingUnchanged h.lines) = [0, 1]) := by
  decide

/-- c5 counterexample: with radius 0 and the well-formed script
`[insert 1, equal 1, insert 1, equal 1]`, two hunks are emitted whose
`old_start` fields are both 1, so `old_start` is not strictly
increasing. -/
theorem c5_counterexample :
    WellFormed ["x", "y"] ["a", "x", "b", "y"] [Op.insert 1, Op.equal 1, Op.insert 1, Op.equal 1] ∧
    ((processScript ["x", "y"] ["a", "x", "b", "y"] 0
        [Op.insert 1, Op.equal 1, Op.insert 1, Op.equal 1]).result.map Hunk.old_start = [1, 1]) ∧
    ¬ List.Chain' (fun a b => a.old_start < b.old_start)
        (processScript ["x", "y"] ["a", "x", "b", "y"] 0
          [Op.insert 1, Op.equal 1, Op.insert 1, Op.equal 1]).result := by
  refine ⟨by decide, by decide, ?_⟩
  intro h
  have := List.chain'_iff_get.mp h 0 (by decide)
  revert this
  decide

/-- c6: sub-line diffing splits `"Pośród"` and `"Posród"` into
Unicode-codepoint units (never splitting the multi-byte `ś` or `ó`),
and with radius equal to the max byte length the pipeline yields
exactly one sub-line hunk whose change lines substitute exactly the
single differing character `ś` by `s`; the merged rendering keeps the
remaining codepoints dim, highlights `s`, and spells `"Posród"`. -/
theorem c6_unicode_subline :
    ("Pośród".data.map (fun c => String.singleton c) = ["P", "o", "ś", "r", "ó", "d"]) ∧
    ((Comparison.mk ("Pośród".data.map (fun c => String.singleton c))
        ("Posród".data.map (fun c => String.singleton c))
        (max "Pośród".utf8ByteSize "Posród".utf8ByteSize)).compute.hunks.map
          (fun h => h.lines.filter (fun l => l.kind != LineKind.Unchanged)) =
      [[Line.replace_remove 2 (some 2) "ś", Line.replace_insert (some 2) 2 "s"]]) ∧
    (LineDiff.render (Line.replace_remove 1 (some 2) "Pośród")
        (Line.replace_insert (some 1) 2 "Posród") =
      [{ style := Style.dimmed, content := "P" }, { style := Style.dimmed, content := "o" },
       { style := Style.reversed, content := "s" }, { style := Style.dimmed, content := "r" },
       { style := Style.dimmed, content := "ó" }, { style := Style.dimmed, content := "d" }]) := by
  refine ⟨by decide, by decide, by decide⟩


/-- c1 (amended): for every hunk emitted by the hunk-assembly engine
from a well-formed edit script there are 0-based positions `s`, `t`
such that replaying the `-` and space lines in order reproduces
exactly `removed` contiguous old-file lines starting at `s`, and
replaying the `+` and space lines reproduces exactly `inserted`
contiguous new-file lines starting at `t`, where the reported
`old_start` and `new_start` are `s` and `t` themselves except when the
accumulator start was `0`, in which case `create_hunk` clamps them one
position up (see `c1_counterexample`). -/
theorem c1_hunk_reconstruction (text1 text2 : List String) (radius : Nat) (script : List Op)
    (hwf : WellFormed text1 text2 script) :
    ∀ h ∈ (processScript text1 text2 radius script).result, HunkSound text1 text2 h :=
  (processScript_spec text1 text2 radius script hwf).1

/-- c1 witness: the reconstruction soundness applied to a concrete
well-formed script. -/
theorem c1_hunk_reconstruction_witness :
    WellFormed ["a", "x", "b"] ["a", "y", "b"] [Op.equal 1, Op.replace 1 1, Op.equal 1] ∧
    ∀ h ∈ (processScript ["a", "x", "b"] ["a", "y", "b"] 3
        [Op.equal 1, Op.replace 1 1, Op.equal 1]).result,
      HunkSound ["a", "x", "b"] ["a", "y", "b"] h :=
  ⟨by decide, c1_hunk_reconstruction ["a", "x", "b"] ["a", "y", "b"] 3
    [Op.equal 1, Op.replace 1 1, Op.equal 1] (by decide)⟩

/-- c5 (amended): for every positive radius, the hunks produced from a
well-formed edit script have strictly increasing `old_start`, and the
old-file range covered by each hunk ends strictly before the
`old_start` of the next, so no two hunks overlap; at radius 0 this
fails (see `c5_counterexample`). -/
theorem c5_hunks_ordered (text1 text2 : List String) (radius : Nat) (script : List Op)
    (hr : 1 ≤ radius) (hwf : WellFormed text1 text2 script) :
    List.Chain' hunkOrdered (processScript text1 text2 radius script).result :=
  (processScript_spec text1 text2 radius script hwf).2.1 hr

/-- c5 witness: the ordering applied to a concrete script that emits
two hunks. -/
theorem c5_hunks_ordered_witness :
    1 ≤ 1 ∧
    WellFormed ["a", "x", "y", "z", "b"] ["c", "x", "y", "z", "d"]
      [Op.replace 1 1, Op.equal 3, Op.replace 1 1] ∧
    List.Chain' hunkOrdered (processScript ["a", "x", "y", "z", "b"]
      ["c", "x", "y", "z", "d"] 1 [Op.replace 1 1, Op.equal 3, Op.replace 1 1]).result :=
  ⟨Nat.le_refl 1, by decide,
   c5_hunks_ordered ["a", "x", "y", "z", "b"] ["c", "x", "y", "z", "d"] 1
     [Op.replace 1 1, Op.equal 3, Op.replace 1 1] (Nat.le_refl 1) (by decide)⟩

/-- c10: on every well-formed edit script the checked pipeline (every
`usize` subtraction of `create_hunk` and `split_hunks` modelled as a
`checkedSub` that fails on underflow) returns the unchecked result, so
hunk assembly never underflows its unsigned arithmetic and no
subtraction panics or wraps. -/
theorem c10_no_underflow (text1 text2 : List String) (radius : Nat) (script : List Op)
    (hwf : WellFormed text1 text2 script) :
    processScriptChk text1 text2 radius script =
      some (processScript text1 text2 radius script) :=
  (processScript_spec text1 text2 radius script hwf).2.2

/-- c10 witness: the checked pipeline agrees with the unchecked one on
a concrete well-formed script exercising a split. -/
theorem c10_no_underflow_witness :
    WellFormed ["a", "x", "y", "z", "b"] ["c", "x", "y", "z", "b"]
      [Op.replace 1 1, Op.equal 4] ∧
    processScriptChk ["a", "x", "y", "z", "b"] ["c", "x", "y", "z", "b"] 1
        [Op.replace 1 1, Op.equal 4] =
      some (processScript ["a", "x", "y", "z", "b"] ["c", "x", "y", "z", "b"] 1
        [Op.replace 1 1, Op.equal 4]) :=
  ⟨by decide, c10_no_underflow ["a", "x", "y", "z", "b"] ["c", "x", "y", "z", "b"] 1
    [Op.replace 1 1, Op.equal 4] (by decide)⟩



/-- c4: for every input sequence and radius, comparing the sequence to
itself yields a `CompareResult` with `is_empty() = true`; in general
`is_empty()` returns `true` if and only if the comparison found no
differences, i.e. the edit script contains no operation other than
`equal`. -/
theorem c4_identity_empty (left right : List String) (radius : Nat) :
    (left = right → (Comparison.mk left right radius).compute.is_empty = true) ∧
    ((Comparison.mk left right radius).compute.is_empty = true ↔
      (align left right).all Op.isEqual = true) := by
  have hiff : (Comparison.mk left right radius).compute.is_empty = true ↔
      (align left right).all Op.isEqual = true := by
    constructor
    · intro hemp
      by_contra hne
      rw [List.all_eq_true] at hne
      push_neg at hne
      obtain ⟨op, hmem, hop⟩ := hne
      have hop2 : op.isEqual = false := by
        cases hb : op.isEqual
        · rfl
        · exact absurd hb hop
      have hres : (processScript left right radius (align left right)).result = [] := by
        have := List.isEmpty_iff.mp hemp
        exact this
      exact processScript_result_change left right radius (align left right) op hmem hop2 hres
    · intro hall
      have hres := processScript_result_all_equal left right radius (align left right)
        (fun op hm => List.all_eq_true.mp hall op hm)
      show ((processScript left right radius (align left right)).result).isEmpty = true
      rw [hres]
      rfl
  refine ⟨fun he => ?_, hiff⟩
  subst he
  exact hiff.mpr (align_self_equal left)

/-- c4 witness: identity on a concrete sequence, and the general
characterization at a concrete differing pair. -/
theorem c4_identity_empty_witness :
    (Comparison.mk ["p", "q"] ["p", "q"] 3).compute.is_empty = true ∧
    ((Comparison.mk ["p", "q"] ["p", "r"] 3).compute.is_empty = true ↔
      (align ["p", "q"] ["p", "r"]).all Op.isEqual = true) :=
  ⟨(c4_identity_empty ["p", "q"] ["p", "q"] 3).1 rfl,
   (c4_identity_empty ["p", "q"] ["p", "r"] 3).2⟩



/-- c7: running the same alignment + hunk-assembly pipeline over the
two codepoint sequences of a paired line with the radius set to the
longer line byte length never triggers a split, so the resulting
`CompareResult` contains exactly zero or one hunk; when it is empty
the renderer emits the new (right) line unchanged, and otherwise it
builds the merged display by dropping `Removed`/`ReplaceRemoved`
codepoints and concatenating `Unchanged` codepoints in dim style with
`Inserted`/`ReplaceInserted` codepoints in highlighted (reversed)
style, in order. -/
theorem c7_subline_pipeline (left right : Line) :
    (Comparison.compute
        { left := left.inner.data.map (fun c => String.singleton c),
          right := right.inner.data.map (fun c => String.singleton c),
          context_radius := max left.inner.utf8ByteSize right.inner.utf8ByteSize
          }).hunks.length ≤ 1 ∧
    ((Comparison.compute
        { left := left.inner.data.map (fun c => String.singleton c),
          right := right.inner.data.map (fun c => String.singleton c),
          context_radius := max left.inner.utf8ByteSize right.inner.utf8ByteSize
          }).is_empty = true →
      LineDiff.render left right = [{ style := Style.line, content := right.inner }]) ∧
    (∀ h, (Comparison.compute
        { left := left.inner.data.map (fun c => String.singleton c),
          right := right.inner.data.map (fun c => String.singleton c),
          context_radius := max left.inner.utf8ByteSize right.inner.utf8ByteSize
          }).hunks = [h] →
      LineDiff.render left right = mergedFragments h) := by
  refine ⟨?_, ?_, ?_⟩
  · apply compute_hunks_le_one
    · rw [List.length_map]
      exact Nat.le_trans (data_length_le_utf8ByteSize left.inner) (Nat.le_max_left _ _)
    · intro h0
      rw [Nat.max_eq_zero_iff] at h0
      obtain ⟨hza, hzb⟩ := h0
      have h1 := data_length_le_utf8ByteSize left.inner
      have h2 := data_length_le_utf8ByteSize right.inner
      constructor
      · rw [List.length_eq_zero.mp (by omega : left.inner.data.length = 0)]
        rfl
      · rw [List.length_eq_zero.mp (by omega : right.inner.data.length = 0)]
        rfl
  · intro hemp
    simp [LineDiff.render, hemp]
  · intro h hh
    have hemp : (Comparison.compute
        { left := left.inner.data.map (fun c => String.singleton c),
          right := right.inner.data.map (fun c => String.singleton c),
          context_radius := max left.inner.utf8ByteSize right.inner.utf8ByteSize
          }).is_empty = false := by
      show (Comparison.compute
        { left := left.inner.data.map (fun c => String.singleton c),
          right := right.inner.data.map (fun c => String.singleton c),
          context_radius := max left.inner.utf8ByteSize right.inner.utf8ByteSize
          }).hunks.isEmpty = false
      rw [hh]
      rfl
    simp [LineDiff.render, hemp, hh]

/-- c7 witness: the empty-result branch at a concrete identical pair,
rendered as the unchanged right line. -/
theorem c7_subline_pipeline_witness :
    (Comparison.compute
        { left := (Line.unchanged 0 0 "ab").inner.data.map (fun c => String.singleton c),
          right := (Line.unchanged 0 0 "ab").inner.data.map (fun c => String.singleton c),
          context_radius := max (Line.unchanged 0 0 "ab").inner.utf8ByteSize
            (Line.unchanged 0 0 "ab").inner.utf8ByteSize }).is_empty = true ∧
    LineDiff.render (Line.unchanged 0 0 "ab") (Line.unchanged 0 0 "ab") =
      [{ style := Style.line, content := "ab" }] :=
  ⟨by decide,
   (c7_subline_pipeline (Line.unchanged 0 0 "ab") (Line.unchanged 0 0 "ab")).2.1 (by decide)⟩



/-- c2 (amended, radius at least 1; at radius 0 the bound fails, see the
counterexample): in the two-change scenario with `a` leading, `m`
separating and `b` trailing unchanged lines, the leading and trailing
context runs are `min a r` and `min b r`, never exceeding the radius
`r`; two changes separated by `m ≤ 2r` unchanged lines merge into one
hunk retaining all `m` separating lines; separated by `m > 2r` lines
they split into two hunks, the first closed with exactly the first `r`
trailing unchanged lines, the second carrying exactly `r` leading
unchanged lines with its `start` recomputed to `a + m + 1 - r` by
subtracting the retained line count. -/
theorem c2_context_bound_merge_split (a m b r : Nat) (hr : 1 ≤ r) :
    WellFormed (List.replicate (a + m + b + 2) "z") (List.replicate (a + m + b + 2) "z")
      [Op.equal a, Op.replace 1 1, Op.equal m, Op.replace 1 1, Op.equal b] ∧
    (m ≤ 2 * r →
      ∃ h, (processScript (List.replicate (a + m + b + 2) "z") (List.replicate (a + m + b + 2) "z") r
          [Op.equal a, Op.replace 1 1, Op.equal m, Op.replace 1 1, Op.equal b]).result =
        [h] ∧
        countUnch h.lines = min a r + m + min b r ∧
        leadingUnchanged h.lines = min a r ∧
        trailingUnchanged h.lines = min b r ∧
        min a r ≤ r ∧ min b r ≤ r) ∧
    (2 * r < m →
      ∃ h1 h2, (processScript (List.replicate (a + m + b + 2) "z") (List.replicate (a + m + b + 2) "z") r
          [Op.equal a, Op.replace 1 1, Op.equal m, Op.replace 1 1, Op.equal b]).result =
        [h1, h2] ∧
        trailingUnchanged h1.lines = r ∧
        leadingUnchanged h2.lines = r ∧
        h2.old_start = a + m + 1 - r) := by
  refine ⟨c2_wf a m b, ?_, ?_⟩
  · intro hm
    refine ⟨_, c2_pipeline_merge (List.replicate (a + m + b + 2) "z") (List.replicate (a + m + b + 2) "z") a m b r hr (by omega), ?_, ?_, ?_,
      by omega, by omega⟩
    · show countUnch (unchRun (List.replicate (a + m + b + 2) "z") (a - min a r) (a - min a r) (min a r) ++
          [Line.replace_remove a (some a) ((List.replicate (a + m + b + 2) "z").getD a ""), Line.replace_insert (some a) a ((List.replicate (a + m + b + 2) "z").getD a "")] ++ unchRun (List.replicate (a + m + b + 2) "z") (a + 1) (a + 1) m ++ [Line.replace_remove (a + m + 1) (some (a + m + 1)) ((List.replicate (a + m + b + 2) "z").getD (a + m + 1) ""), Line.replace_insert (some (a + m + 1)) (a + m + 1) ((List.replicate (a + m + b + 2) "z").getD (a + m + 1) "")] ++ unchRun (List.replicate (a + m + b + 2) "z") (a + m + 2) (a + m + 2) (min b r)) = min a r + m + min b r
      rw [countUnch_append, countUnch_append, countUnch_append, countUnch_append,
        countUnch_unchRun, countUnch_unchRun, countUnch_unchRun,
        show countUnch [Line.replace_remove a (some a) ((List.replicate (a + m + b + 2) "z").getD a ""), Line.replace_insert (some a) a ((List.replicate (a + m + b + 2) "z").getD a "")] = 0 from rfl,
        show countUnch [Line.replace_remove (a + m + 1) (some (a + m + 1)) ((List.replicate (a + m + b + 2) "z").getD (a + m + 1) ""), Line.replace_insert (some (a + m + 1)) (a + m + 1) ((List.replicate (a + m + b + 2) "z").getD (a + m + 1) "")] = 0 from rfl]
      omega
    · show leadingUnchanged (unchRun (List.replicate (a + m + b + 2) "z") (a - min a r) (a - min a r) (min a r) ++
          [Line.replace_remove a (some a) ((List.replicate (a + m + b + 2) "z").getD a ""), Line.replace_insert (some a) a ((List.replicate (a + m + b + 2) "z").getD a "")] ++ unchRun (List.replicate (a + m + b + 2) "z") (a + 1) (a + 1) m ++ [Line.replace_remove (a + m + 1) (some (a + m + 1)) ((List.replicate (a + m + b + 2) "z").getD (a + m + 1) ""), Line.replace_insert (some (a + m + 1)) (a + m + 1) ((List.replicate (a + m + b + 2) "z").getD (a + m + 1) "")] ++ unchRun (List.replicate (a + m + b + 2) "z") (a + m + 2) (a + m + 2) (min b r)) = min a r
      have hA : leadingUnchanged (unchRun (List.replicate (a + m + b + 2) "z") (a - min a r) (a - min a r) (min a r) ++ [Line.replace_remove a (some a) ((List.replicate (a + m + b + 2) "z").getD a ""), Line.replace_insert (some a) a ((List.replicate (a + m + b + 2) "z").getD a "")]) = min a r := by
        rw [leadingUnchanged_all_then (unchRun (List.replicate (a + m + b + 2) "z") (a - min a r) (a - min a r) (min a r))
          (unchRun_kinds _ _ _ _)
          (Line.replace_remove a (some a) ((List.replicate (a + m + b + 2) "z").getD a ""))
          (kind_replace_remove _ _ _)
          [Line.replace_insert (some a) a ((List.replicate (a + m + b + 2) "z").getD a "")], unchRun_length]
      have hB := leadingUnchanged_append_of_lt (unchRun (List.replicate (a + m + b + 2) "z") (a - min a r) (a - min a r) (min a r) ++ [Line.replace_remove a (some a) ((List.replicate (a + m + b + 2) "z").getD a ""), Line.replace_insert (some a) a ((List.replicate (a + m + b + 2) "z").getD a "")]) (unchRun (List.replicate (a + m + b + 2) "z") (a + 1) (a + 1) m)
        (by rw [hA]; simp only [List.length_append, unchRun_length, List.length_cons,
          List.length_nil]; omega)
      have hC := leadingUnchanged_append_of_lt ((unchRun (List.replicate (a + m + b + 2) "z") (a - min a r) (a - min a r) (min a r) ++ [Line.replace_remove a (some a) ((List.replicate (a + m + b + 2) "z").getD a ""), Line.replace_insert (some a) a ((List.replicate (a + m + b + 2) "z").getD a "")]) ++ unchRun (List.replicate (a + m + b + 2) "z") (a + 1) (a + 1) m) ([Line.replace_remove (a + m + 1) (some (a + m + 1)) ((List.replicate (a + m + b + 2) "z").getD (a + m + 1) ""), Line.replace_insert (some (a + m + 1)) (a + m + 1) ((List.replicate (a + m + b + 2) "z").getD (a + m + 1) "")])
        (by rw [hB, hA]; simp only [List.length_append, unchRun_length, List.length_cons,
          List.length_nil]; omega)
      have hD := leadingUnchanged_append_of_lt (((unchRun (List.replicate (a + m + b + 2) "z") (a - min a r) (a - min a r) (min a r) ++ [Line.replace_remove a (some a) ((List.replicate (a + m + b + 2) "z").getD a ""), Line.replace_insert (some a) a ((List.replicate (a + m + b + 2) "z").getD a "")]) ++ unchRun (List.replicate (a + m + b + 2) "z") (a + 1) (a + 1) m) ++ [Line.replace_remove (a + m + 1) (some (a + m + 1)) ((List.replicate (a + m + b + 2) "z").getD (a + m + 1) ""), Line.replace_insert (some (a + m + 1)) (a + m + 1) ((List.replicate (a + m + b + 2) "z").getD (a + m + 1) "")])
        (unchRun (List.replicate (a + m + b + 2) "z") (a + m + 2) (a + m + 2) (min b r))
        (by rw [hC, hB, hA]; simp only [List.length_append, unchRun_length,
          List.length_cons, List.length_nil]; omega)
      rw [hD, hC, hB, hA]
    · show trailingUnchanged (unchRun (List.replicate (a + m + b + 2) "z") (a - min a r) (a - min a r) (min a r) ++
          [Line.replace_remove a (some a) ((List.replicate (a + m + b + 2) "z").getD a ""), Line.replace_insert (some a) a ((List.replicate (a + m + b + 2) "z").getD a "")] ++ unchRun (List.replicate (a + m + b + 2) "z") (a + 1) (a + 1) m ++ [Line.replace_remove (a + m + 1) (some (a + m + 1)) ((List.replicate (a + m + b + 2) "z").getD (a + m + 1) ""), Line.replace_insert (some (a + m + 1)) (a + m + 1) ((List.replicate (a + m + b + 2) "z").getD (a + m + 1) "")] ++ unchRun (List.replicate (a + m + b + 2) "z") (a + m + 2) (a + m + 2) (min b r)) = min b r
      rw [trailingUnchanged_shape ((unchRun (List.replicate (a + m + b + 2) "z") (a - min a r) (a - min a r) (min a r) ++ [Line.replace_remove a (some a) ((List.replicate (a + m + b + 2) "z").getD a ""), Line.replace_insert (some a) a ((List.replicate (a + m + b + 2) "z").getD a "")]) ++ unchRun (List.replicate (a + m + b + 2) "z") (a + 1) (a + 1) m)
        (Line.replace_remove (a + m + 1) (some (a + m + 1)) ((List.replicate (a + m + b + 2) "z").getD (a + m + 1) ""))
        (Line.replace_insert (some (a + m + 1)) (a + m + 1) ((List.replicate (a + m + b + 2) "z").getD (a + m + 1) ""))
        (kind_replace_insert _ _ _) (unchRun (List.replicate (a + m + b + 2) "z") (a + m + 2) (a + m + 2) (min b r)) (unchRun_kinds _ _ _ _), unchRun_length]
  · intro hm
    refine ⟨_, _, c2_pipeline_split (List.replicate (a + m + b + 2) "z") (List.replicate (a + m + b + 2) "z") a m b r hr (by omega), ?_, ?_, rfl⟩
    · show trailingUnchanged (unchRun (List.replicate (a + m + b + 2) "z") (a - min a r) (a - min a r) (min a r) ++
          [Line.replace_remove a (some a) ((List.replicate (a + m + b + 2) "z").getD a ""), Line.replace_insert (some a) a ((List.replicate (a + m + b + 2) "z").getD a "")] ++ unchRun (List.replicate (a + m + b + 2) "z") (a + 1) (a + 1) r) = r
      rw [trailingUnchanged_shape (unchRun (List.replicate (a + m + b + 2) "z") (a - min a r) (a - min a r) (min a r))
        (Line.replace_remove a (some a) ((List.replicate (a + m + b + 2) "z").getD a ""))
        (Line.replace_insert (some a) a ((List.replicate (a + m + b + 2) "z").getD a ""))
        (kind_replace_insert _ _ _) (unchRun (List.replicate (a + m + b + 2) "z") (a + 1) (a + 1) r) (unchRun_kinds _ _ _ _), unchRun_length]
    · show leadingUnchanged (unchRun (List.replicate (a + m + b + 2) "z") (a + m + 1 - r) (a + m + 1 - r) r ++
          [Line.replace_remove (a + m + 1) (some (a + m + 1)) ((List.replicate (a + m + b + 2) "z").getD (a + m + 1) ""), Line.replace_insert (some (a + m + 1)) (a + m + 1) ((List.replicate (a + m + b + 2) "z").getD (a + m + 1) "")] ++ unchRun (List.replicate (a + m + b + 2) "z") (a + m + 2) (a + m + 2) (min b r)) = r
      have hA : leadingUnchanged (unchRun (List.replicate (a + m + b + 2) "z") (a + m + 1 - r) (a + m + 1 - r) r ++ [Line.replace_remove (a + m + 1) (some (a + m + 1)) ((List.replicate (a + m + b + 2) "z").getD (a + m + 1) ""), Line.replace_insert (some (a + m + 1)) (a + m + 1) ((List.replicate (a + m + b + 2) "z").getD (a + m + 1) "")]) = r := by
        rw [leadingUnchanged_all_then (unchRun (List.replicate (a + m + b + 2) "z") (a + m + 1 - r) (a + m + 1 - r) r)
          (unchRun_kinds _ _ _ _)
          (Line.replace_remove (a + m + 1) (some (a + m + 1)) ((List.replicate (a + m + b + 2) "z").getD (a + m + 1) ""))
          (kind_replace_remove _ _ _)
          [Line.replace_insert (some (a + m + 1)) (a + m + 1) ((List.replicate (a + m + b + 2) "z").getD (a + m + 1) "")],
          unchRun_length]
      have hB := leadingUnchanged_append_of_lt (unchRun (List.replicate (a + m + b + 2) "z") (a + m + 1 - r) (a + m + 1 - r) r ++ [Line.replace_remove (a + m + 1) (some (a + m + 1)) ((List.replicate (a + m + b + 2) "z").getD (a + m + 1) ""), Line.replace_insert (some (a + m + 1)) (a + m + 1) ((List.replicate (a + m + b + 2) "z").getD (a + m + 1) "")]) (unchRun (List.replicate (a + m + b + 2) "z") (a + m + 2) (a + m + 2) (min b r))
        (by rw [hA]; simp only [List.length_append, unchRun_length, List.length_cons,
          List.length_nil]; omega)
      rw [hB, hA]



/-- c2 witness: the split case at `a = 1`, `m = 3`, `b = 1`, `r = 1`. -/
theorem c2_context_bound_merge_split_witness :
    WellFormed (List.replicate (1 + 3 + 1 + 2) "z") (List.replicate (1 + 3 + 1 + 2) "z")
      [Op.equal 1, Op.replace 1 1, Op.equal 3, Op.replace 1 1, Op.equal 1] ∧
    ∃ h1 h2, (processScript (List.replicate (1 + 3 + 1 + 2) "z")
        (List.replicate (1 + 3 + 1 + 2) "z") 1
        [Op.equal 1, Op.replace 1 1, Op.equal 3, Op.replace 1 1, Op.equal 1]).result =
      [h1, h2] ∧
      trailingUnchanged h1.lines = 1 ∧
      leadingUnchanged h2.lines = 1 ∧
      h2.old_start = 1 + 3 + 1 - 1 :=
  ⟨(c2_context_bound_merge_split 1 3 1 1 (Nat.le_refl 1)).1,
   (c2_context_bound_merge_split 1 3 1 1 (Nat.le_refl 1)).2.2 (by omega)⟩


end Claims

end DiffUtils
